import Mathlib

/-!
uwnet: convolution, batch normalisation and max pooling kernels.

A shallow embedding of `src/convolutional_layer.c`, `src/batchnorm_layer.c`
and `src/maxpool_layer.c`, with the statements proved about it.

Conventions of the embedding.

* C `int` values are `Int`; C `/` and `%` on `int` are `Int.tdiv` and
  `Int.tmod` (truncation towards zero).  Division by zero traps in C and is
  outside the model (`Int.tdiv x 0 = 0` here); every statement below assumes
  the divisors it uses are positive.
* A `float *` buffer is a function `Int → α` from element offsets to values;
  pointer arithmetic `p + k` is a shift of the offset, a write is `store`.
  `float` arithmetic is arithmetic in a commutative ring (a field for batch
  normalisation) `α`: the statements are about exact arithmetic.
* A C `for (i = 0; i < n; ++i)` loop is `forRange n body`, which threads the
  state through the iterations `0, 1, ..., n-1` in this order.
* `assert` failures abort the process: a function that asserts returns
  `Option`, with `none` for the abort.
* Sizes are taken to fit in an `int`, so `int` arithmetic is exact, with one
  exception: `forward_convolutional_layer_call` computes the shape products
  of `forward_convolutional_layer` with the wrap-around of a 32-bit `int`
  (`int_mul`), which decides whether its first assertion holds.
-/

namespace Uwnet

/-! ## Loops and memory -/

/-- The first `k` iterations of a loop whose counter starts at `0`. -/
def loopN {σ : Type} (body : Int → σ → σ) : Nat → σ → σ
  | 0, s => s
  | k + 1, s => body (k : Int) (loopN body k s)

/-- The loop `for (i = 0; i < n; ++i) s = body i s`. -/
def forRange {σ : Type} (n : Int) (body : Int → σ → σ) (s : σ) : σ :=
  loopN body n.toNat s

/-- The write `d[p] = v`. -/
def store {α : Type} (d : Int → α) (p : Int) (v : α) : Int → α :=
  fun t => if t = p then v else d t

/-- The sum `f 0 + f 1 + ... + f (n-1)` over the counter values of a loop
with bound `n`. -/
def sumTo {α : Type} [AddCommMonoid α] (n : Int) (f : Int → α) : α :=
  ∑ i in Finset.range n.toNat, f (i : Int)

/-! ## Data model (`uwnet.h`) -/

/-- The C `matrix`: row count, column count and a row-major buffer. -/
structure matrix (α : Type) where
  rows : Int
  cols : Int
  data : Int → α

/-- The C `image`: width, height, channel count and a channel-major buffer. -/
structure image (α : Type) where
  w : Int
  h : Int
  c : Int
  data : Int → α

section Primitives

variable {α : Type} [CommRing α]

/-- Modelled from the spec: `make_matrix` of the matrix library, which is not
among the sources ("Matrix allocation ... zero-initialized"). -/
def make_matrix (rows cols : Int) : matrix α :=
  { rows := rows, cols := cols, data := fun _ => 0 }

/-- Modelled from the spec: `make_image` of the image library, which is not
among the sources ("a freshly zeroed image is produced"). -/
def make_image (w h c : Int) : image α :=
  { w := w, h := h, c := c, data := fun _ => 0 }

/-- Modelled from the spec: `copy_matrix` of the matrix library, which is not
among the sources: a fresh matrix of the same shape holding the same
`rows*cols` entries. -/
def copy_matrix (m : matrix α) : matrix α :=
  { rows := m.rows, cols := m.cols,
    data := fun t => if 0 ≤ t ∧ t < m.rows * m.cols then m.data t else 0 }

/-- Modelled from the spec: `float_to_image` of the image library, which is
not among the sources ("a zero-copy reinterpretation of a flat sample buffer
as an image view"). -/
def float_to_image (data : Int → α) (w h c : Int) : image α :=
  { w := w, h := h, c := c, data := data }

/-- Modelled from the spec: `matmul` of the matrix library, which is not
among the sources ("Matrix multiply"): the `a.rows × b.cols` product, entry
`(i, j)` being the sum over `k < a.cols` of `a[i][k] * b[k][j]`. -/
def matmul (a b : matrix α) : matrix α :=
  { rows := a.rows, cols := b.cols,
    data := fun t =>
      if 0 ≤ t ∧ t < a.rows * b.cols then
        sumTo a.cols (fun k =>
          a.data (t.tdiv b.cols * a.cols + k) * b.data (k * b.cols + t.tmod b.cols))
      else 0 }

/-- Modelled from the spec: `transpose_matrix` of the matrix library, which
is not among the sources ("transpose"): the `m.cols × m.rows` matrix with
entry `(j, i)` equal to `m[i][j]`. -/
def transpose_matrix (m : matrix α) : matrix α :=
  { rows := m.cols, cols := m.rows,
    data := fun t =>
      if 0 ≤ t ∧ t < m.cols * m.rows then
        m.data (t.tmod m.rows * m.cols + t.tdiv m.rows)
      else 0 }

/-- Modelled from the spec: `axpy_matrix(a, x, y)` of the matrix library,
which is not among the sources ("scaled-accumulate (`axpy: dst += alpha·src`)"):
the new value of the destination `y`. -/
def axpy_matrix (a : α) (x y : matrix α) : matrix α :=
  { y with data := fun t =>
      if 0 ≤ t ∧ t < x.rows * x.cols then y.data t + a * x.data t else y.data t }

/-- Modelled from the spec: `scal_matrix(a, x)` of the matrix library, which
is not among the sources ("scaled-in-place (`scal`)"): the new value of `x`. -/
def scal_matrix (a : α) (x : matrix α) : matrix α :=
  { x with data := fun t =>
      if 0 ≤ t ∧ t < x.rows * x.cols then a * x.data t else x.data t }

end Primitives

/-! ## `convolutional_layer.c`: the patch transform -/

section PatchTransform

variable {α : Type} [CommRing α]

/-- The C function `get_pixel_value`: the pixel at (`row - pad`, `col - pad`)
of channel `channel`, or `0` in the padding. -/
def get_pixel_value (im : image α) (row col channel pad : Int) : α :=
  let row := row - pad
  let col := col - pad
  if row < 0 ∨ col < 0 ∨ row ≥ im.h ∨ col ≥ im.w then 0
  else im.data (col + im.w * (row + im.h * channel))

/-- The C function `im2col`. -/
def im2col (im : image α) (size stride : Int) : matrix α :=
  let outw := (im.w - 1).tdiv stride + 1
  let outh := (im.h - 1).tdiv stride + 1
  let rows := im.c * size * size
  let cols := outw * outh
  let col : matrix α := make_matrix rows cols
  let paddingSize := if size.tmod 2 = 0 then 0 else size.tdiv 2
  let body (k : Int) (d : Int → α) : Int → α :=
    let w_offset := k.tmod size
    let h_offset := (k.tdiv size).tmod size
    let c_im := (k.tdiv size).tdiv size
    forRange outh (fun i d =>
      forRange outw (fun j d =>
        let im_row := h_offset + i * stride
        let im_col := w_offset + j * stride
        let col_index := (k * outh + i) * outw + j
        store d col_index (get_pixel_value im im_row im_col c_im paddingSize)) d) d
  { col with data := forRange rows body col.data }

/-- The C function `set_pixel_value`: the buffer of `im` after adding `val`
to the pixel at (`row - pad`, `col - pad`) of channel `channel`, when that
position is inside the image. -/
def set_pixel_value (im : image α) (row col channel pad : Int) (val : α) : image α :=
  let row := row - pad
  let col := col - pad
  if row ≥ 0 ∧ col ≥ 0 ∧ row < im.h ∧ col < im.w then
    let index := col + im.w * (row + im.h * channel)
    { im with data := store im.data index (im.data index + val) }
  else im

/-- The C function `col2im`. -/
def col2im (width height channels : Int) (col : matrix α) (size stride : Int) : image α :=
  let im : image α := make_image width height channels
  let rows := channels * size * size
  let paddingSize := if size.tmod 2 = 0 then 0 else size.tdiv 2
  let outh := (height + 2 * paddingSize - size).tdiv stride + 1
  let outw := (width + 2 * paddingSize - size).tdiv stride + 1
  let body (k : Int) (im : image α) : image α :=
    let w_offset := k.tmod size
    let h_offset := (k.tdiv size).tmod size
    let c_im := (k.tdiv size).tdiv size
    forRange outh (fun i im =>
      forRange outw (fun j im =>
        let im_row := h_offset + i * stride
        let im_col := w_offset + j * stride
        let col_index := (k * outh + i) * outw + j
        let val := col.data col_index
        set_pixel_value im im_row im_col c_im paddingSize val) im) im
  forRange rows body im

end PatchTransform


/-! ## `convolutional_layer.c`: the layer -/

/-- The C `layer`, restricted to the fields the three layer kinds use; `x` is
the cached input `*l.x`. -/
structure layer (α : Type) where
  width : Int
  height : Int
  channels : Int
  filters : Int
  size : Int
  stride : Int
  w : matrix α
  dw : matrix α
  b : matrix α
  db : matrix α
  x : matrix α
  rolling_mean : matrix α
  rolling_variance : matrix α

section Convolution

variable {α : Type} [CommRing α]

/-- The libc call `memcpy(dst + off, src, n * sizeof(float))`: the new
contents of `dst`. -/
def memcpy (dst : Int → α) (off : Int) (src : Int → α) (n : Int) : Int → α :=
  fun t => if off ≤ t ∧ t < off + n then src (t - off) else dst t

/-- The C function `forward_convolutional_bias`. -/
def forward_convolutional_bias (xw b : matrix α) : Option (matrix α) :=
  if b.rows = 1 ∧ xw.cols.tmod b.cols = 0 then
    let y := copy_matrix xw
    let spatial := xw.cols.tdiv b.cols
    let data := forRange y.rows (fun i d =>
      forRange y.cols (fun j d =>
        store d (i * y.cols + j) (d (i * y.cols + j) + b.data (j.tdiv spatial))) d) y.data
    some { y with data := data }
  else none

/-- The C function `backward_convolutional_bias`. -/
def backward_convolutional_bias (dy : matrix α) (n : Int) : Option (matrix α) :=
  if dy.cols.tmod n = 0 then
    let db : matrix α := make_matrix 1 n
    let spatial := dy.cols.tdiv n
    let data := forRange dy.rows (fun i d =>
      forRange dy.cols (fun j d =>
        store d (j.tdiv spatial) (d (j.tdiv spatial) + dy.data (i * dy.cols + j))) d) db.data
    some { db with data := data }
  else none

/-- Row `i` of the batch `inp`, viewed as the image the layer reads:
`float_to_image(in.data + i*in.cols, l.width, l.height, l.channels)`. -/
def sample_image (l : layer α) (inp : matrix α) (i : Int) : image α :=
  float_to_image (fun t => inp.data (i * inp.cols + t)) l.width l.height l.channels

/-- The C function `forward_convolutional_layer`: the layer with its cached
input replaced, and the output. -/
def forward_convolutional_layer (l : layer α) (inp : matrix α) : Option (layer α × matrix α) :=
  if inp.cols = l.width * l.height * l.channels then
    let l1 := { l with x := copy_matrix inp }
    let outw := (l.width - 1).tdiv l.stride + 1
    let outh := (l.height - 1).tdiv l.stride + 1
    let out : matrix α := make_matrix inp.rows (outw * outh * l.filters)
    let body (i : Int) (d : Int → α) : Int → α :=
      let example_ := sample_image l inp i
      let x := im2col example_ l.size l.stride
      let wx := matmul l.w x
      forRange (wx.rows * wx.cols) (fun j d => store d (i * out.cols + j) (wx.data j)) d
    let out1 := { out with data := forRange inp.rows body out.data }
    (forward_convolutional_bias out1 l.b).map (fun y => (l1, y))
  else none

/-- The loop state of `backward_convolutional_layer`: the accumulator `l.dw`,
the buffer of `dx` and the (mutated) view `dy`. -/
structure conv_backward_state (α : Type) where
  dw : matrix α
  dx : Int → α
  dy : matrix α

/-- One iteration (sample `i`) of the per-sample loop of
`backward_convolutional_layer`; `wt` and the shape of `dx` are computed before
the loop in C. -/
def backward_convolutional_body (l : layer α) (i : Int) (st : conv_backward_state α) :
    conv_backward_state α :=
  let inp := l.x
  let outw := (l.width - 1).tdiv l.stride + 1
  let outh := (l.height - 1).tdiv l.stride + 1
  let dx_cols := l.width * l.height * l.channels
  let wt := transpose_matrix l.w
  let example_ := sample_image l inp i
  let dy1 : matrix α := { st.dy with rows := l.filters, cols := outw * outh }
  let x := im2col example_ l.size l.stride
  let xt := transpose_matrix x
  let dw := matmul dy1 xt
  let ldw := axpy_matrix 1 dw st.dw
  let col := matmul wt dy1
  let dxi := col2im l.width l.height l.channels col l.size l.stride
  let dxd := memcpy st.dx (i * dx_cols) dxi.data dx_cols
  let dy2 : matrix α := { dy1 with data := fun t => dy1.data (dy1.rows * dy1.cols + t) }
  { dw := ldw, dx := dxd, dy := dy2 }

/-- The C function `backward_convolutional_layer`: the layer with its
accumulators updated, and `dx`. -/
def backward_convolutional_layer (l : layer α) (dy : matrix α) : Option (layer α × matrix α) :=
  let inp := l.x
  if inp.cols = l.width * l.height * l.channels then
    (backward_convolutional_bias dy l.db.cols).map (fun db =>
      let ldb := axpy_matrix 1 db l.db
      let dx : matrix α := make_matrix dy.rows (l.width * l.height * l.channels)
      let st := forRange inp.rows (backward_convolutional_body l)
        { dw := l.dw, dx := dx.data, dy := dy }
      ({ l with db := ldb, dw := st.dw }, { dx with data := st.dx }))
  else none

/-- The C function `update_convolutional_layer`. -/
def update_convolutional_layer (l : layer α) (rate momentum decay : α) : layer α :=
  let dw1 := axpy_matrix decay l.w l.dw
  let w1 := axpy_matrix (-rate) dw1 l.w
  let dw2 := scal_matrix momentum dw1
  let b1 := axpy_matrix (-rate) l.db l.b
  let db1 := scal_matrix momentum l.db
  { l with w := w1, dw := dw2, b := b1, db := db1 }

end Convolution

/-! ## `batchnorm_layer.c`

`sqrtf` and `powf` of libm are parameters of the functions that call them.
The `float` literals `0.00001f`, `0.1`, `-0.5` and `-1.5` are the rationals
`1/100000`, `1/10`, `-(1/2)` and `-(3/2)`; an `int` used in a `float`
expression is cast into `α`. -/

section BatchNorm

variable {α : Type} [Field α]

/-- The C function `mean`. -/
def mean (x : matrix α) (groups : Int) : Option (matrix α) :=
  if x.cols.tmod groups = 0 then
    let m : matrix α := make_matrix 1 groups
    let n := x.cols.tdiv groups
    let data1 := forRange x.rows (fun i d =>
      forRange x.cols (fun j d =>
        store d (j.tdiv n) (d (j.tdiv n) + x.data (i * x.cols + j))) d) m.data
    let data2 := forRange m.cols (fun i d =>
      store d i (d i / (x.rows : α) / (n : α))) data1
    some { m with data := data2 }
  else none

/-- The C function `variance`. -/
def variance (x m : matrix α) (groups : Int) : matrix α :=
  let v : matrix α := make_matrix 1 groups
  let n := x.cols.tdiv groups
  let data1 := forRange x.rows (fun i d =>
    forRange x.cols (fun j d =>
      store d (j.tdiv n)
        (d (j.tdiv n) +
          (x.data (i * x.cols + j) - m.data (j.tdiv n)) *
            (x.data (i * x.cols + j) - m.data (j.tdiv n)))) d) v.data
  let data2 := forRange v.cols (fun i d =>
    store d i (d i / (x.rows : α) / (n : α))) data1
  { v with data := data2 }

/-- The C function `normalize`. -/
def normalize (sqrtf : α → α) (x m v : matrix α) (groups : Int) : matrix α :=
  let norm : matrix α := make_matrix x.rows x.cols
  let eps : α := 1 / 100000
  let n := x.cols.tdiv groups
  let data := forRange x.rows (fun i d =>
    forRange x.cols (fun j d =>
      store d (i * x.cols + j)
        (d (i * x.cols + j) +
          (x.data (i * x.cols + j) - m.data (j.tdiv n)) / sqrtf (v.data (j.tdiv n) + eps))) d)
    norm.data
  { norm with data := data }

/-- The C function `forward_batchnorm_layer`: the layer with its cached input
(and, in batch mode, its running statistics) replaced, and the output. -/
def forward_batchnorm_layer (sqrtf : α → α) (l : layer α) (x : matrix α) :
    Option (layer α × matrix α) :=
  let l1 := { l with x := copy_matrix x }
  if x.rows = 1 then
    some (l1, normalize sqrtf x l.rolling_mean l.rolling_variance l.channels)
  else
    let s : α := 1 / 10
    (mean x l.channels).map (fun m =>
      let v := variance x m l.channels
      let y := normalize sqrtf x m v l.channels
      let rm := axpy_matrix s m (scal_matrix (1 - s) l.rolling_mean)
      let rv := axpy_matrix s v (scal_matrix (1 - s) l.rolling_variance)
      ({ l1 with rolling_mean := rm, rolling_variance := rv }, y))

/-- The C function `delta_mean`. -/
def delta_mean (sqrtf : α → α) (d v : matrix α) : matrix α :=
  let groups := v.cols
  let dm : matrix α := make_matrix 1 groups
  let eps : α := 1 / 100000
  let n := d.cols.tdiv groups
  let data := forRange d.rows (fun i s =>
    forRange d.cols (fun j s =>
      store s (j.tdiv n)
        (s (j.tdiv n) + d.data (i * d.cols + j) * (-1 / sqrtf (v.data (j.tdiv n) + eps)))) s)
    dm.data
  { dm with data := data }

/-- The C function `delta_variance`. -/
def delta_variance (powf : α → α → α) (d x m v : matrix α) : matrix α :=
  let groups := m.cols
  let dv : matrix α := make_matrix 1 groups
  let eps : α := 1 / 100000
  let n := d.cols.tdiv groups
  let data := forRange d.rows (fun i s =>
    forRange d.cols (fun j s =>
      let dL_dy := d.data (i * d.cols + j)
      let x_val := x.data (i * d.cols + j)
      let mu_val := m.data (j.tdiv n)
      let var_val := v.data (j.tdiv n) + eps
      let power_val := -(1 / 2) * powf var_val (-(3 / 2))
      let temp := dL_dy * (x_val - mu_val) * power_val
      store s (j.tdiv n) (s (j.tdiv n) + temp)) s)
    dv.data
  { dv with data := data }

/-- The C function `delta_batch_norm`. -/
def delta_batch_norm (sqrtf : α → α) (d dm dv m v x : matrix α) : matrix α :=
  let dx : matrix α := make_matrix d.rows d.cols
  let eps : α := 1 / 100000
  let groups := m.cols
  let n := x.cols.tdiv groups
  let total := x.rows * n
  let data := forRange x.rows (fun i s =>
    forRange x.cols (fun j s =>
      let dL_dy := d.data (i * x.cols + j)
      let x_val := x.data (i * x.cols + j)
      let mu_val := m.data (j.tdiv n)
      let dL_dmu := dm.data (j.tdiv n)
      let var_val := sqrtf (v.data (j.tdiv n) + eps)
      let dL_ds2 := dv.data (j.tdiv n)
      let temp := dL_dy / var_val + dL_ds2 * 2 * (x_val - mu_val) / (total : α) + dL_dmu / (total : α)
      store s (i * d.cols + j) temp) s)
    dx.data
  { dx with data := data }

/-- The C function `backward_batchnorm_layer`: the layer (which the function
does not write to) and `dx`. -/
def backward_batchnorm_layer (sqrtf : α → α) (powf : α → α → α) (l : layer α) (dy : matrix α) :
    Option (layer α × matrix α) :=
  let x := l.x
  (mean x l.channels).map (fun m =>
    let v := variance x m l.channels
    let dm := delta_mean sqrtf dy v
    let dv := delta_variance powf dy x m v
    let dx := delta_batch_norm sqrtf dy dm dv m v x
    (l, dx))

end BatchNorm

/-! ## Reference statistics

The per-group batch statistics in the words of the specification, against
which `mean` and `variance` are compared: group `g` of a matrix with groups
of `n` columns consists of the columns `g*n, ..., g*n + n - 1` of every row. -/

section Reference

variable {α : Type} [Field α]

/-- The mean of group `g`: the sum of its entries over all rows and all
positions of the group, divided by their number `rows * n`. -/
def group_mean (x : matrix α) (n g : Int) : α :=
  sumTo x.rows (fun i => sumTo n (fun q => x.data (i * x.cols + (g * n + q)))) /
    ((x.rows : α) * (n : α))

/-- The biased (population) variance of group `g`: the mean of the squared
deviations from the group mean. -/
def group_variance (x : matrix α) (n g : Int) : α :=
  sumTo x.rows (fun i => sumTo n (fun q =>
      (x.data (i * x.cols + (g * n + q)) - group_mean x n g) ^ 2)) /
    ((x.rows : α) * (n : α))

/-- The gradient with respect to the mean of group `g`, in the words of the
specification: the sum over the group of `dy * (-1 / sqrt(var + eps))`. -/
def group_delta_mean (sqrtf : α → α) (dy x : matrix α) (n g : Int) : α :=
  sumTo x.rows (fun i => sumTo n (fun q =>
    dy.data (i * x.cols + (g * n + q)) * (-1 / sqrtf (group_variance x n g + 1 / 100000))))

/-- The gradient with respect to the variance of group `g`, in the words of
the specification: the sum over the group of
`dy * (x - mean) * (-0.5) * (var + eps)^(-1.5)`. -/
def group_delta_variance (powf : α → α → α) (dy x : matrix α) (n g : Int) : α :=
  sumTo x.rows (fun i => sumTo n (fun q =>
    dy.data (i * x.cols + (g * n + q)) * (x.data (i * x.cols + (g * n + q)) - group_mean x n g) *
      (-(1 / 2)) * powf (group_variance x n g + 1 / 100000) (-(3 / 2))))

end Reference

/-! ## Concrete inputs -/

section Samples

/-- The `2 × 2` one-channel image with pixels `1, 2, 3, 4`. -/
def image2x2 : image Int :=
  { w := 2, h := 2, c := 1,
    data := fun t => if t = 0 then 1 else if t = 1 then 2 else if t = 2 then 3
      else if t = 3 then 4 else 0 }

/-- The `4 × 4` patch matrix (the shape of `im2col image2x2 2 1`) whose only
non-zero entry is a `1` at row `1`, column `0`. -/
def patch4x4 : matrix Int :=
  { rows := 4, cols := 4, data := fun t => if t = 4 then 1 else 0 }

/-- A convolutional layer on `2 × 2` one-channel images with one `2 × 2`
filter of stride `1`, weights `(0, 1, 0, 0)`, zero bias and zero accumulators. -/
def evenLayer : layer Int :=
  { width := 2, height := 2, channels := 1, filters := 1, size := 2, stride := 1,
    w := { rows := 1, cols := 4, data := fun t => if t = 1 then 1 else 0 },
    dw := make_matrix 1 4, b := make_matrix 1 1, db := make_matrix 1 1,
    x := make_matrix 0 0, rolling_mean := make_matrix 0 0,
    rolling_variance := make_matrix 0 0 }

/-- The one-sample batch `(0, 1, 0, 0)`. -/
def batchE1 : matrix Int :=
  { rows := 1, cols := 4, data := fun t => if t = 1 then 1 else 0 }

/-- The one-sample output gradient `(1, 0, 0, 0)`. -/
def gradE0 : matrix Int :=
  { rows := 1, cols := 4, data := fun t => if t = 0 then 1 else 0 }

/-- A convolutional layer on `3 × 3` two-channel images with two `3 × 3`
filters of stride `2`; weights, bias and accumulators hold small integers,
the cached input is a batch of two samples. -/
def oddLayer : layer Int :=
  { width := 3, height := 3, channels := 2, filters := 2, size := 3, stride := 2,
    w := { rows := 2, cols := 18, data := fun t => t + 1 },
    dw := { rows := 2, cols := 18, data := fun t => 2 * t },
    b := { rows := 1, cols := 2, data := fun t => 5 - t },
    db := { rows := 1, cols := 2, data := fun t => t + 3 },
    x := { rows := 2, cols := 18, data := fun t => t * t - 7 },
    rolling_mean := make_matrix 0 0, rolling_variance := make_matrix 0 0 }

/-- A batch-norm layer with two groups; the cached input is a batch of two
rows of four columns, the running statistics have shape `1 × 2`. -/
def bnLayer (α : Type) [Field α] : layer α :=
  { width := 0, height := 0, channels := 2, filters := 0, size := 0, stride := 0,
    w := make_matrix 0 0, dw := make_matrix 0 0, b := make_matrix 0 0, db := make_matrix 0 0,
    x := { rows := 2, cols := 4, data := fun t => (t : α) * (t : α) },
    rolling_mean := { rows := 1, cols := 2, data := fun t => (t : α) + 1 },
    rolling_variance := { rows := 1, cols := 2, data := fun t => 2 * (t : α) + 1 } }

/-- A batch of two rows of four columns. -/
def bnBatch (α : Type) [Field α] : matrix α :=
  { rows := 2, cols := 4, data := fun t => (t : α) * (t : α) }

/-- A single row of four columns. -/
def bnRow (α : Type) [Field α] : matrix α :=
  { rows := 1, cols := 4, data := fun t => (t : α) - 2 }

end Samples

/-! ## More loops -/

/-- The first `fuel` iterations of `for (x = start; x < bound; x += step)`,
entered with counter `x`. -/
def forStepN {σ : Type} (bound step : Int) (body : Int → σ → σ) : Nat → Int → σ → σ
  | 0, _, s => s
  | fuel + 1, x, s =>
    if x < bound then forStepN bound step body fuel (x + step) (body x s) else s

/-- The loop `for (x = 0; x < bound; x += step)`, for `step ≥ 1`: the
counter then grows by at least one per iteration, so the loop exits on its
condition within `bound` iterations (`forStep_eq_forRange`). With `step ≤ 0`
and `bound > 0` the C loop does not terminate; that case is outside the model. -/
def forStep {σ : Type} (bound step : Int) (body : Int → σ → σ) (s : σ) : σ :=
  forStepN bound step body bound.toNat 0 s

/-- The loop `for (x = lo; x <= hi; x++)`. -/
def forFromTo {σ : Type} (lo hi : Int) (body : Int → σ → σ) (s : σ) : σ :=
  forRange (hi - lo + 1) (fun t => body (lo + t)) s

/-! ## `maxpool_layer.c`

The pixel values are compared, so `α` is a linearly ordered commutative ring.
The literal `-1000000000.0` is the ring element `-1000000000`.

`backward_maxpool_layer` keeps the indices it finds in the `float` matrix
`out`. A C `int` stored in a `float` is rounded to 24 significant bits, and
this decides which cell of `dx` an index denotes: it is the one place where
the precision of `float` is modelled (`float_of_int`). The buffer of `out`
is modelled by the integers its cells are equal to. -/

/-- The number of low bits an integer of magnitude `a` loses in a `float`:
`0` below `2^24`, else one more than for `a / 2`. The fuel `8` used by
`float_of_int` covers every 32-bit `int`. -/
def float_lost_bits : Nat → Nat → Nat
  | 0, _ => 0
  | fuel + 1, a => if a < 2 ^ 24 then 0 else float_lost_bits fuel (a / 2) + 1

/-- The integer a C `float` holds after the conversion `(float)k` of an
`int`: `k` rounded to 24 significant bits, to nearest, ties to even. -/
def float_of_int (k : Int) : Int :=
  let a := k.natAbs
  let e := float_lost_bits 8 a
  let q := a / 2 ^ e
  let r := a % 2 ^ e
  let half := 2 ^ e / 2
  let q1 := if r > half ∨ (r = half ∧ q % 2 = 1) then q + 1 else q
  if e = 0 then k else k.sign * ((q1 * 2 ^ e : Nat) : Int)

section MaxPool

variable {α : Type} [LinearOrderedCommRing α]

/-- The loop state of `forward_maxpool_layer` inside one sample: the buffer
of `out` and the counter `index`. -/
structure maxpool_forward_state (α : Type) where
  out : Int → α
  index : Int

/-- The two kernel loops of `forward_maxpool_layer` for sample `r`, channel
`channel` and the window anchored at the input position (`row`, `col`): the
final `maxPixel`. -/
def forward_maxpool_scan (l : layer α) (inp : matrix α) (r channel row col : Int) : α :=
  let paddingSize := if l.size.tmod 2 = 0 then 0 else l.size.tdiv 2
  forFromTo (-paddingSize) (l.size - 1 - paddingSize) (fun kernelRow maxPixel =>
    forFromTo (-paddingSize) (l.size - 1 - paddingSize) (fun kernelCol maxPixel =>
      let curRow := row + kernelRow
      let curCol := col + kernelCol
      let pixelVal : α :=
        if curRow ≥ 0 ∧ curRow < l.height ∧ curCol ≥ 0 ∧ curCol < l.width then
          inp.data (l.width * curRow + l.width * l.height * channel + curCol + r * inp.cols)
        else -1000000000
      if pixelVal > maxPixel then pixelVal else maxPixel) maxPixel) (-1000000000)

/-- One iteration (sample `r`) of the loop over samples of
`forward_maxpool_layer`, on the buffer `d` of `out`: `index` starts at `0` and
counts the output positions of the sample. -/
def forward_maxpool_sample (l : layer α) (inp : matrix α) (r : Int) (d : Int → α) : Int → α :=
  let outw := (l.width - 1).tdiv l.stride + 1
  let outh := (l.height - 1).tdiv l.stride + 1
  let out_cols := outw * outh * l.channels
  (forRange l.channels (fun channel st =>
    forStep l.height l.stride (fun row st =>
      forStep l.width l.stride (fun col st =>
        maxpool_forward_state.mk
          (store st.out (r * out_cols + st.index) (forward_maxpool_scan l inp r channel row col))
          (st.index + 1)) st) st)
    (maxpool_forward_state.mk d 0)).out

/-- The C function `forward_maxpool_layer`: the layer with its cached input
replaced, and the output. The function asserts nothing. -/
def forward_maxpool_layer (l : layer α) (inp : matrix α) : layer α × matrix α :=
  let l1 := { l with x := copy_matrix inp }
  let outw := (l.width - 1).tdiv l.stride + 1
  let outh := (l.height - 1).tdiv l.stride + 1
  let out : matrix α := make_matrix inp.rows (outw * outh * l.channels)
  (l1, { out with data := forRange inp.rows (forward_maxpool_sample l inp) out.data })

/-- The state of the kernel scan of `backward_maxpool_layer`: the largest
value met so far and the flat input index where it was met. -/
structure maxpool_scan_state (α : Type) where
  maxPixel : α
  maxInx : Int

/-- The kernel scan of `backward_maxpool_layer` for the output position
(`channel`, `row`, `col`): the two innermost loops. -/
def maxpool_scan (l : layer α) (channel row col : Int) : maxpool_scan_state α :=
  let inp := l.x
  let paddingSize := if l.size.tmod 2 = 0 then 0 else l.size.tdiv 2
  forRange l.size (fun kernelRow st =>
    forRange l.size (fun kernelCol st =>
      let curRow := (row * l.stride + kernelRow) - paddingSize
      let curCol := (col * l.stride + kernelCol) - paddingSize
      let inx := l.width * curRow + l.width * l.height * channel + curCol
      let pixelVal : α :=
        if curRow ≥ 0 ∧ curRow < l.height ∧ curCol ≥ 0 ∧ curCol < l.width then inp.data inx
        else -1000000000
      if pixelVal > st.maxPixel then maxpool_scan_state.mk pixelVal inx else st) st)
    (maxpool_scan_state.mk (-1000000000) 0)

/-- The first loop nest of `backward_maxpool_layer`: the contents of `out`,
that is, for every output position the index the function records for it. -/
def backward_maxpool_indices (l : layer α) : Int → Int :=
  let outw := (l.width - 1).tdiv l.stride + 1
  let outh := (l.height - 1).tdiv l.stride + 1
  forRange l.channels (fun channel o =>
    forRange outh (fun row o =>
      forRange outw (fun col o =>
        let colInx := (channel * outh + row) * outw + col
        store o colInx (float_of_int (maxpool_scan l channel row col).maxInx)) o) o)
    (fun _ => 0)

/-- The C function `backward_maxpool_layer`: the layer (which the function
does not write to) and `dx`. -/
def backward_maxpool_layer (l : layer α) (dy : matrix α) : layer α × matrix α :=
  let dx : matrix α := make_matrix dy.rows (l.width * l.height * l.channels)
  let outw := (l.width - 1).tdiv l.stride + 1
  let outh := (l.height - 1).tdiv l.stride + 1
  let out := backward_maxpool_indices l
  let data := forRange (outh * outw * l.channels) (fun dy_i d =>
    let dx_i := out dy_i
    store d dx_i (d dx_i + dy.data dy_i)) dx.data
  (l, { dx with data := data })

end MaxPool

/-! ## Reference notions for max pooling

The window of an output position in the words of the specification, and the
statements of the max-pool claims that are made about single positions. -/

section MaxPoolReference

variable {α : Type} [LinearOrderedCommRing α]

/-- The padding of a kernel: `size / 2` for odd `size`, `0` for even `size`. -/
def window_pad (size : Int) : Int :=
  if size % 2 = 1 then size / 2 else 0

/-- The pixel (`row`, `col`) is an in-bounds position of the `size × size`
window anchored at (`i*stride - pad`, `j*stride - pad`). -/
def window_position (l : layer α) (i j row col : Int) : Prop :=
  i * l.stride - window_pad l.size ≤ row ∧ row < i * l.stride - window_pad l.size + l.size ∧
    j * l.stride - window_pad l.size ≤ col ∧ col < j * l.stride - window_pad l.size + l.size ∧
    0 ≤ row ∧ row < l.height ∧ 0 ≤ col ∧ col < l.width

/-- The flat index, inside one sample, of the pixel (`row`, `col`) of
`channel` (channel-major planes of `height × width`). -/
def pixel_index (l : layer α) (channel row col : Int) : Int :=
  channel * (l.width * l.height) + row * l.width + col

/-- The input values at the in-bounds positions of the window of the output
position (`channel`, `i`, `j`), read in the sample buffer `data`. -/
def window_values (l : layer α) (data : Int → α) (channel i j : Int) : Set α :=
  { v | ∃ row col, window_position l i j row col ∧ v = data (pixel_index l channel row col) }

/-- The value a kernel scan reads at (`curRow`, `curCol`) of `channel` in the
sample buffer `data`: the pixel inside the image, `-1000000000` outside. -/
def pool_pixel (l : layer α) (data : Int → α) (channel curRow curCol : Int) : α :=
  if curRow ≥ 0 ∧ curRow < l.height ∧ curCol ≥ 0 ∧ curCol < l.width then
    data (l.width * curRow + l.width * l.height * channel + curCol)
  else -1000000000

/-- The running maximum of a kernel scan over the window of the output
position (`channel`, `i`, `j`), as one loop over the `size * size` kernel
positions in row-major order. -/
def pool_max (l : layer α) (data : Int → α) (channel i j : Int) : α :=
  forRange (l.size * l.size) (fun k mp =>
    if pool_pixel l data channel (i * l.stride + k / l.size - (if l.size.tmod 2 = 0 then 0
          else l.size.tdiv 2))
        (j * l.stride + k % l.size - (if l.size.tmod 2 = 0 then 0 else l.size.tdiv 2)) > mp
    then pool_pixel l data channel (i * l.stride + k / l.size - (if l.size.tmod 2 = 0 then 0
          else l.size.tdiv 2))
        (j * l.stride + k % l.size - (if l.size.tmod 2 = 0 then 0 else l.size.tdiv 2))
    else mp) (-1000000000)

/-- The flat output index of the output position (`channel`, `i`, `j`). -/
def output_index (l : layer α) (channel i j : Int) : Int :=
  (channel * ((l.height - 1) / l.stride + 1) + i) * ((l.width - 1) / l.stride + 1) + j

/-- The statement of C19 at one output position of a one-row input `x`: the
index backward records after `forward(x)` is an in-bounds position of the
window, and the input value there is the forward output. -/
def records_forward_max (l : layer α) (x : matrix α) (channel i j : Int) : Prop :=
  ∃ row col, window_position l i j row col ∧
    backward_maxpool_indices (forward_maxpool_layer l x).1 (output_index l channel i j) =
      pixel_index l channel row col ∧
    x.data (pixel_index l channel row col) =
      (forward_maxpool_layer l x).2.data (output_index l channel i j)

/-- The statement of C13 at one output position of a layer with a one-row
cached input: the index backward records is a maximal in-bounds position of
the window, the first such in the row-major kernel scan, and the smallest
flat index among them. -/
def records_first_max (l : layer α) (channel i j : Int) : Prop :=
  ∃ row col, window_position l i j row col ∧
    backward_maxpool_indices l (output_index l channel i j) = pixel_index l channel row col ∧
    (∀ row1 col1, window_position l i j row1 col1 →
      l.x.data (pixel_index l channel row1 col1) ≤ l.x.data (pixel_index l channel row col)) ∧
    (∀ row1 col1, window_position l i j row1 col1 →
      l.x.data (pixel_index l channel row1 col1) = l.x.data (pixel_index l channel row col) →
        (row < row1 ∨ (row = row1 ∧ col ≤ col1)) ∧
          pixel_index l channel row col ≤ pixel_index l channel row1 col1)

/-- The `4 × 4` one-channel max-pool layer with a `2 × 2` kernel of stride `2`
and the given cached input. -/
def pool_layer_4x4 (x : matrix α) : layer α :=
  { width := 4, height := 4, channels := 1, filters := 0, size := 2, stride := 2,
    w := make_matrix 0 0, dw := make_matrix 0 0, b := make_matrix 0 0, db := make_matrix 0 0,
    x := x, rolling_mean := make_matrix 0 0, rolling_variance := make_matrix 0 0 }

/-- The statement of C14 for a one-row input `x` holding a `4 × 4` grid: the
forward output is `1 × 4` and holds the maxima of the four `2 × 2` quadrants;
backward with an all-ones gradient gives a `1 × 16` matrix that is `1` at one
position of each quadrant, a position holding the quadrant's maximum, and `0`
elsewhere. -/
def pool_example_holds (x : matrix α) : Prop :=
  (forward_maxpool_layer (pool_layer_4x4 x) x).2.rows = 1 ∧
  (forward_maxpool_layer (pool_layer_4x4 x) x).2.cols = 4 ∧
  IsGreatest {x.data 0, x.data 1, x.data 4, x.data 5}
    ((forward_maxpool_layer (pool_layer_4x4 x) x).2.data 0) ∧
  IsGreatest {x.data 2, x.data 3, x.data 6, x.data 7}
    ((forward_maxpool_layer (pool_layer_4x4 x) x).2.data 1) ∧
  IsGreatest {x.data 8, x.data 9, x.data 12, x.data 13}
    ((forward_maxpool_layer (pool_layer_4x4 x) x).2.data 2) ∧
  IsGreatest {x.data 10, x.data 11, x.data 14, x.data 15}
    ((forward_maxpool_layer (pool_layer_4x4 x) x).2.data 3) ∧
  (backward_maxpool_layer (forward_maxpool_layer (pool_layer_4x4 x) x).1
    { rows := 1, cols := 4, data := fun _ => 1 }).2.rows = 1 ∧
  (backward_maxpool_layer (forward_maxpool_layer (pool_layer_4x4 x) x).1
    { rows := 1, cols := 4, data := fun _ => 1 }).2.cols = 16 ∧
  ∃ q0 q1 q2 q3 : Int,
    (q0 = 0 ∨ q0 = 1 ∨ q0 = 4 ∨ q0 = 5) ∧ (q1 = 2 ∨ q1 = 3 ∨ q1 = 6 ∨ q1 = 7) ∧
    (q2 = 8 ∨ q2 = 9 ∨ q2 = 12 ∨ q2 = 13) ∧ (q3 = 10 ∨ q3 = 11 ∨ q3 = 14 ∨ q3 = 15) ∧
    x.data q0 = (forward_maxpool_layer (pool_layer_4x4 x) x).2.data 0 ∧
    x.data q1 = (forward_maxpool_layer (pool_layer_4x4 x) x).2.data 1 ∧
    x.data q2 = (forward_maxpool_layer (pool_layer_4x4 x) x).2.data 2 ∧
    x.data q3 = (forward_maxpool_layer (pool_layer_4x4 x) x).2.data 3 ∧
    ∀ t : Int, 0 ≤ t → t < 16 →
      (backward_maxpool_layer (forward_maxpool_layer (pool_layer_4x4 x) x).1
        { rows := 1, cols := 4, data := fun _ => 1 }).2.data t =
        if t = q0 ∨ t = q1 ∨ t = q2 ∨ t = q3 then 1 else 0

end MaxPoolReference

/-! ## `convolutional_layer.c`: construction and the abort state -/

section ConvolutionMore

variable {α : Type} [CommRing α]

end ConvolutionMore

/-! ## More concrete inputs -/

section MoreSamples

/-- A single row of three columns: not divisible into the two groups of
`bnLayer`. -/
def bnRow3 (α : Type) [Field α] : matrix α :=
  { rows := 1, cols := 3, data := fun t => (t : α) }

/-- Two rows of three columns. -/
def bnBatch3 (α : Type) [Field α] : matrix α :=
  { rows := 2, cols := 3, data := fun t => (t : α) }

/-- A max-pool layer on `1 × 1` one-channel images with a `1 × 1` kernel of
stride `1`; the cached input is a batch of two samples, `5` and `7`. -/
def poolLayer1 : layer Int :=
  { width := 1, height := 1, channels := 1, filters := 0, size := 1, stride := 1,
    w := make_matrix 0 0, dw := make_matrix 0 0, b := make_matrix 0 0, db := make_matrix 0 0,
    x := { rows := 2, cols := 1, data := fun t => if t = 0 then 5 else if t = 1 then 7 else 0 },
    rolling_mean := make_matrix 0 0, rolling_variance := make_matrix 0 0 }

/-- The output gradient of two samples, one output position each, all ones. -/
def gradOnes2 : matrix Int :=
  { rows := 2, cols := 1, data := fun _ => 1 }

/-- A max-pool layer on `2 × 2` one-channel images with a `2 × 2` kernel of
stride `2`. -/
def poolLayer2 : layer Int :=
  { width := 2, height := 2, channels := 1, filters := 0, size := 2, stride := 2,
    w := make_matrix 0 0, dw := make_matrix 0 0, b := make_matrix 0 0, db := make_matrix 0 0,
    x := make_matrix 0 0, rolling_mean := make_matrix 0 0, rolling_variance := make_matrix 0 0 }

/-- A single row of five columns `(1, 4, 2, 3, 9)`: one more than the
`2 * 2 * 1` values `poolLayer2` expects. -/
def row5 : matrix Int :=
  { rows := 1, cols := 5,
    data := fun t => if t = 0 then 1 else if t = 1 then 4 else if t = 2 then 2
      else if t = 3 then 3 else if t = 4 then 9 else 0 }

/-- A single row holding the one value `-2000000000`. -/
def rowBelowSentinel : matrix Int :=
  { rows := 1, cols := 1, data := fun _ => -2000000000 }

/-- A single row holding a `4 × 4` grid of the value `-2000000000`. -/
def gridBelowSentinel : matrix Int :=
  { rows := 1, cols := 16, data := fun _ => -2000000000 }

/-- A single row holding the `4 × 4` grid `t * 7 % 11`, `t = 0, ..., 15`. -/
def gridSample : matrix Int :=
  { rows := 1, cols := 16, data := fun t => t * 7 % 11 }

/-- A single row of `2^24 + 2` columns, `1` in the last column and `0`
elsewhere. -/
def wideRow : matrix Int :=
  { rows := 1, cols := 16777218, data := fun t => if t = 16777217 then 1 else 0 }

/-- A max-pool layer on one-channel images of width `2^24 + 2` and height `1`
with a `1 × 1` kernel of stride `1`. -/
def wideLayer : layer Int :=
  { width := 16777218, height := 1, channels := 1, filters := 0, size := 1, stride := 1,
    w := make_matrix 0 0, dw := make_matrix 0 0, b := make_matrix 0 0, db := make_matrix 0 0,
    x := make_matrix 0 0, rolling_mean := make_matrix 0 0, rolling_variance := make_matrix 0 0 }

/-- A max-pool layer on one-channel images of width `2^24 + 4` and height `1`
with a `3 × 3` kernel of stride `1`; the cached input is a single row of
zeros. -/
def wideLayer3 : layer Int :=
  { width := 16777220, height := 1, channels := 1, filters := 0, size := 3, stride := 1,
    w := make_matrix 0 0, dw := make_matrix 0 0, b := make_matrix 0 0, db := make_matrix 0 0,
    x := { rows := 1, cols := 16777220, data := fun _ => 0 },
    rolling_mean := make_matrix 0 0, rolling_variance := make_matrix 0 0 }

/-- A max-pool layer on `3 × 3` two-channel images with a `3 × 3` kernel of
stride `2`; the cached input is a single row. -/
def poolLayer3 : layer Int :=
  { width := 3, height := 3, channels := 2, filters := 0, size := 3, stride := 2,
    w := make_matrix 0 0, dw := make_matrix 0 0, b := make_matrix 0 0, db := make_matrix 0 0,
    x := { rows := 1, cols := 18, data := fun t => t * 5 % 7 },
    rolling_mean := make_matrix 0 0, rolling_variance := make_matrix 0 0 }

/-- A batch of two samples for `poolLayer3`. -/
def poolBatch : matrix Int :=
  { rows := 2, cols := 18, data := fun t => t * 5 % 7 - 3 }

/-- A `9 × 4` patch matrix: the shape of `im2col image2x2 3 1`. -/
def patch9x4 : matrix Int :=
  { rows := 9, cols := 4, data := fun t => t + 1 }

end MoreSamples

/-! ## Concrete inputs for the max-pool gradient and the `int` guard -/

section PoolSamples

/-- An output gradient for `poolLayer3`: a single row of eight columns
`(1, 2, ..., 8)`. -/
def gradRow8 : matrix Int :=
  { rows := 1, cols := 8, data := fun t => t + 1 }

end PoolSamples
/-! ## Loop rules -/

section LoopRules

theorem loopN_invariant {σ : Type} (body : Int → σ → σ) (Inv : Nat → σ → Prop) (s : σ)
    (n : Nat) (h0 : Inv 0 s)
    (hstep : ∀ k t, k < n → Inv k t → Inv (k + 1) (body (k : Int) t)) :
    ∀ m, m ≤ n → Inv m (loopN body m s) := by
  intro m
  induction m with
  | zero => intro _; exact h0
  | succ k ih =>
    intro hk
    exact hstep k _ (by omega) (ih (by omega))

/-- Hoare rule for `forRange`: an invariant that holds at counter `0` and is
carried from `i` to `i + 1` by every iteration holds at counter `n` on exit. -/
theorem forRange_invariant {σ : Type} (n : Int) (body : Int → σ → σ) (Inv : Int → σ → Prop)
    (s : σ) (hn : 0 ≤ n) (h0 : Inv 0 s)
    (hstep : ∀ i t, 0 ≤ i → i < n → Inv i t → Inv (i + 1) (body i t)) :
    Inv n (forRange n body s) := by
  have h := loopN_invariant body (fun k t => Inv (k : Int) t) s n.toNat (by simpa using h0)
    (by
      intro k t hk hI
      have := hstep (k : Int) t (by omega) (by omega) hI
      simpa using this)
    n.toNat (le_refl _)
  have e : ((n.toNat : Nat) : Int) = n := Int.toNat_of_nonneg hn
  simp only [e] at h
  exact h

theorem forRange_nonpos {σ : Type} (n : Int) (body : Int → σ → σ) (s : σ) (hn : n ≤ 0) :
    forRange n body s = s := by
  have : n.toNat = 0 := by omega
  simp [forRange, this, loopN]

theorem sumTo_nonpos {α : Type} [AddCommMonoid α] (n : Int) (f : Int → α) (hn : n ≤ 0) :
    sumTo n f = 0 := by
  have : n.toNat = 0 := by omega
  simp [sumTo, this]

theorem sumTo_succ {α : Type} [AddCommMonoid α] (n : Int) (f : Int → α) (hn : 0 ≤ n) :
    sumTo (n + 1) f = sumTo n f + f n := by
  have e : (n + 1).toNat = n.toNat + 1 := by omega
  have e2 : ((n.toNat : Nat) : Int) = n := Int.toNat_of_nonneg hn
  simp [sumTo, e, Finset.sum_range_succ, e2]

theorem sumTo_congr {α : Type} [AddCommMonoid α] (n : Int) (f g : Int → α)
    (h : ∀ i, 0 ≤ i → i < n → f i = g i) : sumTo n f = sumTo n g := by
  unfold sumTo
  apply Finset.sum_congr rfl
  intro i hi
  have := Finset.mem_range.mp hi
  exact h i (by omega) (by omega)

/-- A loop whose every iteration adds `d i p` to cell `p` adds the sum of the
`d i p` to it. -/
theorem forRange_add {α : Type} [AddCommMonoid α] (n : Int)
    (body : Int → (Int → α) → (Int → α)) (d : Int → Int → α)
    (h : ∀ i s p, 0 ≤ i → i < n → body i s p = s p + d i p) (s : Int → α) (p : Int) :
    forRange n body s p = s p + sumTo n (fun i => d i p) := by
  rcases le_or_lt n 0 with hn | hn
  · rw [forRange_nonpos n body s hn, sumTo_nonpos n _ hn, add_zero]
  · have := forRange_invariant n body
      (fun i t => i ≤ n → t p = s p + sumTo i (fun i => d i p)) s (le_of_lt hn)
      (by intro _; simp [sumTo])
      (by
        intro i t hi0 hin hI _
        rw [h i t p hi0 hin, hI (le_of_lt hin), sumTo_succ _ _ hi0, add_assoc])
    exact this (le_refl _)

/-- A loop whose iterations write to pairwise disjoint regions `R i`: a cell
of region `R i` ends in a value the `i`-th iteration's postcondition `Post i p`
relates to the initial value, and a cell outside all regions is unchanged. -/
theorem forRange_disjoint {α : Type} (n : Int) (body : Int → (Int → α) → (Int → α))
    (R : Int → Int → Prop) (Post : Int → Int → α → α → Prop)
    (hin : ∀ i s p, 0 ≤ i → i < n → R i p → Post i p (s p) (body i s p))
    (hout : ∀ i s p, 0 ≤ i → i < n → ¬ R i p → body i s p = s p)
    (hdisj : ∀ i j p, 0 ≤ i → i < n → 0 ≤ j → j < n → R i p → R j p → i = j)
    (s : Int → α) (p : Int) :
    (∀ i, 0 ≤ i → i < n → R i p → Post i p (s p) (forRange n body s p)) ∧
      ((∀ i, 0 ≤ i → i < n → ¬ R i p) → forRange n body s p = s p) := by
  rcases le_or_lt n 0 with hn | hn
  · rw [forRange_nonpos n body s hn]
    exact ⟨fun i h0 h1 => absurd h1 (by omega), fun _ => rfl⟩
  · have := forRange_invariant n body
      (fun m t => m ≤ n → (∀ i, 0 ≤ i → i < m → R i p → Post i p (s p) (t p)) ∧
        ((∀ i, 0 ≤ i → i < m → ¬ R i p) → t p = s p)) s (le_of_lt hn)
      (by intro _; exact ⟨fun i h0 h1 => absurd h1 (by omega), fun _ => rfl⟩)
      (by
        intro m t hm0 hmn hI _
        obtain ⟨hI1, hI2⟩ := hI (le_of_lt hmn)
        by_cases hR : R m p
        · have hnone : ∀ i, 0 ≤ i → i < m → ¬ R i p := by
            intro i hi0 him hRi
            have := hdisj i m p hi0 (by omega) hm0 hmn hRi hR
            omega
          have ht : t p = s p := hI2 hnone
          refine ⟨?_, ?_⟩
          · intro i hi0 hi1 hRi
            have : i = m := hdisj i m p hi0 (by omega) hm0 hmn hRi hR
            subst this
            have := hin i t p hi0 hmn hRi
            rwa [ht] at this
          · intro hall
            exact absurd hR (hall m hm0 (by omega))
        · rw [hout m t p hm0 hmn hR]
          refine ⟨?_, ?_⟩
          · intro i hi0 hi1 hRi
            have : i < m := by
              rcases lt_or_eq_of_le (show i ≤ m by omega) with h | h
              · exact h
              · subst h; exact absurd hRi hR
            exact hI1 i hi0 this hRi
          · intro hall
            exact hI2 (fun i hi0 hi1 => hall i hi0 (by omega)))
    exact this (le_refl _)

/-- Uniqueness of the digits of a two-digit number in base `n`. -/
theorem mul_add_unique (n a b a' b' : Int) (hb : 0 ≤ b) (hbn : b < n) (hb' : 0 ≤ b')
    (hbn' : b' < n) (h : a * n + b = a' * n + b') : a = a' ∧ b = b' := by
  have hn : 0 < n := by omega
  have h1 : (a - a') * n = b' - b := by linarith
  have h2 : a - a' = 0 := by
    by_contra hne
    rcases lt_or_gt_of_ne hne with hlt | hgt
    · have : (a - a') * n ≤ -1 * n := by
        apply mul_le_mul_of_nonneg_right (by omega) (le_of_lt hn)
      omega
    · have : 1 * n ≤ (a - a') * n := by
        apply mul_le_mul_of_nonneg_right (by omega) (le_of_lt hn)
      omega
  rw [h2] at h1
  constructor <;> omega

end LoopRules

section StoreLoops

variable {α : Type}

theorem store_same (d : Int → α) (p : Int) (v : α) : store d p v p = v := by
  simp [store]

theorem store_other (d : Int → α) (p q : Int) (v : α) (h : q ≠ p) : store d p v q = d q := by
  simp [store, h]

/-- A loop of writes `d[idx j] = v j` at pairwise distinct offsets. -/
theorem forRange_store (n : Int) (idx : Int → Int) (v : Int → α)
    (hinj : ∀ j j', 0 ≤ j → j < n → 0 ≤ j' → j' < n → idx j = idx j' → j = j')
    (s : Int → α) :
    (∀ j, 0 ≤ j → j < n →
        forRange n (fun j d => store d (idx j) (v j)) s (idx j) = v j) ∧
      (∀ p, (∀ j, 0 ≤ j → j < n → p ≠ idx j) →
        forRange n (fun j d => store d (idx j) (v j)) s p = s p) := by
  have key := fun p => forRange_disjoint n (fun j d => store d (idx j) (v j))
    (fun j p => p = idx j) (fun j _ _ new => new = v j)
    (by intro j d p _ _ hp; subst hp; exact store_same _ _ _)
    (by intro j d p _ _ hp; exact store_other _ _ _ _ hp)
    (by intro j j' p h0 h1 h0' h1' e e'; exact hinj j j' h0 h1 h0' h1' (e ▸ e'))
    s p
  constructor
  · intro j h0 h1
    exact (key (idx j)).1 j h0 h1 rfl
  · intro p hp
    exact (key p).2 hp

/-- Two nested loops of writes `d[idx i j] = v i j` at pairwise distinct
offsets. -/
theorem forRange2_store (m n : Int) (idx : Int → Int → Int) (v : Int → Int → α)
    (hinj : ∀ i j i' j', 0 ≤ i → i < m → 0 ≤ j → j < n → 0 ≤ i' → i' < m → 0 ≤ j' → j' < n →
      idx i j = idx i' j' → i = i' ∧ j = j')
    (s : Int → α) :
    (∀ i j, 0 ≤ i → i < m → 0 ≤ j → j < n →
        forRange m (fun i d => forRange n (fun j d => store d (idx i j) (v i j)) d) s (idx i j)
          = v i j) ∧
      (∀ p, (∀ i j, 0 ≤ i → i < m → 0 ≤ j → j < n → p ≠ idx i j) →
        forRange m (fun i d => forRange n (fun j d => store d (idx i j) (v i j)) d) s p = s p) := by
  have inner := fun (i : Int) (hi0 : 0 ≤ i) (hi : i < m) (d : Int → α) =>
    forRange_store n (idx i) (v i)
      (fun j j' h0 h1 h0' h1' e => (hinj i j i j' hi0 hi h0 h1 hi0 hi h0' h1' e).2) d
  have key := fun p => forRange_disjoint m
    (fun i d => forRange n (fun j d => store d (idx i j) (v i j)) d)
    (fun i p => ∃ j, 0 ≤ j ∧ j < n ∧ p = idx i j)
    (fun i p _ new => ∀ j, 0 ≤ j → j < n → p = idx i j → new = v i j)
    (by
      intro i d p hi0 hi _ j h0 h1 e
      subst e
      exact (inner i hi0 hi d).1 j h0 h1)
    (by
      intro i d p hi0 hi hR
      exact (inner i hi0 hi d).2 p (fun j h0 h1 e => hR ⟨j, h0, h1, e⟩))
    (by
      rintro i i' p h0 h1 h0' h1' ⟨j, hj0, hj1, e⟩ ⟨j', hj0', hj1', e'⟩
      exact (hinj i j i' j' h0 h1 hj0 hj1 h0' h1' hj0' hj1' (e ▸ e')).1)
    s p
  constructor
  · intro i j h0 h1 hj0 hj1
    exact (key (idx i j)).1 i h0 h1 ⟨j, hj0, hj1, rfl⟩ j hj0 hj1 rfl
  · intro p hp
    exact (key p).2 (fun i h0 h1 ⟨j, hj0, hj1, e⟩ => hp i j h0 h1 hj0 hj1 e)

/-- Three nested loops of writes `d[idx k i j] = v k i j` at pairwise distinct
offsets. -/
theorem forRange3_store (l m n : Int) (idx : Int → Int → Int → Int) (v : Int → Int → Int → α)
    (hinj : ∀ k i j k' i' j', 0 ≤ k → k < l → 0 ≤ i → i < m → 0 ≤ j → j < n →
      0 ≤ k' → k' < l → 0 ≤ i' → i' < m → 0 ≤ j' → j' < n →
      idx k i j = idx k' i' j' → k = k' ∧ i = i' ∧ j = j')
    (s : Int → α) :
    (∀ k i j, 0 ≤ k → k < l → 0 ≤ i → i < m → 0 ≤ j → j < n →
        forRange l (fun k d => forRange m (fun i d =>
          forRange n (fun j d => store d (idx k i j) (v k i j)) d) d) s (idx k i j)
          = v k i j) ∧
      (∀ p, (∀ k i j, 0 ≤ k → k < l → 0 ≤ i → i < m → 0 ≤ j → j < n → p ≠ idx k i j) →
        forRange l (fun k d => forRange m (fun i d =>
          forRange n (fun j d => store d (idx k i j) (v k i j)) d) d) s p = s p) := by
  have inner := fun (k : Int) (hk0 : 0 ≤ k) (hk : k < l) (d : Int → α) =>
    forRange2_store m n (idx k) (v k)
      (fun i j i' j' h0 h1 hj0 hj1 h0' h1' hj0' hj1' e =>
        (hinj k i j k i' j' hk0 hk h0 h1 hj0 hj1 hk0 hk h0' h1' hj0' hj1' e).2) d
  have key := fun p => forRange_disjoint l
    (fun k d => forRange m (fun i d =>
      forRange n (fun j d => store d (idx k i j) (v k i j)) d) d)
    (fun k p => ∃ i j, 0 ≤ i ∧ i < m ∧ 0 ≤ j ∧ j < n ∧ p = idx k i j)
    (fun k p _ new => ∀ i j, 0 ≤ i → i < m → 0 ≤ j → j < n → p = idx k i j → new = v k i j)
    (by
      intro k d p hk0 hk _ i j h0 h1 hj0 hj1 e
      subst e
      exact (inner k hk0 hk d).1 i j h0 h1 hj0 hj1)
    (by
      intro k d p hk0 hk hR
      exact (inner k hk0 hk d).2 p (fun i j h0 h1 hj0 hj1 e => hR ⟨i, j, h0, h1, hj0, hj1, e⟩))
    (by
      rintro k k' p h0 h1 h0' h1' ⟨i, j, hi0, hi1, hj0, hj1, e⟩ ⟨i', j', hi0', hi1', hj0', hj1', e'⟩
      exact (hinj k i j k' i' j' h0 h1 hi0 hi1 hj0 hj1 h0' h1' hi0' hi1' hj0' hj1' (e ▸ e')).1)
    s p
  constructor
  · intro k i j h0 h1 hi0 hi1 hj0 hj1
    exact (key (idx k i j)).1 k h0 h1 ⟨i, j, hi0, hi1, hj0, hj1, rfl⟩ i j hi0 hi1 hj0 hj1 rfl
  · intro p hp
    exact (key p).2 (fun k h0 h1 ⟨i, j, hi0, hi1, hj0, hj1, e⟩ => hp k i j h0 h1 hi0 hi1 hj0 hj1 e)

end StoreLoops

section PatchTransformLemmas

variable {α : Type} [CommRing α]

theorem im2col_rows (im : image α) (size stride : Int) :
    (im2col im size stride).rows = im.c * size * size := rfl

theorem im2col_cols (im : image α) (size stride : Int) :
    (im2col im size stride).cols =
      ((im.w - 1).tdiv stride + 1) * ((im.h - 1).tdiv stride + 1) := rfl

/-- The patch index `(k * outh + i) * outw + j` determines `k`, `i` and `j`. -/
theorem col_index_unique (outh outw k i j k' i' j' : Int)
    (hi0 : 0 ≤ i) (hi : i < outh) (hj0 : 0 ≤ j) (hj : j < outw)
    (hi0' : 0 ≤ i') (hi' : i' < outh) (hj0' : 0 ≤ j') (hj' : j' < outw)
    (e : (k * outh + i) * outw + j = (k' * outh + i') * outw + j') :
    k = k' ∧ i = i' ∧ j = j' := by
  obtain ⟨e1, e2⟩ := mul_add_unique outw _ _ _ _ hj0 hj hj0' hj' e
  obtain ⟨e3, e4⟩ := mul_add_unique outh _ _ _ _ hi0 hi hi0' hi' e1
  exact ⟨e3, e4, e2⟩

/-- What `im2col` leaves in the cell `(k * outh + i) * outw + j` of its
buffer. -/
theorem im2col_entry (im : image α) (size stride k i j : Int)
    (hk0 : 0 ≤ k) (hk : k < im.c * size * size)
    (hi0 : 0 ≤ i) (hi : i < (im.h - 1).tdiv stride + 1)
    (hj0 : 0 ≤ j) (hj : j < (im.w - 1).tdiv stride + 1) :
    (im2col im size stride).data
        ((k * ((im.h - 1).tdiv stride + 1) + i) * ((im.w - 1).tdiv stride + 1) + j) =
      get_pixel_value im ((k.tdiv size).tmod size + i * stride) (k.tmod size + j * stride)
        ((k.tdiv size).tdiv size) (if size.tmod 2 = 0 then 0 else size.tdiv 2) := by
  have h := (forRange3_store (im.c * size * size) ((im.h - 1).tdiv stride + 1)
    ((im.w - 1).tdiv stride + 1)
    (fun k i j => (k * ((im.h - 1).tdiv stride + 1) + i) * ((im.w - 1).tdiv stride + 1) + j)
    (fun k i j => get_pixel_value im ((k.tdiv size).tmod size + i * stride)
      (k.tmod size + j * stride) ((k.tdiv size).tdiv size)
      (if size.tmod 2 = 0 then 0 else size.tdiv 2))
    (by
      intro k i j k' i' j' _ _ h0 h1 hj0 hj1 _ _ h0' h1' hj0' hj1' e
      exact col_index_unique _ _ k i j k' i' j' h0 h1 hj0 hj1 h0' h1' hj0' hj1' e)
    (fun _ => (0 : α))).1 k i j hk0 hk hi0 hi hj0 hj
  exact h

/-- Outside the `rows * cols` cells it fills, the buffer of `im2col` is zero. -/
theorem im2col_outside (im : image α) (size stride p : Int)
    (hp : ∀ k i j, 0 ≤ k → k < im.c * size * size → 0 ≤ i → i < (im.h - 1).tdiv stride + 1 →
      0 ≤ j → j < (im.w - 1).tdiv stride + 1 →
      p ≠ (k * ((im.h - 1).tdiv stride + 1) + i) * ((im.w - 1).tdiv stride + 1) + j) :
    (im2col im size stride).data p = 0 := by
  have h := (forRange3_store (im.c * size * size) ((im.h - 1).tdiv stride + 1)
    ((im.w - 1).tdiv stride + 1)
    (fun k i j => (k * ((im.h - 1).tdiv stride + 1) + i) * ((im.w - 1).tdiv stride + 1) + j)
    (fun k i j => get_pixel_value im ((k.tdiv size).tmod size + i * stride)
      (k.tmod size + j * stride) ((k.tdiv size).tdiv size)
      (if size.tmod 2 = 0 then 0 else size.tdiv 2))
    (by
      intro k i j k' i' j' _ _ h0 h1 hj0 hj1 _ _ h0' h1' hj0' hj1' e
      exact col_index_unique _ _ k i j k' i' j' h0 h1 hj0 hj1 h0' h1' hj0' hj1' e)
    (fun _ => (0 : α))).2 p hp
  exact h

end PatchTransformLemmas

section C2

variable {α : Type} [CommRing α]

end C2

section Arithmetic

/-- The high digit of `f * n + p` in base `n`, with C division. -/
theorem tdiv_mul_add (f n p : Int) (hf : 0 ≤ f) (hp0 : 0 ≤ p) (hp : p < n) :
    (f * n + p).tdiv n = f := by
  have hn : 0 < n := by omega
  have h0 : 0 ≤ f * n + p := add_nonneg (mul_nonneg hf (le_of_lt hn)) hp0
  rw [Int.tdiv_eq_ediv h0 (le_of_lt hn), add_comm, Int.add_mul_ediv_right _ _ (Int.ne_of_gt hn),
    Int.ediv_eq_zero_of_lt hp0 hp, zero_add]

/-- A two-digit number `f * n + p` with `f < m` is below `m * n`. -/
theorem mul_add_lt (m n f p : Int) (hf : f < m) (hp : p < n) (hn : 0 ≤ n) :
    f * n + p < m * n := by
  have : (f + 1) * n ≤ m * n := mul_le_mul_of_nonneg_right (by omega) hn
  have e : (f + 1) * n = f * n + n := by ring
  omega

theorem mul_add_nonneg (n f p : Int) (hf : 0 ≤ f) (hp : 0 ≤ p) (hn : 0 ≤ n) :
    0 ≤ f * n + p := add_nonneg (mul_nonneg hf hn) hp

end Arithmetic

section Sums

variable {α : Type} [AddCommMonoid α]

theorem sumTo_zero (n : Int) : sumTo n (fun _ => (0 : α)) = 0 := by
  simp [sumTo]

theorem sumTo_add_fun (n : Int) (f g : Int → α) :
    sumTo n (fun i => f i + g i) = sumTo n f + sumTo n g := by
  simp [sumTo, Finset.sum_add_distrib]

theorem sumTo_comm (m n : Int) (f : Int → Int → α) :
    sumTo m (fun i => sumTo n (fun j => f i j)) = sumTo n (fun j => sumTo m (fun i => f i j)) := by
  unfold sumTo
  exact Finset.sum_comm

/-- A sum with a single non-zero term. -/
theorem sumTo_single (n a : Int) (f : Int → α) (ha0 : 0 ≤ a) (ha : a < n) :
    sumTo n (fun i => if i = a then f i else 0) = f a := by
  unfold sumTo
  rw [Finset.sum_eq_single a.toNat]
  · have : ((a.toNat : Nat) : Int) = a := Int.toNat_of_nonneg ha0
    simp [this]
  · intro b _ hb
    have : ¬ ((b : Int) = a) := by omega
    simp [this]
  · intro h
    exact absurd (Finset.mem_range.mpr (by omega)) h

/-- A sum all of whose terms vanish. -/
theorem sumTo_eq_zero (n : Int) (f : Int → α) (h : ∀ i, 0 ≤ i → i < n → f i = 0) :
    sumTo n f = 0 := by
  rw [sumTo_congr n f (fun _ => 0) h, sumTo_zero]

/-- Splitting a sum over `a + b` counter values. -/
theorem sumTo_add (a b : Int) (f : Int → α) (ha : 0 ≤ a) (hb : 0 ≤ b) :
    sumTo (a + b) f = sumTo a f + sumTo b (fun q => f (a + q)) := by
  unfold sumTo
  have e : (a + b).toNat = a.toNat + b.toNat := by omega
  rw [e, Finset.sum_range_add]
  have ea : ((a.toNat : Nat) : Int) = a := Int.toNat_of_nonneg ha
  simp [ea]

/-- A sum over `m * n` counter values, by blocks of `n`. -/
theorem sumTo_mul (m n : Int) (f : Int → α) (hm : 0 ≤ m) (hn : 0 ≤ n) :
    sumTo (m * n) f = sumTo m (fun g => sumTo n (fun q => f (g * n + q))) := by
  obtain ⟨k, rfl⟩ := Int.eq_ofNat_of_zero_le hm
  induction k with
  | zero => simp [sumTo]
  | succ k ih =>
    have e : ((k + 1 : Nat) : Int) * n = (k : Int) * n + n := by push_cast; ring
    have e2 : ((k + 1 : Nat) : Int) = (k : Int) + 1 := by push_cast; ring
    rw [e, sumTo_add _ _ _ (mul_nonneg (by omega) hn) hn, ih (by omega), e2,
      sumTo_succ _ _ (by omega)]

/-- The terms of a sum over `m * n` counter values that fall in block `g`. -/
theorem sumTo_block (m n g : Int) (f : Int → α) (hg0 : 0 ≤ g) (hg : g < m) (hn : 0 ≤ n) :
    sumTo (m * n) (fun j => if j.tdiv n = g then f j else 0) =
      sumTo n (fun q => f (g * n + q)) := by
  rw [sumTo_mul m n _ (by omega) hn]
  have : ∀ g', 0 ≤ g' → g' < m →
      sumTo n (fun q => if (g' * n + q).tdiv n = g then f (g' * n + q) else 0) =
        if g' = g then sumTo n (fun q => f (g' * n + q)) else 0 := by
    intro g' h0 _
    by_cases e : g' = g
    · rw [if_pos e]
      apply sumTo_congr
      intro q hq0 hq
      rw [tdiv_mul_add g' n q h0 hq0 hq, if_pos e]
    · rw [if_neg e]
      apply sumTo_eq_zero
      intro q hq0 hq
      rw [tdiv_mul_add g' n q h0 hq0 hq, if_neg e]
  rw [sumTo_congr m _ _ this]
  exact sumTo_single m g (fun g' => sumTo n (fun q => f (g' * n + q))) hg0 hg

end Sums

section ModifyLoops

variable {α : Type}

/-- A loop of updates `d[idx j] = g j (d[idx j])` at pairwise distinct
offsets. -/
theorem forRange_modify (n : Int) (idx : Int → Int) (g : Int → α → α)
    (hinj : ∀ j j', 0 ≤ j → j < n → 0 ≤ j' → j' < n → idx j = idx j' → j = j')
    (s : Int → α) :
    (∀ j, 0 ≤ j → j < n →
        forRange n (fun j d => store d (idx j) (g j (d (idx j)))) s (idx j) = g j (s (idx j))) ∧
      (∀ p, (∀ j, 0 ≤ j → j < n → p ≠ idx j) →
        forRange n (fun j d => store d (idx j) (g j (d (idx j)))) s p = s p) := by
  have key := fun p => forRange_disjoint n (fun j d => store d (idx j) (g j (d (idx j))))
    (fun j p => p = idx j) (fun j _ old new => new = g j old)
    (by intro j d p _ _ hp; subst hp; exact store_same _ _ _)
    (by intro j d p _ _ hp; exact store_other _ _ _ _ hp)
    (by intro j j' p h0 h1 h0' h1' e e'; exact hinj j j' h0 h1 h0' h1' (e ▸ e'))
    s p
  constructor
  · intro j h0 h1
    exact (key (idx j)).1 j h0 h1 rfl
  · intro p hp
    exact (key p).2 hp

/-- Two nested loops of updates `d[idx i j] = g i j (d[idx i j])` at pairwise
distinct offsets. -/
theorem forRange2_modify (m n : Int) (idx : Int → Int → Int) (g : Int → Int → α → α)
    (hinj : ∀ i j i' j', 0 ≤ i → i < m → 0 ≤ j → j < n → 0 ≤ i' → i' < m → 0 ≤ j' → j' < n →
      idx i j = idx i' j' → i = i' ∧ j = j')
    (s : Int → α) :
    (∀ i j, 0 ≤ i → i < m → 0 ≤ j → j < n →
        forRange m (fun i d =>
          forRange n (fun j d => store d (idx i j) (g i j (d (idx i j)))) d) s (idx i j)
          = g i j (s (idx i j))) ∧
      (∀ p, (∀ i j, 0 ≤ i → i < m → 0 ≤ j → j < n → p ≠ idx i j) →
        forRange m (fun i d =>
          forRange n (fun j d => store d (idx i j) (g i j (d (idx i j)))) d) s p = s p) := by
  have inner := fun (i : Int) (hi0 : 0 ≤ i) (hi : i < m) (d : Int → α) =>
    forRange_modify n (idx i) (g i)
      (fun j j' h0 h1 h0' h1' e => (hinj i j i j' hi0 hi h0 h1 hi0 hi h0' h1' e).2) d
  have key := fun p => forRange_disjoint m
    (fun i d => forRange n (fun j d => store d (idx i j) (g i j (d (idx i j)))) d)
    (fun i p => ∃ j, 0 ≤ j ∧ j < n ∧ p = idx i j)
    (fun i p old new => ∀ j, 0 ≤ j → j < n → p = idx i j → new = g i j old)
    (by
      intro i d p hi0 hi _ j h0 h1 e
      subst e
      exact (inner i hi0 hi d).1 j h0 h1)
    (by
      intro i d p hi0 hi hR
      exact (inner i hi0 hi d).2 p (fun j h0 h1 e => hR ⟨j, h0, h1, e⟩))
    (by
      rintro i i' p h0 h1 h0' h1' ⟨j, hj0, hj1, e⟩ ⟨j', hj0', hj1', e'⟩
      exact (hinj i j i' j' h0 h1 hj0 hj1 h0' h1' hj0' hj1' (e ▸ e')).1)
    s p
  constructor
  · intro i j h0 h1 hj0 hj1
    exact (key (idx i j)).1 i h0 h1 ⟨j, hj0, hj1, rfl⟩ j hj0 hj1 rfl
  · intro p hp
    exact (key p).2 (fun i h0 h1 ⟨j, hj0, hj1, e⟩ => hp i j h0 h1 hj0 hj1 e)

/-- The row-major offset `i * n + j` determines `i` and `j`. -/
theorem row_major_unique (n i j i' j' : Int) (hj0 : 0 ≤ j) (hj : j < n) (hj0' : 0 ≤ j')
    (hj' : j' < n) (e : i * n + j = i' * n + j') : i = i' ∧ j = j' :=
  mul_add_unique n i j i' j' hj0 hj hj0' hj' e

end ModifyLoops

section AddLoops

variable {α : Type} [AddCommMonoid α]

/-- Two nested loops of accumulations `d[idx i j] += v i j`: cell `p` gains the
sum of the `v i j` with `idx i j = p`. -/
theorem forRange2_accumulate (m n : Int) (idx : Int → Int → Int) (v : Int → Int → α)
    (s : Int → α) (p : Int) :
    forRange m (fun i d =>
        forRange n (fun j d => store d (idx i j) (d (idx i j) + v i j)) d) s p =
      s p + sumTo m (fun i => sumTo n (fun j => if idx i j = p then v i j else 0)) := by
  apply forRange_add m _ (fun i p => sumTo n (fun j => if idx i j = p then v i j else 0))
  intro i d q _ _
  apply forRange_add n _ (fun j p => if idx i j = p then v i j else 0)
  intro j d' r _ _
  by_cases e : idx i j = r
  · subst e
    simp [store]
  · have : r ≠ idx i j := fun h => e h.symm
    simp [store, e, this]

end AddLoops

section PrimitiveLemmas

variable {α : Type} [CommRing α]

/-- The entries `axpy_matrix` updates. -/
theorem axpy_entry (a : α) (x y : matrix α) (t : Int) (h : 0 ≤ t ∧ t < x.rows * x.cols) :
    (axpy_matrix a x y).data t = y.data t + a * x.data t := by
  simp only [axpy_matrix, h, and_self, if_true]

/-- The entries `scal_matrix` updates. -/
theorem scal_entry (a : α) (x : matrix α) (t : Int) (h : 0 ≤ t ∧ t < x.rows * x.cols) :
    (scal_matrix a x).data t = a * x.data t := by
  simp only [scal_matrix, h, and_self, if_true]

end PrimitiveLemmas

section ForwardLemmas

variable {α : Type} [CommRing α]

end ForwardLemmas

section C4

variable {α : Type} [CommRing α]

theorem sample_image_c (l : layer α) (inp : matrix α) (i : Int) :
    (sample_image l inp i).c = l.channels := rfl

/-- The output grid has at least one position per axis. -/
theorem out_dim_pos (dim stride : Int) (hd : 1 ≤ dim) (hs : 1 ≤ stride) :
    0 < (dim - 1).tdiv stride + 1 := by
  rw [Int.tdiv_eq_ediv (by omega) (by omega)]
  have := Int.ediv_nonneg (show 0 ≤ dim - 1 by omega) (show 0 ≤ stride by omega)
  omega

end C4

section C5

variable {α : Type} [CommRing α]

end C5

section C6

variable {α : Type} [CommRing α]

/-- C6: `update` yields `w' = w - rate*(dw + decay*w)`,
`dw' = momentum*(dw + decay*w)`, `b' = b - rate*db` and `db' = momentum*db`
(no decay on the bias), entry by entry, for accumulators of the shape of the
parameters. -/
theorem update_convolutional_layer_entries (l : layer α) (rate momentum decay : α)
    (hdwr : l.dw.rows = l.w.rows) (hdwc : l.dw.cols = l.w.cols)
    (hdbr : l.db.rows = l.b.rows) (hdbc : l.db.cols = l.b.cols) :
    (∀ t : Int, 0 ≤ t → t < l.w.rows * l.w.cols →
      (update_convolutional_layer l rate momentum decay).w.data t =
          l.w.data t - rate * (l.dw.data t + decay * l.w.data t) ∧
        (update_convolutional_layer l rate momentum decay).dw.data t =
          momentum * (l.dw.data t + decay * l.w.data t)) ∧
    (∀ t : Int, 0 ≤ t → t < l.b.rows * l.b.cols →
      (update_convolutional_layer l rate momentum decay).b.data t =
          l.b.data t - rate * l.db.data t ∧
        (update_convolutional_layer l rate momentum decay).db.data t =
          momentum * l.db.data t) := by
  constructor
  · intro t h0 h1
    have hw : 0 ≤ t ∧ t < l.w.rows * l.w.cols := ⟨h0, h1⟩
    have hdw : 0 ≤ t ∧ t < l.dw.rows * l.dw.cols := by rw [hdwr, hdwc]; exact hw
    constructor
    · show (axpy_matrix (-rate) (axpy_matrix decay l.w l.dw) l.w).data t = _
      rw [axpy_entry (-rate) (axpy_matrix decay l.w l.dw) l.w t hdw, axpy_entry _ _ _ _ hw]
      ring
    · show (scal_matrix momentum (axpy_matrix decay l.w l.dw)).data t = _
      rw [scal_entry momentum (axpy_matrix decay l.w l.dw) t hdw, axpy_entry _ _ _ _ hw]
  · intro t h0 h1
    have hb : 0 ≤ t ∧ t < l.b.rows * l.b.cols := ⟨h0, h1⟩
    have hdb : 0 ≤ t ∧ t < l.db.rows * l.db.cols := by rw [hdbr, hdbc]; exact hb
    constructor
    · show (axpy_matrix (-rate) l.db l.b).data t = _
      rw [axpy_entry _ _ _ _ hdb]
      ring
    · show (scal_matrix momentum l.db).data t = _
      rw [scal_entry _ _ _ hdb]

end C6

section BatchNormLemmas

variable {α : Type} [Field α]

/-- What `mean` computes: the group means. -/
theorem mean_entry (x : matrix α) (groups n : Int) (hg : 0 < groups) (hn : 0 < n)
    (hc : x.cols = groups * n) :
    ∃ m, mean x groups = some m ∧ m.rows = 1 ∧ m.cols = groups ∧
      ∀ g, 0 ≤ g → g < groups → m.data g = group_mean x n g := by
  have hmod : x.cols.tmod groups = 0 := by rw [hc]; exact Int.mul_tmod_right _ _
  have hdiv : x.cols.tdiv groups = n := by
    rw [hc]; exact Int.mul_tdiv_cancel_left _ (Int.ne_of_gt hg)
  unfold mean
  rw [if_pos hmod, hdiv]
  refine ⟨_, rfl, rfl, rfl, ?_⟩
  intro g hg0 hg1
  have hacc := forRange2_accumulate x.rows x.cols (fun _ j => j.tdiv n)
    (fun i j => x.data (i * x.cols + j)) (fun _ => (0 : α)) g
  have hsum : ∀ i, 0 ≤ i → i < x.rows →
      sumTo x.cols (fun j => if j.tdiv n = g then x.data (i * x.cols + j) else 0) =
        sumTo n (fun q => x.data (i * x.cols + (g * n + q))) := by
    intro i _ _
    have := sumTo_block groups n g (fun j => x.data (i * x.cols + j)) hg0 hg1 (le_of_lt hn)
    rw [← hc] at this
    exact this
  rw [sumTo_congr x.rows _ _ hsum, zero_add] at hacc
  have hmod := (forRange_modify groups (fun i => i) (fun _ old => old / (x.rows : α) / (n : α))
    (fun j j' _ _ _ _ e => e)
    (forRange x.rows (fun i d =>
      forRange x.cols (fun j d =>
        store d (j.tdiv n) (d (j.tdiv n) + x.data (i * x.cols + j))) d) (fun _ => (0 : α)))).1
    g hg0 hg1
  refine Eq.trans hmod ?_
  rw [hacc, group_mean, div_div]

/-- What `variance` computes, for any vector `m` of centres. -/
theorem variance_entry (x m : matrix α) (groups n g : Int) (hg : 0 < groups) (hn : 0 < n)
    (hc : x.cols = groups * n) (hg0 : 0 ≤ g) (hg1 : g < groups) :
    (variance x m groups).data g =
      sumTo x.rows (fun i => sumTo n (fun q =>
        (x.data (i * x.cols + (g * n + q)) - m.data g) ^ 2)) / ((x.rows : α) * (n : α)) := by
  have hdiv : x.cols.tdiv groups = n := by
    rw [hc]; exact Int.mul_tdiv_cancel_left _ (Int.ne_of_gt hg)
  unfold variance
  rw [hdiv]
  have hacc := forRange2_accumulate x.rows x.cols (fun _ j => j.tdiv n)
    (fun i j => (x.data (i * x.cols + j) - m.data (j.tdiv n)) *
      (x.data (i * x.cols + j) - m.data (j.tdiv n))) (fun _ => (0 : α)) g
  have hsum : ∀ i, 0 ≤ i → i < x.rows →
      sumTo x.cols (fun j => if j.tdiv n = g then
          (x.data (i * x.cols + j) - m.data (j.tdiv n)) *
            (x.data (i * x.cols + j) - m.data (j.tdiv n)) else 0) =
        sumTo n (fun q => (x.data (i * x.cols + (g * n + q)) - m.data g) ^ 2) := by
    intro i _ _
    have := sumTo_block groups n g (fun j => (x.data (i * x.cols + j) - m.data (j.tdiv n)) *
      (x.data (i * x.cols + j) - m.data (j.tdiv n))) hg0 hg1 (le_of_lt hn)
    rw [← hc] at this
    rw [this]
    apply sumTo_congr
    intro q hq0 hq1
    beta_reduce
    rw [tdiv_mul_add g n q hg0 hq0 hq1, pow_two]
  rw [sumTo_congr x.rows _ _ hsum, zero_add] at hacc
  have hmod := (forRange_modify groups (fun i => i) (fun _ old => old / (x.rows : α) / (n : α))
    (fun j j' _ _ _ _ e => e)
    (forRange x.rows (fun i d =>
      forRange x.cols (fun j d =>
        store d (j.tdiv n) (d (j.tdiv n) +
          (x.data (i * x.cols + j) - m.data (j.tdiv n)) *
            (x.data (i * x.cols + j) - m.data (j.tdiv n)))) d) (fun _ => (0 : α)))).1
    g hg0 hg1
  refine Eq.trans hmod ?_
  rw [hacc, div_div]

/-- The variance taken around the group means is the group variance. -/
theorem variance_eq_group_variance (x m : matrix α) (groups n g : Int) (hg : 0 < groups)
    (hn : 0 < n) (hc : x.cols = groups * n) (hg0 : 0 ≤ g) (hg1 : g < groups)
    (hm : m.data g = group_mean x n g) :
    (variance x m groups).data g = group_variance x n g := by
  rw [variance_entry x m groups n g hg hn hc hg0 hg1, hm, group_variance]

/-- What `normalize` computes. -/
theorem normalize_entry (sqrtf : α → α) (x m v : matrix α) (groups n i g q : Int)
    (hg : 0 < groups) (hn : 0 < n) (hc : x.cols = groups * n)
    (hi0 : 0 ≤ i) (hi1 : i < x.rows) (hg0 : 0 ≤ g) (hg1 : g < groups)
    (hq0 : 0 ≤ q) (hq1 : q < n) :
    (normalize sqrtf x m v groups).data (i * x.cols + (g * n + q)) =
      (x.data (i * x.cols + (g * n + q)) - m.data g) / sqrtf (v.data g + 1 / 100000) := by
  have hdiv : x.cols.tdiv groups = n := by
    rw [hc]; exact Int.mul_tdiv_cancel_left _ (Int.ne_of_gt hg)
  have hj0 : 0 ≤ g * n + q := mul_add_nonneg _ _ _ hg0 hq0 (le_of_lt hn)
  have hj1 : g * n + q < x.cols := by rw [hc]; exact mul_add_lt _ _ _ _ hg1 hq1 (le_of_lt hn)
  unfold normalize
  rw [hdiv]
  have key := (forRange2_modify x.rows x.cols (fun i j => i * x.cols + j)
    (fun i j old => old +
      (x.data (i * x.cols + j) - m.data (j.tdiv n)) / sqrtf (v.data (j.tdiv n) + 1 / 100000))
    (fun i j i' j' _ _ h0 h1 _ _ h0' h1' e => row_major_unique _ i j i' j' h0 h1 h0' h1' e)
    (fun _ => (0 : α))).1 i (g * n + q) hi0 hi1 hj0 hj1
  rw [tdiv_mul_add g n q hg0 hq0 hq1, zero_add] at key
  exact key

theorem normalize_rows (sqrtf : α → α) (x m v : matrix α) (groups : Int) :
    (normalize sqrtf x m v groups).rows = x.rows := rfl

theorem normalize_cols (sqrtf : α → α) (x m v : matrix α) (groups : Int) :
    (normalize sqrtf x m v groups).cols = x.cols := rfl

end BatchNormLemmas

section C8C9C10

variable {α : Type} [Field α]

/-- C8: on an input with more than one row (column count `groups * n`),
forward replaces the running statistics (of shape `1 × groups`) by
`0.9 * running + 0.1 * batch statistic` per group, the batch statistics being
the biased per-group mean and variance of the input. -/
theorem forward_batchnorm_running_statistics [CharZero α] (sqrtf : α → α) (l : layer α)
    (x : matrix α) (n : Int) (hrows : 1 < x.rows) (hg : 1 ≤ l.channels) (hn : 1 ≤ n)
    (hcols : x.cols = l.channels * n)
    (hmr : l.rolling_mean.rows = 1) (hmc : l.rolling_mean.cols = l.channels)
    (hvr : l.rolling_variance.rows = 1) (hvc : l.rolling_variance.cols = l.channels) :
    ∃ l1 y, forward_batchnorm_layer sqrtf l x = some (l1, y) ∧
      ∀ g : Int, 0 ≤ g → g < l.channels →
        l1.rolling_mean.data g =
            9 / 10 * l.rolling_mean.data g + 1 / 10 * group_mean x n g ∧
          l1.rolling_variance.data g =
            9 / 10 * l.rolling_variance.data g + 1 / 10 * group_variance x n g := by
  obtain ⟨m, hm, hmr', hmc', hme⟩ := mean_entry x l.channels n (by omega) (by omega) hcols
  have hne : ¬ x.rows = 1 := by omega
  unfold forward_batchnorm_layer
  rw [if_neg hne, hm]
  simp only [Option.map_some']
  refine ⟨_, _, rfl, ?_⟩
  intro g hg0 hg1
  have hv : (variance x m l.channels).data g = group_variance x n g :=
    variance_eq_group_variance x m l.channels n g (by omega) (by omega) hcols hg0 hg1
      (hme g hg0 hg1)
  constructor
  · show (axpy_matrix (1 / 10) m (scal_matrix (1 - 1 / 10) l.rolling_mean)).data g = _
    rw [axpy_entry _ _ _ _ (by rw [hmr', hmc']; omega),
      scal_entry _ _ _ (by rw [hmr, hmc]; omega), hme g hg0 hg1]
    norm_num
  · show (axpy_matrix (1 / 10) (variance x m l.channels)
      (scal_matrix (1 - 1 / 10) l.rolling_variance)).data g = _
    rw [axpy_entry _ _ _ _ (by show 0 ≤ g ∧ g < 1 * l.channels; omega),
      scal_entry _ _ _ (by rw [hvr, hvc]; omega), hv]
    norm_num

/-- C9: running statistics change only in batch-mode forward. Forward on a
one-row input (column count `groups * n`) returns
`(x[j] - running_mean[g]) / sqrt(running_variance[g] + eps)` in each column
`j` of group `g = j / n` and leaves the running statistics unchanged; backward
leaves them unchanged whenever it returns, and it returns (with the layer
unchanged) whenever the cached input passes the assertion of `mean`. -/
theorem batchnorm_running_statistics_frame (sqrtf : α → α) (powf : α → α → α) (l : layer α)
    (x : matrix α) (n : Int) (hrows : x.rows = 1) (hg : 1 ≤ l.channels) (hn : 1 ≤ n)
    (hcols : x.cols = l.channels * n) :
    (∃ l1 y, forward_batchnorm_layer sqrtf l x = some (l1, y) ∧
      l1.rolling_mean = l.rolling_mean ∧ l1.rolling_variance = l.rolling_variance ∧
      ∀ j : Int, 0 ≤ j → j < x.cols →
        y.data j = (x.data j - l.rolling_mean.data (j / n)) /
          sqrtf (l.rolling_variance.data (j / n) + 1 / 100000)) ∧
    (∀ (dy : matrix α) (l2 : layer α) (dx : matrix α),
      backward_batchnorm_layer sqrtf powf l dy = some (l2, dx) →
        l2.rolling_mean = l.rolling_mean ∧ l2.rolling_variance = l.rolling_variance) ∧
    (l.x.cols.tmod l.channels = 0 →
      ∀ dy : matrix α, ∃ dx, backward_batchnorm_layer sqrtf powf l dy = some (l, dx)) := by
  refine ⟨?_, ?_, ?_⟩
  · unfold forward_batchnorm_layer
    rw [if_pos hrows]
    refine ⟨_, _, rfl, rfl, rfl, ?_⟩
    intro j hj0 hj1
    have hnpos : 0 < n := by omega
    have hq0 : 0 ≤ j % n := Int.emod_nonneg j (Int.ne_of_gt hnpos)
    have hq1 : j % n < n := Int.emod_lt_of_pos j hnpos
    have hg0 : 0 ≤ j / n := Int.ediv_nonneg hj0 (le_of_lt hnpos)
    have hg1 : j / n < l.channels := Int.ediv_lt_of_lt_mul hnpos (by rw [← hcols]; exact hj1)
    have key := normalize_entry sqrtf x l.rolling_mean l.rolling_variance l.channels n 0 (j / n)
      (j % n) (by omega) hnpos hcols (le_refl 0) (by omega) hg0 hg1 hq0 hq1
    have e : 0 * x.cols + (j / n * n + j % n) = j := by
      rw [zero_mul, zero_add]; exact Int.ediv_add_emod' j n
    rw [e] at key
    exact key
  · intro dy l2 dx h
    unfold backward_batchnorm_layer at h
    dsimp only at h
    cases hm : mean l.x l.channels with
    | none => rw [hm] at h; simp at h
    | some m =>
      rw [hm] at h
      simp only [Option.map_some', Option.some.injEq, Prod.mk.injEq] at h
      rw [← h.1]
      exact ⟨rfl, rfl⟩
  · intro hmod dy
    unfold backward_batchnorm_layer mean
    dsimp only
    rw [if_pos hmod]
    exact ⟨_, rfl⟩

end C8C9C10

section C10

variable {α : Type} [Field α]

/-- What `delta_mean` computes. -/
theorem delta_mean_entry (sqrtf : α → α) (d v : matrix α) (n g : Int) (hg : 0 < v.cols)
    (hn : 0 < n) (hc : d.cols = v.cols * n) (hg0 : 0 ≤ g) (hg1 : g < v.cols) :
    (delta_mean sqrtf d v).data g =
      sumTo d.rows (fun i => sumTo n (fun q =>
        d.data (i * d.cols + (g * n + q)) * (-1 / sqrtf (v.data g + 1 / 100000)))) := by
  have hdiv : d.cols.tdiv v.cols = n := by
    rw [hc]; exact Int.mul_tdiv_cancel_left _ (Int.ne_of_gt hg)
  unfold delta_mean
  dsimp only
  rw [hdiv]
  have hacc := forRange2_accumulate d.rows d.cols (fun _ j => j.tdiv n)
    (fun i j => d.data (i * d.cols + j) * (-1 / sqrtf (v.data (j.tdiv n) + 1 / 100000)))
    (fun _ => (0 : α)) g
  have hsum : ∀ i, 0 ≤ i → i < d.rows →
      sumTo d.cols (fun j => if j.tdiv n = g then
          d.data (i * d.cols + j) * (-1 / sqrtf (v.data (j.tdiv n) + 1 / 100000)) else 0) =
        sumTo n (fun q =>
          d.data (i * d.cols + (g * n + q)) * (-1 / sqrtf (v.data g + 1 / 100000))) := by
    intro i _ _
    have := sumTo_block v.cols n g (fun j =>
      d.data (i * d.cols + j) * (-1 / sqrtf (v.data (j.tdiv n) + 1 / 100000))) hg0 hg1
      (le_of_lt hn)
    rw [← hc] at this
    rw [this]
    apply sumTo_congr
    intro q hq0 hq1
    beta_reduce
    rw [tdiv_mul_add g n q hg0 hq0 hq1]
  rw [sumTo_congr d.rows _ _ hsum, zero_add] at hacc
  exact hacc

/-- What `delta_variance` computes. -/
theorem delta_variance_entry (powf : α → α → α) (d x m v : matrix α) (n g : Int)
    (hg : 0 < m.cols) (hn : 0 < n) (hc : d.cols = m.cols * n) (hg0 : 0 ≤ g) (hg1 : g < m.cols) :
    (delta_variance powf d x m v).data g =
      sumTo d.rows (fun i => sumTo n (fun q =>
        d.data (i * d.cols + (g * n + q)) * (x.data (i * d.cols + (g * n + q)) - m.data g) *
          (-(1 / 2) * powf (v.data g + 1 / 100000) (-(3 / 2))))) := by
  have hdiv : d.cols.tdiv m.cols = n := by
    rw [hc]; exact Int.mul_tdiv_cancel_left _ (Int.ne_of_gt hg)
  unfold delta_variance
  dsimp only
  rw [hdiv]
  have hacc := forRange2_accumulate d.rows d.cols (fun _ j => j.tdiv n)
    (fun i j => d.data (i * d.cols + j) * (x.data (i * d.cols + j) - m.data (j.tdiv n)) *
      (-(1 / 2) * powf (v.data (j.tdiv n) + 1 / 100000) (-(3 / 2))))
    (fun _ => (0 : α)) g
  have hsum : ∀ i, 0 ≤ i → i < d.rows →
      sumTo d.cols (fun j => if j.tdiv n = g then
          d.data (i * d.cols + j) * (x.data (i * d.cols + j) - m.data (j.tdiv n)) *
            (-(1 / 2) * powf (v.data (j.tdiv n) + 1 / 100000) (-(3 / 2))) else 0) =
        sumTo n (fun q =>
          d.data (i * d.cols + (g * n + q)) * (x.data (i * d.cols + (g * n + q)) - m.data g) *
            (-(1 / 2) * powf (v.data g + 1 / 100000) (-(3 / 2)))) := by
    intro i _ _
    have := sumTo_block m.cols n g (fun j =>
      d.data (i * d.cols + j) * (x.data (i * d.cols + j) - m.data (j.tdiv n)) *
        (-(1 / 2) * powf (v.data (j.tdiv n) + 1 / 100000) (-(3 / 2)))) hg0 hg1 (le_of_lt hn)
    rw [← hc] at this
    rw [this]
    apply sumTo_congr
    intro q hq0 hq1
    beta_reduce
    rw [tdiv_mul_add g n q hg0 hq0 hq1]
  rw [sumTo_congr d.rows _ _ hsum, zero_add] at hacc
  exact hacc

/-- What `delta_batch_norm` computes. -/
theorem delta_batch_norm_entry (sqrtf : α → α) (d dm dv m v x : matrix α) (n i g q : Int)
    (hg : 0 < m.cols) (hn : 0 < n) (hc : x.cols = m.cols * n) (hd : d.cols = x.cols)
    (hi0 : 0 ≤ i) (hi1 : i < x.rows) (hg0 : 0 ≤ g) (hg1 : g < m.cols)
    (hq0 : 0 ≤ q) (hq1 : q < n) :
    (delta_batch_norm sqrtf d dm dv m v x).data (i * x.cols + (g * n + q)) =
      d.data (i * x.cols + (g * n + q)) / sqrtf (v.data g + 1 / 100000) +
        dv.data g * 2 * (x.data (i * x.cols + (g * n + q)) - m.data g) / ((x.rows * n : Int) : α) +
        dm.data g / ((x.rows * n : Int) : α) := by
  have hdiv : x.cols.tdiv m.cols = n := by
    rw [hc]; exact Int.mul_tdiv_cancel_left _ (Int.ne_of_gt hg)
  have hj0 : 0 ≤ g * n + q := mul_add_nonneg _ _ _ hg0 hq0 (le_of_lt hn)
  have hj1 : g * n + q < x.cols := by rw [hc]; exact mul_add_lt _ _ _ _ hg1 hq1 (le_of_lt hn)
  unfold delta_batch_norm
  dsimp only
  rw [hdiv, hd]
  have key := (forRange2_store x.rows x.cols (fun i j => i * x.cols + j)
    (fun i j => d.data (i * x.cols + j) / sqrtf (v.data (j.tdiv n) + 1 / 100000) +
        dv.data (j.tdiv n) * 2 * (x.data (i * x.cols + j) - m.data (j.tdiv n)) /
          ((x.rows * n : Int) : α) +
        dm.data (j.tdiv n) / ((x.rows * n : Int) : α))
    (fun i j i' j' _ _ h0 h1 _ _ h0' h1' e => row_major_unique _ i j i' j' h0 h1 h0' h1' e)
    (fun _ => (0 : α))).1 i (g * n + q) hi0 hi1 hj0 hj1
  rw [tdiv_mul_add g n q hg0 hq0 hq1] at key
  exact key

/-- C10: for a cached input `x` (`rows ≥ 1`, column count `groups * n`) and a
`dy` of the same shape, batch-norm backward returns `dx` with
`dx[i] = dy[i]/sqrt(var[g]+eps) + dVariance[g]*2*(x[i]-mean[g])/N + dMean[g]/N`
for each element `i` of group `g`, where `mean`, `var` are the batch
statistics recomputed from `x`, `N = rows * n`, and `dMean`, `dVariance` are
the sums of the specification. -/
theorem backward_batchnorm_layer_entries (sqrtf : α → α) (powf : α → α → α) (l : layer α)
    (dy : matrix α) (n : Int) (_hrows : 1 ≤ l.x.rows) (hg : 1 ≤ l.channels) (hn : 1 ≤ n)
    (hcols : l.x.cols = l.channels * n) (hdyr : dy.rows = l.x.rows)
    (hdyc : dy.cols = l.x.cols) :
    ∃ l1 dx, backward_batchnorm_layer sqrtf powf l dy = some (l1, dx) ∧
      dx.rows = dy.rows ∧ dx.cols = dy.cols ∧
      ∀ i g q : Int, 0 ≤ i → i < l.x.rows → 0 ≤ g → g < l.channels → 0 ≤ q → q < n →
        dx.data (i * l.x.cols + (g * n + q)) =
          dy.data (i * l.x.cols + (g * n + q)) /
              sqrtf (group_variance l.x n g + 1 / 100000) +
            group_delta_variance powf dy l.x n g * 2 *
              (l.x.data (i * l.x.cols + (g * n + q)) - group_mean l.x n g) /
                ((l.x.rows * n : Int) : α) +
            group_delta_mean sqrtf dy l.x n g / ((l.x.rows * n : Int) : α) := by
  obtain ⟨m, hm, _, hmc, hme⟩ := mean_entry l.x l.channels n (by omega) (by omega) hcols
  unfold backward_batchnorm_layer
  dsimp only
  rw [hm]
  simp only [Option.map_some']
  refine ⟨_, _, rfl, rfl, rfl, ?_⟩
  intro i g q hi0 hi1 hg0 hg1 hq0 hq1
  have hv : (variance l.x m l.channels).data g = group_variance l.x n g :=
    variance_eq_group_variance l.x m l.channels n g (by omega) (by omega) hcols hg0 hg1
      (hme g hg0 hg1)
  have hvc : (variance l.x m l.channels).cols = l.channels := rfl
  have hdm := delta_mean_entry sqrtf dy (variance l.x m l.channels) n g (by rw [hvc]; omega)
    (by omega) (by rw [hvc, hdyc]; exact hcols) hg0 (by rw [hvc]; exact hg1)
  have hdv := delta_variance_entry powf dy l.x m (variance l.x m l.channels) n g
    (by rw [hmc]; omega) (by omega) (by rw [hmc, hdyc]; exact hcols) hg0 (by rw [hmc]; exact hg1)
  have key := delta_batch_norm_entry sqrtf dy
    (delta_mean sqrtf dy (variance l.x m l.channels))
    (delta_variance powf dy l.x m (variance l.x m l.channels)) m
    (variance l.x m l.channels) l.x n i g q (by rw [hmc]; omega) (by omega)
    (by rw [hmc]; exact hcols) hdyc hi0 hi1 hg0 (by rw [hmc]; exact hg1) hq0 hq1
  rw [key, hdm, hdv, hv, hme g hg0 hg1, hdyr, hdyc]
  have e1 : ∀ i', 0 ≤ i' → i' < l.x.rows → sumTo n (fun q' =>
      dy.data (i' * l.x.cols + (g * n + q')) *
        (l.x.data (i' * l.x.cols + (g * n + q')) - group_mean l.x n g) *
        (-(1 / 2) * powf (group_variance l.x n g + 1 / 100000) (-(3 / 2)))) =
      sumTo n (fun q' =>
        dy.data (i' * l.x.cols + (g * n + q')) *
            (l.x.data (i' * l.x.cols + (g * n + q')) - group_mean l.x n g) *
          (-(1 / 2)) * powf (group_variance l.x n g + 1 / 100000) (-(3 / 2))) := by
    intro i' _ _
    apply sumTo_congr
    intro q' _ _
    ring
  rw [sumTo_congr l.x.rows _ _ e1]
  rfl

end C10

section FieldSums

variable {α : Type} [Field α]

theorem sumTo_div (n : Int) (f : Int → α) (c : α) :
    sumTo n (fun i => f i / c) = sumTo n f / c := by
  simp [sumTo, Finset.sum_div]

theorem sumTo_sub (n : Int) (f g : Int → α) :
    sumTo n (fun i => f i - g i) = sumTo n f - sumTo n g := by
  simp [sumTo, Finset.sum_sub_distrib]

theorem sumTo_const (n : Int) (c : α) (hn : 0 ≤ n) :
    sumTo n (fun _ => c) = (n : α) * c := by
  have e : ((n.toNat : Nat) : Int) = n := Int.toNat_of_nonneg hn
  have e2 : ((n.toNat : Nat) : α) = ((n : Int) : α) := by
    rw [← Int.cast_natCast, e]
  simp [sumTo, Finset.sum_const, nsmul_eq_mul, e2]

end FieldSums

section C7

theorem sumTo_nonneg (n : Int) (f : Int → ℝ) (h : ∀ i, 0 ≤ i → i < n → 0 ≤ f i) :
    0 ≤ sumTo n f := by
  unfold sumTo
  apply Finset.sum_nonneg
  intro i hi
  have := Finset.mem_range.mp hi
  exact h i (by omega) (by omega)

/-- The group variance of a real matrix with at least one row is
non-negative. -/
theorem group_variance_nonneg (x : matrix ℝ) (n g : Int) (hr : 0 ≤ x.rows) (hn : 0 ≤ n) :
    0 ≤ group_variance x n g := by
  unfold group_variance
  apply div_nonneg
  · apply sumTo_nonneg
    intro i _ _
    apply sumTo_nonneg
    intro q _ _
    exact sq_nonneg _
  · exact mul_nonneg (by exact_mod_cast hr) (by exact_mod_cast hn)

/-- C7: batch-norm forward statistics. For an input with more than one row
and column count `groups * n`, in exact real arithmetic the output of
batch-mode forward has, in every group, mean exactly `0` and population
variance exactly `v / (v + eps)`, `v` being the group's input variance and
`eps = 1e-5`; this value lies in `[0, 1)` and equals `1 / (1 + eps / v)` when
`v ≠ 0`. -/
theorem forward_batchnorm_statistics (l : layer ℝ) (x : matrix ℝ) (n : Int)
    (hrows : 1 < x.rows) (hg : 1 ≤ l.channels) (hn : 1 ≤ n)
    (hcols : x.cols = l.channels * n) :
    ∃ l1 y, forward_batchnorm_layer Real.sqrt l x = some (l1, y) ∧
      y.rows = x.rows ∧ y.cols = x.cols ∧
      ∀ g : Int, 0 ≤ g → g < l.channels →
        group_mean y n g = 0 ∧
        group_variance y n g = group_variance x n g / (group_variance x n g + 1 / 100000) ∧
        0 ≤ group_variance y n g ∧ group_variance y n g < 1 ∧
        (group_variance x n g ≠ 0 →
          group_variance y n g = 1 / (1 + (1 / 100000) / group_variance x n g)) := by
  obtain ⟨m, hm, _, _, hme⟩ := mean_entry x l.channels n (by omega) (by omega) hcols
  have hne : ¬ x.rows = 1 := by omega
  unfold forward_batchnorm_layer
  rw [if_neg hne, hm]
  simp only [Option.map_some']
  refine ⟨_, _, rfl, rfl, rfl, ?_⟩
  intro g hg0 hg1
  have hv : (variance x m l.channels).data g = group_variance x n g :=
    variance_eq_group_variance x m l.channels n g (by omega) (by omega) hcols hg0 hg1
      (hme g hg0 hg1)
  have hV : 0 ≤ group_variance x n g := group_variance_nonneg x n g (by omega) (by omega)
  have hVe : 0 < group_variance x n g + 1 / 100000 := by positivity
  have hσ : 0 < Real.sqrt (group_variance x n g + 1 / 100000) := Real.sqrt_pos.mpr hVe
  have hσ2 : Real.sqrt (group_variance x n g + 1 / 100000) ^ 2 =
      group_variance x n g + 1 / 100000 := Real.sq_sqrt (le_of_lt hVe)
  have hR : (0 : ℝ) < (x.rows : ℝ) := by exact_mod_cast (by omega : (0 : Int) < x.rows)
  have hN : (0 : ℝ) < (n : ℝ) := by exact_mod_cast (by omega : (0 : Int) < n)
  have hRN : (x.rows : ℝ) * (n : ℝ) ≠ 0 := ne_of_gt (mul_pos hR hN)
  -- the entries of the output in group `g`
  have hy : ∀ i, 0 ≤ i → i < x.rows → ∀ q, 0 ≤ q → q < n →
      (normalize Real.sqrt x m (variance x m l.channels) l.channels).data
          (i * x.cols + (g * n + q)) =
        (x.data (i * x.cols + (g * n + q)) - group_mean x n g) /
          Real.sqrt (group_variance x n g + 1 / 100000) := by
    intro i hi0 hi1 q hq0 hq1
    rw [normalize_entry Real.sqrt x m (variance x m l.channels) l.channels n i g q (by omega)
      (by omega) hcols hi0 hi1 hg0 hg1 hq0 hq1, hv, hme g hg0 hg1]
  have hsumx : sumTo x.rows (fun i => sumTo n (fun q => x.data (i * x.cols + (g * n + q)))) =
      (x.rows : ℝ) * (n : ℝ) * group_mean x n g := by
    unfold group_mean
    field_simp
  have hmean : group_mean (normalize Real.sqrt x m (variance x m l.channels) l.channels) n g
      = 0 := by
    unfold group_mean
    rw [normalize_rows, normalize_cols]
    have e : sumTo x.rows (fun i => sumTo n (fun q =>
        (normalize Real.sqrt x m (variance x m l.channels) l.channels).data
          (i * x.cols + (g * n + q)))) = 0 := by
      rw [sumTo_congr x.rows _ _ (fun i hi0 hi1 => sumTo_congr n _ _ (hy i hi0 hi1))]
      simp only [sumTo_div, sumTo_sub]
      rw [hsumx]
      simp only [sumTo_const _ _ (show (0 : Int) ≤ n by omega),
        sumTo_const _ _ (show (0 : Int) ≤ x.rows by omega)]
      rw [show (x.rows : ℝ) * (n : ℝ) * group_mean x n g -
        (x.rows : ℝ) * ((n : ℝ) * group_mean x n g) = 0 by ring, zero_div]
    rw [e, zero_div]
  have hvar : group_variance (normalize Real.sqrt x m (variance x m l.channels) l.channels) n g
      = group_variance x n g / (group_variance x n g + 1 / 100000) := by
    have e : ∀ i, 0 ≤ i → i < x.rows → ∀ q, 0 ≤ q → q < n →
        ((normalize Real.sqrt x m (variance x m l.channels) l.channels).data
            (i * x.cols + (g * n + q)) -
          group_mean (normalize Real.sqrt x m (variance x m l.channels) l.channels) n g) ^ 2 =
        (x.data (i * x.cols + (g * n + q)) - group_mean x n g) ^ 2 /
          (group_variance x n g + 1 / 100000) := by
      intro i hi0 hi1 q hq0 hq1
      rw [hmean, sub_zero, hy i hi0 hi1 q hq0 hq1, div_pow, hσ2]
    rw [group_variance, normalize_rows, normalize_cols,
      sumTo_congr x.rows _ _ (fun i hi0 hi1 => sumTo_congr n _ _ (e i hi0 hi1))]
    simp only [sumTo_div]
    rw [group_variance, div_right_comm]
  refine ⟨hmean, hvar, ?_, ?_, ?_⟩
  · rw [hvar]; exact div_nonneg hV (le_of_lt hVe)
  · rw [hvar, div_lt_one hVe]; linarith
  · intro hV0
    rw [hvar]
    field_simp
    ring

end C7

section C1C3

/-- C1 (even kernel): on the `2 × 2` image `(1, 2, 3, 4)` with a `2 × 2`
kernel of stride `1` and the patch matrix with a single `1` at row `1`,
column `0`, the sum of `im2col(I) * C` is `2` while the sum of
`I * col2im(C)` is `0`: `col2im` walks a `1 × 1` output grid where `im2col`
walked a `2 × 2` one. -/
theorem col2im_not_adjoint_even_kernel :
    sumTo ((im2col image2x2 2 1).rows * (im2col image2x2 2 1).cols)
        (fun t => (im2col image2x2 2 1).data t * patch4x4.data t) = 2 ∧
      sumTo (2 * 2 * 1)
        (fun t => image2x2.data t * (col2im 2 2 1 patch4x4 2 1).data t) = 0 ∧
      (im2col image2x2 2 1).rows = patch4x4.rows ∧
      (im2col image2x2 2 1).cols = patch4x4.cols := by
  decide

/-- C3 (even kernel): on `evenLayer` (one `2 × 2` filter `(0, 1, 0, 0)`,
stride `1`, `2 × 2` one-channel input) with input `x = (0, 1, 0, 0)` and
output gradient `dy = (1, 0, 0, 0)`, forward and backward return, the sum of
`(forward(x) - forward(0)) * dy` is `1` and the sum of `x * backward(dy)` is
`0`. -/
theorem conv_backward_not_transpose_even_kernel :
    ((forward_convolutional_layer evenLayer batchE1).bind (fun r =>
      (forward_convolutional_layer evenLayer (make_matrix 1 4)).bind (fun r0 =>
        (backward_convolutional_layer r.1 gradE0).map (fun rb =>
          (sumTo 4 (fun t => (r.2.data t - r0.2.data t) * gradE0.data t),
            sumTo 4 (fun t => batchE1.data t * rb.2.data t)))))) = some (1, 0) := by
  decide

end C1C3

section Witnesses

/-- C6 at `oddLayer` with rate `1`, momentum `2` and decay `3`, first weight. -/
theorem update_convolutional_layer_entries_witness :
    oddLayer.dw.rows = oddLayer.w.rows ∧ oddLayer.dw.cols = oddLayer.w.cols ∧
      (update_convolutional_layer oddLayer 1 2 3).w.data 0 =
        oddLayer.w.data 0 - 1 * (oddLayer.dw.data 0 + 3 * oddLayer.w.data 0) :=
  ⟨by decide, by decide,
    ((update_convolutional_layer_entries oddLayer 1 2 3 (by decide) (by decide) (by decide)
      (by decide)).1 0 (by decide) (by decide)).1⟩

/-- C7 at a real batch of two rows and two groups of two columns: group `0`
of the output has mean `0` and variance below `1`. -/
theorem forward_batchnorm_statistics_witness :
    (1 : Int) < (bnBatch ℝ).rows ∧ (bnBatch ℝ).cols = (bnLayer ℝ).channels * 2 ∧
      ∃ l1 y, forward_batchnorm_layer Real.sqrt (bnLayer ℝ) (bnBatch ℝ) = some (l1, y) ∧
        group_mean y 2 0 = 0 ∧ group_variance y 2 0 < 1 :=
  have h := forward_batchnorm_statistics (bnLayer ℝ) (bnBatch ℝ) 2 (by decide) (by decide)
    (by decide) (by decide)
  ⟨by decide, by decide, h.elim fun l1 h1 => h1.elim fun y hy =>
    ⟨l1, y, hy.1, (hy.2.2.2 0 (by decide) (by decide)).1,
      (hy.2.2.2 0 (by decide) (by decide)).2.2.2.1⟩⟩

/-- C8 at a rational batch of two rows and two groups of two columns, running
mean of group `0`. -/
theorem forward_batchnorm_running_statistics_witness :
    (1 : Int) < (bnBatch ℚ).rows ∧ (bnBatch ℚ).cols = (bnLayer ℚ).channels * 2 ∧
      ∃ l1 y, forward_batchnorm_layer (fun a => a) (bnLayer ℚ) (bnBatch ℚ) = some (l1, y) ∧
        l1.rolling_mean.data 0 =
          9 / 10 * (bnLayer ℚ).rolling_mean.data 0 + 1 / 10 * group_mean (bnBatch ℚ) 2 0 :=
  have h := forward_batchnorm_running_statistics (fun a => a) (bnLayer ℚ) (bnBatch ℚ) 2
    (by decide) (by decide) (by decide) (by decide) (by decide) (by decide) (by decide)
    (by decide)
  ⟨by decide, by decide, h.elim fun l1 h1 => h1.elim fun y hy =>
    ⟨l1, y, hy.1, (hy.2 0 (by decide) (by decide)).1⟩⟩

/-- C9 at a rational row of two groups of two columns: forward returns and
keeps the running statistics. -/
theorem batchnorm_running_statistics_frame_witness :
    (bnRow ℚ).rows = 1 ∧ (bnRow ℚ).cols = (bnLayer ℚ).channels * 2 ∧
      ∃ l1 y, forward_batchnorm_layer (fun a => a) (bnLayer ℚ) (bnRow ℚ) = some (l1, y) ∧
        l1.rolling_mean = (bnLayer ℚ).rolling_mean ∧
        l1.rolling_variance = (bnLayer ℚ).rolling_variance :=
  have h := (batchnorm_running_statistics_frame (fun a => a) (fun a _ => a) (bnLayer ℚ)
    (bnRow ℚ) 2 (by decide) (by decide) (by decide) (by decide)).1
  ⟨by decide, by decide, h.elim fun l1 h1 => h1.elim fun y hy =>
    ⟨l1, y, hy.1, hy.2.1, hy.2.2.1⟩⟩

/-- C10 at a rational cached input of two rows and two groups of two columns:
backward returns a `dx` of the shape of `dy`. -/
theorem backward_batchnorm_layer_entries_witness :
    (1 : Int) ≤ (bnLayer ℚ).x.rows ∧ (bnBatch ℚ).cols = (bnLayer ℚ).x.cols ∧
      ∃ l1 dx, backward_batchnorm_layer (fun a => a) (fun a _ => a) (bnLayer ℚ) (bnBatch ℚ) =
          some (l1, dx) ∧ dx.rows = (bnBatch ℚ).rows ∧ dx.cols = (bnBatch ℚ).cols :=
  have h := backward_batchnorm_layer_entries (fun a => a) (fun a _ => a) (bnLayer ℚ)
    (bnBatch ℚ) 2 (by decide) (by decide) (by decide) (by decide) (by decide) (by decide)
  ⟨by decide, by decide, h.elim fun l1 h1 => h1.elim fun dx hd =>
    ⟨l1, dx, hd.1, hd.2.1, hd.2.2.1⟩⟩

end Witnesses


section C15C17C12

/-- C15 (inference path): the two groups of `bnLayer` do not divide the three
columns of `bnRow3`, yet forward on this one-row input returns; on the
two-row input `bnBatch3` of the same width it aborts. -/
theorem forward_batchnorm_one_row_skips_shape_check :
    (bnRow3 ℚ).cols.tmod (bnLayer ℚ).channels ≠ 0 ∧
      (forward_batchnorm_layer (fun a => a) (bnLayer ℚ) (bnRow3 ℚ)).isSome = true ∧
      (forward_batchnorm_layer (fun a => a) (bnLayer ℚ) (bnBatch3 ℚ)).isSome = false := by
  decide

/-- C17 (no shape check): `poolLayer2` expects `2 * 2 * 1 = 4` columns; on
the one-row input `row5` with five columns forward returns a `1 × 1` output,
the maximum `4` of the first four values. -/
theorem forward_maxpool_accepts_bad_shape :
    row5.cols ≠ poolLayer2.width * poolLayer2.height * poolLayer2.channels ∧
      (forward_maxpool_layer poolLayer2 row5).2.rows = 1 ∧
      (forward_maxpool_layer poolLayer2 row5).2.cols = 1 ∧
      (forward_maxpool_layer poolLayer2 row5).2.data 0 = 4 := by
  decide

/-- C12 (second sample): on `poolLayer1` (a `1 × 1` window, cached batch of
two samples `5` and `7`) with an all-ones gradient of two rows, backward
returns a `2 × 1` matrix `dx` with `dx[0][0] = 1` and `dx[1][0] = 0`, while
the only window of sample `1` has its maximum at input index `0` of that
sample and `dy[1][0] = 1`. -/
theorem backward_maxpool_ignores_second_sample :
    (backward_maxpool_layer poolLayer1 gradOnes2).2.rows = 2 ∧
      (backward_maxpool_layer poolLayer1 gradOnes2).2.cols = 1 ∧
      (backward_maxpool_layer poolLayer1 gradOnes2).2.data 0 = 1 ∧
      (backward_maxpool_layer poolLayer1 gradOnes2).2.data 1 = 0 ∧
      gradOnes2.data 1 = 1 ∧
      (forward_maxpool_layer poolLayer1 poolLayer1.x).2.data 1 = poolLayer1.x.data 1 := by
  decide

end C15C17C12

section C16

variable {α : Type} [CommRing α]

end C16

section C16Examples

end C16Examples

section C20

variable {α : Type} [Field α]

theorem sumTo_mul_left (n : Int) (f : Int → α) (c : α) :
    sumTo n (fun i => c * f i) = c * sumTo n f := by
  simp [sumTo, Finset.mul_sum]

theorem sumTo_mul_right (n : Int) (f : Int → α) (c : α) :
    sumTo n (fun i => f i * c) = sumTo n f * c := by
  simp [sumTo, Finset.sum_mul]

/-- The deviations from the group mean sum to zero over the group. -/
theorem sum_sub_group_mean [CharZero α] (x : matrix α) (n g : Int) (hr : 1 ≤ x.rows)
    (hn : 1 ≤ n) :
    sumTo x.rows (fun i => sumTo n (fun q =>
      x.data (i * x.cols + (g * n + q)) - group_mean x n g)) = 0 := by
  have hR : (x.rows : α) ≠ 0 := by
    have : x.rows ≠ 0 := by omega
    exact_mod_cast this
  have hN : (n : α) ≠ 0 := by
    have : n ≠ 0 := by omega
    exact_mod_cast this
  simp only [sumTo_sub, sumTo_const _ _ (show (0 : Int) ≤ n by omega),
    sumTo_const _ _ (show (0 : Int) ≤ x.rows by omega)]
  unfold group_mean
  field_simp
  ring

/-- C20: for a cached input `x` (`rows ≥ 1`, column count `groups * n`,
`n ≥ 1`) and a `dy` of the same shape, backward returns a `dx` whose entries in
every group `g`, summed over all rows and all positions of the group, give
`0` in exact arithmetic (any field of characteristic zero, the reals among
them; any `sqrtf` and `powf`). -/
theorem backward_batchnorm_layer_group_sum_zero [CharZero α] (sqrtf : α → α)
    (powf : α → α → α) (l : layer α) (dy : matrix α) (n : Int) (hrows : 1 ≤ l.x.rows)
    (hg : 1 ≤ l.channels) (hn : 1 ≤ n) (hcols : l.x.cols = l.channels * n)
    (hdyr : dy.rows = l.x.rows) (hdyc : dy.cols = l.x.cols) :
    ∃ l1 dx, backward_batchnorm_layer sqrtf powf l dy = some (l1, dx) ∧
      ∀ g : Int, 0 ≤ g → g < l.channels →
        sumTo l.x.rows (fun i => sumTo n (fun q => dx.data (i * l.x.cols + (g * n + q)))) = 0 := by
  obtain ⟨m, hm, _, hmc, hme⟩ := mean_entry l.x l.channels n (by omega) (by omega) hcols
  unfold backward_batchnorm_layer
  dsimp only
  rw [hm]
  simp only [Option.map_some']
  refine ⟨_, _, rfl, ?_⟩
  intro g hg0 hg1
  have hvc : (variance l.x m l.channels).cols = l.channels := rfl
  have hdm := delta_mean_entry sqrtf dy (variance l.x m l.channels) n g (by rw [hvc]; omega)
    (by omega) (by rw [hvc, hdyc]; exact hcols) hg0 (by rw [hvc]; exact hg1)
  rw [hdyr, hdyc] at hdm
  have hR : (l.x.rows : α) ≠ 0 := by
    have : l.x.rows ≠ 0 := by omega
    exact_mod_cast this
  have hN : (n : α) ≠ 0 := by
    have : n ≠ 0 := by omega
    exact_mod_cast this
  have hT : ((l.x.rows * n : Int) : α) ≠ 0 := by
    push_cast
    exact mul_ne_zero hR hN
  have hentry : ∀ i, 0 ≤ i → i < l.x.rows → ∀ q, 0 ≤ q → q < n →
      (delta_batch_norm sqrtf dy (delta_mean sqrtf dy (variance l.x m l.channels))
        (delta_variance powf dy l.x m (variance l.x m l.channels)) m
        (variance l.x m l.channels) l.x).data (i * l.x.cols + (g * n + q)) =
      dy.data (i * l.x.cols + (g * n + q)) /
          sqrtf ((variance l.x m l.channels).data g + 1 / 100000) +
        (delta_variance powf dy l.x m (variance l.x m l.channels)).data g * 2 /
            ((l.x.rows * n : Int) : α) *
          (l.x.data (i * l.x.cols + (g * n + q)) - group_mean l.x n g) +
        (delta_mean sqrtf dy (variance l.x m l.channels)).data g / ((l.x.rows * n : Int) : α) := by
    intro i hi0 hi1 q hq0 hq1
    rw [delta_batch_norm_entry sqrtf dy _ _ m (variance l.x m l.channels) l.x n i g q
      (by rw [hmc]; omega) (by omega) (by rw [hmc]; exact hcols) hdyc hi0 hi1 hg0
      (by rw [hmc]; exact hg1) hq0 hq1, hme g hg0 hg1]
    ring
  rw [sumTo_congr l.x.rows _ _ (fun i hi0 hi1 => sumTo_congr n _ _ (hentry i hi0 hi1))]
  simp only [sumTo_add_fun, sumTo_mul_left, sumTo_const _ _ (show (0 : Int) ≤ n by omega),
    sumTo_const _ _ (show (0 : Int) ≤ l.x.rows by omega)]
  rw [sum_sub_group_mean l.x n g hrows hn, mul_zero, add_zero, hdm]
  simp only [sumTo_div, sumTo_mul_right]
  push_cast
  generalize sqrtf ((variance l.x m l.channels).data g + 1 / 100000) = σ
  by_cases h0 : σ = 0
  · simp [h0]
  · field_simp
    ring

end C20

section Col2imLemmas

variable {α : Type} [CommRing α]

/-- A loop over images whose every iteration keeps the dimensions and adds
`d i p` to pixel `p` adds the sum of the `d i p` to it. -/
theorem forRange_image_add (W H C n : Int) (body : Int → image α → image α)
    (d : Int → Int → α)
    (h : ∀ i (im : image α), 0 ≤ i → i < n → im.w = W → im.h = H → im.c = C →
      (body i im).w = W ∧ (body i im).h = H ∧ (body i im).c = C ∧
        ∀ p, (body i im).data p = im.data p + d i p)
    (im : image α) (hw : im.w = W) (hh : im.h = H) (hc : im.c = C) :
    (forRange n body im).w = W ∧ (forRange n body im).h = H ∧ (forRange n body im).c = C ∧
      ∀ p, (forRange n body im).data p = im.data p + sumTo n (fun i => d i p) := by
  rcases le_or_lt n 0 with hn | hn
  · rw [forRange_nonpos n body im hn]
    refine ⟨hw, hh, hc, ?_⟩
    intro p
    rw [sumTo_nonpos n _ hn, add_zero]
  · have := forRange_invariant n body
      (fun i t => i ≤ n → t.w = W ∧ t.h = H ∧ t.c = C ∧
        ∀ p, t.data p = im.data p + sumTo i (fun i => d i p)) im (le_of_lt hn)
      (by
        intro _
        refine ⟨hw, hh, hc, ?_⟩
        intro p
        rw [sumTo_nonpos 0 _ (le_refl 0), add_zero])
      (by
        intro i t hi0 hin hI _
        obtain ⟨h1, h2, h3, h4⟩ := hI (le_of_lt hin)
        obtain ⟨b1, b2, b3, b4⟩ := h i t hi0 hin h1 h2 h3
        refine ⟨b1, b2, b3, ?_⟩
        intro p
        rw [b4 p, h4 p, sumTo_succ _ _ hi0, add_assoc])
    exact this (le_refl _)

/-- What `set_pixel_value` does to an image of width `W` and height `H`. -/
theorem set_pixel_value_data (im : image α) (W H row col channel pad : Int) (val : α)
    (hw : im.w = W) (hh : im.h = H) :
    (set_pixel_value im row col channel pad val).w = W ∧
      (set_pixel_value im row col channel pad val).h = H ∧
      (set_pixel_value im row col channel pad val).c = im.c ∧
      ∀ p, (set_pixel_value im row col channel pad val).data p =
        im.data p +
          if (row - pad ≥ 0 ∧ col - pad ≥ 0 ∧ row - pad < H ∧ col - pad < W) ∧
              col - pad + W * (row - pad + H * channel) = p then val else 0 := by
  subst hw
  subst hh
  unfold set_pixel_value
  dsimp only
  by_cases hin : row - pad ≥ 0 ∧ col - pad ≥ 0 ∧ row - pad < im.h ∧ col - pad < im.w
  · rw [if_pos hin]
    refine ⟨rfl, rfl, rfl, ?_⟩
    intro p
    by_cases e : col - pad + im.w * (row - pad + im.h * channel) = p
    · subst e
      rw [if_pos ⟨hin, rfl⟩]
      exact store_same _ _ _
    · have e' : p ≠ col - pad + im.w * (row - pad + im.h * channel) := fun h => e h.symm
      have hn : ¬ ((row - pad ≥ 0 ∧ col - pad ≥ 0 ∧ row - pad < im.h ∧ col - pad < im.w) ∧
          col - pad + im.w * (row - pad + im.h * channel) = p) := fun h => e h.2
      rw [if_neg hn, add_zero]
      exact store_other _ _ _ _ e'
  · rw [if_neg hin]
    refine ⟨rfl, rfl, rfl, ?_⟩
    intro p
    have hn : ¬ ((row - pad ≥ 0 ∧ col - pad ≥ 0 ∧ row - pad < im.h ∧ col - pad < im.w) ∧
        col - pad + im.w * (row - pad + im.h * channel) = p) := fun h => hin h.1
    rw [if_neg hn, add_zero]

/-- What `col2im` computes: every pixel is the sum of the patch-matrix
entries that `col2im`'s three loops send to it. -/
theorem col2im_data (width height channels : Int) (col : matrix α) (size stride pad outh outw : Int)
    (hpad : pad = if size.tmod 2 = 0 then 0 else size.tdiv 2)
    (hoh : outh = (height + 2 * pad - size).tdiv stride + 1)
    (how : outw = (width + 2 * pad - size).tdiv stride + 1) (p : Int) :
    (col2im width height channels col size stride).data p =
      sumTo (channels * size * size) (fun k => sumTo outh (fun i => sumTo outw (fun j =>
        if ((k.tdiv size).tmod size + i * stride - pad ≥ 0 ∧
              k.tmod size + j * stride - pad ≥ 0 ∧
              (k.tdiv size).tmod size + i * stride - pad < height ∧
              k.tmod size + j * stride - pad < width) ∧
            k.tmod size + j * stride - pad +
              width * ((k.tdiv size).tmod size + i * stride - pad +
                height * (k.tdiv size).tdiv size) = p
        then col.data ((k * outh + i) * outw + j) else 0))) := by
  unfold col2im
  dsimp only
  rw [← hpad, ← hoh, ← how]
  refine ((forRange_image_add width height channels (channels * size * size) _
    (fun k p => sumTo outh (fun i => sumTo outw (fun j =>
        if ((k.tdiv size).tmod size + i * stride - pad ≥ 0 ∧
              k.tmod size + j * stride - pad ≥ 0 ∧
              (k.tdiv size).tmod size + i * stride - pad < height ∧
              k.tmod size + j * stride - pad < width) ∧
            k.tmod size + j * stride - pad +
              width * ((k.tdiv size).tmod size + i * stride - pad +
                height * (k.tdiv size).tdiv size) = p
        then col.data ((k * outh + i) * outw + j) else 0)))
    ?_ (make_image width height channels) rfl rfl rfl).2.2.2 p).trans ?_
  swap
  · simp [make_image]
  · intro k im _ _ hw hh hc
    refine forRange_image_add width height channels outh _ _ ?_ im hw hh hc
    intro i im _ _ hw hh hc
    refine forRange_image_add width height channels outw _ _ ?_ im hw hh hc
    intro j im _ _ hw hh hc
    have := set_pixel_value_data im width height ((k.tdiv size).tmod size + i * stride)
      (k.tmod size + j * stride) ((k.tdiv size).tdiv size) pad
      (col.data ((k * outh + i) * outw + j)) hw hh
    exact ⟨this.1, this.2.1, this.2.2.1.trans hc, this.2.2.2⟩

end Col2imLemmas

section C18

variable {α : Type} [CommRing α]

theorem sumTo_mul_left_ring (n : Int) (f : Int → α) (c : α) :
    sumTo n (fun i => c * f i) = c * sumTo n f := by
  simp [sumTo, Finset.mul_sum]

theorem sumTo_mul_right_ring (n : Int) (f : Int → α) (c : α) :
    sumTo n (fun i => f i * c) = sumTo n f * c := by
  simp [sumTo, Finset.sum_mul]

/-- A weighted sum over the pixels of a term that is present at one pixel
only. -/
theorem sumTo_pick (N hit : Int) (P : Prop) [Decidable P] (a : Int → α) (c : α)
    (hr : P → 0 ≤ hit ∧ hit < N) :
    sumTo N (fun q => a q * (if P ∧ hit = q then c else 0)) = (if P then a hit else 0) * c := by
  by_cases hP : P
  · rw [if_pos hP]
    have e : ∀ q, 0 ≤ q → q < N →
        a q * (if P ∧ hit = q then c else 0) = if q = hit then a q * c else 0 := by
      intro q _ _
      by_cases hq : q = hit
      · subst hq
        simp [hP]
      · have : ¬ hit = q := fun h => hq h.symm
        simp [hq, this]
    rw [sumTo_congr N _ _ e]
    exact sumTo_single N hit (fun q => a q * c) (hr hP).1 (hr hP).2
  · rw [if_neg hP, zero_mul]
    apply sumTo_eq_zero
    intro q _ _
    simp [hP]

/-- The channel of patch row `k` is a channel of the image. -/
theorem patch_channel_range (c size k : Int) (hsize : 1 ≤ size) (hk0 : 0 ≤ k)
    (hk : k < c * size * size) :
    0 ≤ (k.tdiv size).tdiv size ∧ (k.tdiv size).tdiv size < c := by
  have h1 : k.tdiv size = k / size := Int.tdiv_eq_ediv hk0 (by omega)
  have h2 : 0 ≤ k / size := Int.ediv_nonneg hk0 (by omega)
  rw [h1, Int.tdiv_eq_ediv h2 (by omega)]
  constructor
  · exact Int.ediv_nonneg h2 (by omega)
  · apply Int.ediv_lt_of_lt_mul (by omega)
    apply Int.ediv_lt_of_lt_mul (by omega)
    exact hk

/-- A pixel position inside the image has its flat index inside the buffer. -/
theorem pixel_index_range (w h c row col ch : Int) (hr0 : 0 ≤ row) (hr : row < h)
    (hc0 : 0 ≤ col) (hcw : col < w) (hch0 : 0 ≤ ch) (hch : ch < c) :
    0 ≤ col + w * (row + h * ch) ∧ col + w * (row + h * ch) < w * h * c := by
  have e : col + w * (row + h * ch) = (ch * h + row) * w + col := by ring
  have e2 : w * h * c = c * h * w := by ring
  rw [e, e2]
  have h1 : 0 ≤ ch * h + row := mul_add_nonneg _ _ _ hch0 hr0 (by omega)
  have h2 : ch * h + row < c * h := mul_add_lt _ _ _ _ hch hr (by omega)
  exact ⟨mul_add_nonneg _ _ _ h1 hc0 (by omega), mul_add_lt _ _ _ _ h2 hcw (by omega)⟩

/-- C18: adjointness for odd kernels. For an odd kernel size, `stride ≥ 1`
and `w, h, c ≥ 1`, `col2im` walks the same output grid as `im2col`
(`(dim + 2*pad - size)/stride + 1 = (dim - 1)/stride + 1` for the height and
the width), and for every image `I` and patch matrix `C` of `im2col`'s shape
the sum of `im2col(I) * C` over all entries equals the sum of
`I * col2im(C)` over all pixels. -/
theorem im2col_col2im_adjoint_odd_kernel (im : image α) (C : matrix α) (size stride : Int)
    (hw : 1 ≤ im.w) (hh : 1 ≤ im.h) (hc : 1 ≤ im.c) (hsize : 1 ≤ size) (hodd : size % 2 = 1)
    (hstride : 1 ≤ stride)
    (_hCr : C.rows = (im2col im size stride).rows)
    (_hCc : C.cols = (im2col im size stride).cols) :
    (im.h + 2 * (size.tdiv 2) - size).tdiv stride + 1 = (im.h - 1).tdiv stride + 1 ∧
    (im.w + 2 * (size.tdiv 2) - size).tdiv stride + 1 = (im.w - 1).tdiv stride + 1 ∧
    sumTo ((im2col im size stride).rows * (im2col im size stride).cols)
        (fun t => (im2col im size stride).data t * C.data t) =
      sumTo (im.w * im.h * im.c)
        (fun q => im.data q * (col2im im.w im.h im.c C size stride).data q) := by
  have hmod : size.tmod 2 = 1 := by
    rw [Int.tmod_eq_emod (by omega) (by omega)]; exact hodd
  have hdiv : size.tdiv 2 = size / 2 := Int.tdiv_eq_ediv (by omega) (by omega)
  have hpad2 : 2 * (size.tdiv 2) = size - 1 := by rw [hdiv]; omega
  have hgh : im.h + 2 * (size.tdiv 2) - size = im.h - 1 := by rw [hpad2]; ring
  have hgw : im.w + 2 * (size.tdiv 2) - size = im.w - 1 := by rw [hpad2]; ring
  have hpad : size.tdiv 2 = if size.tmod 2 = 0 then 0 else size.tdiv 2 := by
    rw [hmod]; simp
  refine ⟨by rw [hgh], by rw [hgw], ?_⟩
  have hoh : 0 < (im.h - 1).tdiv stride + 1 := out_dim_pos _ _ hh hstride
  have how : 0 < (im.w - 1).tdiv stride + 1 := out_dim_pos _ _ hw hstride
  have hK : 0 ≤ im.c * size * size := mul_nonneg (mul_nonneg (by omega) (by omega)) (by omega)
  -- the left-hand side, patch entry by patch entry
  have hL : sumTo ((im2col im size stride).rows * (im2col im size stride).cols)
        (fun t => (im2col im size stride).data t * C.data t) =
      sumTo (im.c * size * size) (fun k => sumTo ((im.h - 1).tdiv stride + 1) (fun i =>
        sumTo ((im.w - 1).tdiv stride + 1) (fun j =>
          get_pixel_value im ((k.tdiv size).tmod size + i * stride) (k.tmod size + j * stride)
              ((k.tdiv size).tdiv size) (size.tdiv 2) *
            C.data ((k * ((im.h - 1).tdiv stride + 1) + i) * ((im.w - 1).tdiv stride + 1)
              + j)))) := by
    have e : (im2col im size stride).rows * (im2col im size stride).cols =
        im.c * size * size * ((im.h - 1).tdiv stride + 1) * ((im.w - 1).tdiv stride + 1) := by
      rw [im2col_rows, im2col_cols]; ring
    rw [e, sumTo_mul _ _ _ (mul_nonneg hK (le_of_lt hoh)) (le_of_lt how),
      sumTo_mul _ _ _ hK (le_of_lt hoh)]
    apply sumTo_congr
    intro k hk0 hk
    apply sumTo_congr
    intro i hi0 hi
    apply sumTo_congr
    intro j hj0 hj
    beta_reduce
    rw [im2col_entry im size stride k i j hk0 hk hi0 hi hj0 hj, ← hpad]
  -- the right-hand side, patch entry by patch entry
  have hR : sumTo (im.w * im.h * im.c)
        (fun q => im.data q * (col2im im.w im.h im.c C size stride).data q) =
      sumTo (im.c * size * size) (fun k => sumTo ((im.h - 1).tdiv stride + 1) (fun i =>
        sumTo ((im.w - 1).tdiv stride + 1) (fun j =>
          get_pixel_value im ((k.tdiv size).tmod size + i * stride) (k.tmod size + j * stride)
              ((k.tdiv size).tdiv size) (size.tdiv 2) *
            C.data ((k * ((im.h - 1).tdiv stride + 1) + i) * ((im.w - 1).tdiv stride + 1)
              + j)))) := by
    have hdata := col2im_data im.w im.h im.c C size stride (size.tdiv 2)
      ((im.h - 1).tdiv stride + 1) ((im.w - 1).tdiv stride + 1) hpad (by rw [hgh]) (by rw [hgw])
    simp only [hdata, ← sumTo_mul_left_ring]
    rw [sumTo_comm]
    apply sumTo_congr
    intro k hk0 hk
    rw [sumTo_comm]
    apply sumTo_congr
    intro i hi0 hi
    rw [sumTo_comm]
    apply sumTo_congr
    intro j hj0 hj
    obtain ⟨hch0, hch⟩ := patch_channel_range im.c size k hsize hk0 hk
    rw [sumTo_pick (im.w * im.h * im.c) _ _ im.data _
      (fun hP => pixel_index_range im.w im.h im.c _ _ _ hP.1 hP.2.2.1 hP.2.1 hP.2.2.2 hch0 hch)]
    congr 1
    unfold get_pixel_value
    dsimp only
    by_cases hin : (k.tdiv size).tmod size + i * stride - size.tdiv 2 ≥ 0 ∧
        k.tmod size + j * stride - size.tdiv 2 ≥ 0 ∧
        (k.tdiv size).tmod size + i * stride - size.tdiv 2 < im.h ∧
        k.tmod size + j * stride - size.tdiv 2 < im.w
    · have hn : ¬ ((k.tdiv size).tmod size + i * stride - size.tdiv 2 < 0 ∨
          k.tmod size + j * stride - size.tdiv 2 < 0 ∨
          (k.tdiv size).tmod size + i * stride - size.tdiv 2 ≥ im.h ∨
          k.tmod size + j * stride - size.tdiv 2 ≥ im.w) := by omega
      rw [if_pos hin, if_neg hn]
    · have hn : ((k.tdiv size).tmod size + i * stride - size.tdiv 2 < 0 ∨
          k.tmod size + j * stride - size.tdiv 2 < 0 ∨
          (k.tdiv size).tmod size + i * stride - size.tdiv 2 ≥ im.h ∨
          k.tmod size + j * stride - size.tdiv 2 ≥ im.w) := by omega
      rw [if_neg hin, if_pos hn]
  rw [hL, hR]

end C18

section MoreLoopRules

theorem forRange_zero {σ : Type} (body : Int → σ → σ) (s : σ) : forRange 0 body s = s :=
  forRange_nonpos 0 body s (le_refl 0)

theorem forRange_succ {σ : Type} (n : Int) (body : Int → σ → σ) (s : σ) (hn : 0 ≤ n) :
    forRange (n + 1) body s = body n (forRange n body s) := by
  have e : (n + 1).toNat = n.toNat + 1 := by omega
  have e2 : ((n.toNat : Nat) : Int) = n := Int.toNat_of_nonneg hn
  unfold forRange
  rw [e]
  show body (n.toNat : Int) (loopN body n.toNat s) = _
  rw [e2]

/-- Two loops whose bodies agree on the counter values of the loop agree. -/
theorem forRange_congr {σ : Type} (n : Int) (body body' : Int → σ → σ) (s : σ)
    (h : ∀ i t, 0 ≤ i → i < n → body i t = body' i t) :
    forRange n body s = forRange n body' s := by
  rcases le_or_lt n 0 with hn | hn
  · rw [forRange_nonpos _ _ _ hn, forRange_nonpos _ _ _ hn]
  · have := forRange_invariant n body
      (fun i t => i ≤ n → t = forRange i body' s) s (le_of_lt hn)
      (by intro _; rw [forRange_zero])
      (by
        intro i t hi0 hin hI _
        rw [forRange_succ i body' s hi0, ← hI (le_of_lt hin), h i t hi0 hin])
    exact this (le_refl _)

/-- A loop of `a + b` iterations is a loop of `a` iterations followed by a
loop of `b` iterations with the counter shifted by `a`. -/
theorem forRange_add_count {σ : Type} (a b : Int) (body : Int → σ → σ) (s : σ) (ha : 0 ≤ a)
    (hb : 0 ≤ b) :
    forRange (a + b) body s = forRange b (fun t => body (a + t)) (forRange a body s) := by
  obtain ⟨k, rfl⟩ := Int.eq_ofNat_of_zero_le hb
  induction k with
  | zero => simp [forRange_zero]
  | succ k ih =>
    have e : a + ((k + 1 : Nat) : Int) = (a + (k : Int)) + 1 := by push_cast; ring
    have e2 : ((k + 1 : Nat) : Int) = (k : Int) + 1 := by push_cast; ring
    rw [e, forRange_succ _ _ _ (by omega), ih (by omega), e2, forRange_succ _ _ _ (by omega)]

/-- Two nested loops are one loop over the pairs in row-major order. -/
theorem forRange_flatten {σ : Type} (m n : Int) (g : Int → Int → σ → σ) (s : σ) (hm : 0 ≤ m)
    (hn : 0 < n) :
    forRange m (fun a t => forRange n (fun b t => g a b t) t) s =
      forRange (m * n) (fun k t => g (k / n) (k % n) t) s := by
  obtain ⟨k, rfl⟩ := Int.eq_ofNat_of_zero_le hm
  induction k with
  | zero => simp [forRange_zero]
  | succ k ih =>
    have e : ((k + 1 : Nat) : Int) * n = (k : Int) * n + n := by push_cast; ring
    have e2 : ((k + 1 : Nat) : Int) = (k : Int) + 1 := by push_cast; ring
    rw [e, forRange_add_count _ _ _ _ (mul_nonneg (by omega) (le_of_lt hn)) (le_of_lt hn),
      ← ih (by omega), e2, forRange_succ _ _ _ (by omega)]
    apply forRange_congr
    intro b t hb0 hb
    have h1 : ((k : Int) * n + b) / n = (k : Int) := by
      rw [add_comm, Int.add_mul_ediv_right _ _ (Int.ne_of_gt hn), Int.ediv_eq_zero_of_lt hb0 hb,
        zero_add]
    have h2 : ((k : Int) * n + b) % n = b := by
      rw [add_comm, Int.add_mul_emod_self, Int.emod_eq_of_lt hb0 hb]
    rw [h1, h2]

theorem forStepN_exit {σ : Type} (bound step : Int) (body : Int → σ → σ) (fuel : Nat)
    (x : Int) (s : σ) (hx : bound ≤ x) : forStepN bound step body fuel x s = s := by
  cases fuel with
  | zero => rfl
  | succ f =>
    have : ¬ x < bound := by omega
    simp [forStepN, this]

/-- With enough fuel, the stepped loop entered at `x = (c - m) * step` runs
the `m` iterations that remain before the counter reaches `bound`. -/
theorem forStepN_eq_forRange {σ : Type} (bound step c : Int) (body : Int → σ → σ)
    (hstep : 1 ≤ step) (hc1 : (c - 1) * step < bound) (hc2 : bound ≤ c * step) :
    ∀ (m : Nat) (fuel : Nat) (s : σ), (m : Int) ≤ c → m ≤ fuel →
      forStepN bound step body fuel ((c - m) * step) s =
        forRange m (fun t => body ((c - m + t) * step)) s := by
  intro m
  induction m with
  | zero =>
    intro fuel s _ _
    rw [forStepN_exit _ _ _ _ _ _ (by simpa using hc2)]
    simp [forRange_zero]
  | succ m ih =>
    intro fuel s hm hf
    obtain ⟨f, rfl⟩ : ∃ f, fuel = f + 1 := ⟨fuel - 1, by omega⟩
    have hlt : (c - ((m + 1 : Nat) : Int)) * step < bound := by
      have : (c - ((m + 1 : Nat) : Int)) * step ≤ (c - 1) * step :=
        mul_le_mul_of_nonneg_right (by push_cast; omega) (by omega)
      omega
    have e1 : (c - ((m + 1 : Nat) : Int)) * step + step = (c - (m : Int)) * step := by
      push_cast; ring
    have e2 : ((m + 1 : Nat) : Int) = 1 + (m : Int) := by push_cast; ring
    show (if (c - ((m + 1 : Nat) : Int)) * step < bound then
      forStepN bound step body f ((c - ((m + 1 : Nat) : Int)) * step + step)
        (body ((c - ((m + 1 : Nat) : Int)) * step) s) else s) = _
    rw [if_pos hlt, e1, ih f _ (by push_cast at hm; omega) (by omega), e2,
      forRange_add_count 1 m _ _ (by omega) (by omega)]
    have e3 : forRange 1 (fun t => body ((c - (1 + (m : Int)) + t) * step)) s =
        body ((c - (1 + (m : Int))) * step) s := by
      have := forRange_succ 0 (fun t => body ((c - (1 + (m : Int)) + t) * step)) s (le_refl 0)
      rw [forRange_zero] at this
      simpa using this
    rw [e3]
    apply forRange_congr
    intro t u _ _
    congr 2
    ring

/-- For `step ≥ 1` and `bound ≥ 1` the loop `for (x = 0; x < bound; x += step)`
runs its body at `x = 0, step, 2*step, ...`, `(bound - 1)/step + 1` times. -/
theorem forStep_eq_forRange {σ : Type} (bound step : Int) (body : Int → σ → σ) (s : σ)
    (hstep : 1 ≤ step) (hbound : 1 ≤ bound) :
    forStep bound step body s =
      forRange ((bound - 1).tdiv step + 1) (fun t => body (t * step)) s := by
  have ediv : (bound - 1).tdiv step = (bound - 1) / step :=
    Int.tdiv_eq_ediv (by omega) (by omega)
  have h1 : (bound - 1) / step * step ≤ bound - 1 := Int.ediv_mul_le _ (by omega)
  have h2 : bound - 1 < ((bound - 1) / step + 1) * step :=
    Int.lt_ediv_add_one_mul_self _ (by omega)
  have h3 : 0 ≤ (bound - 1) / step := Int.ediv_nonneg (by omega) (by omega)
  have h4 : (bound - 1) / step + 1 ≤ bound := by
    have : (bound - 1) / step * 1 ≤ (bound - 1) / step * step :=
      mul_le_mul_of_nonneg_left hstep h3
    omega
  rw [ediv]
  have key := forStepN_eq_forRange bound step ((bound - 1) / step + 1) body hstep
    (by simpa using h1.trans_lt (by omega)) (by omega) ((bound - 1) / step + 1).toNat
    bound.toNat s (by omega) (by omega)
  have e : ((((bound - 1) / step + 1).toNat : Nat) : Int) = (bound - 1) / step + 1 :=
    Int.toNat_of_nonneg (by omega)
  rw [e] at key
  simp only [sub_self, zero_mul, zero_add] at key
  exact key

end MoreLoopRules

section ScanLemmas

variable {α : Type} [LinearOrder α]

/-- A running maximum started at `s0`: the result bounds `s0` and every value
scanned, and is `s0` or one of the values. -/
theorem running_max_spec (N : Int) (f : Int → α) (s0 : α) :
    s0 ≤ forRange N (fun t mp => if f t > mp then f t else mp) s0 ∧
      (∀ t, 0 ≤ t → t < N → f t ≤ forRange N (fun t mp => if f t > mp then f t else mp) s0) ∧
      (forRange N (fun t mp => if f t > mp then f t else mp) s0 = s0 ∨
        ∃ t, 0 ≤ t ∧ t < N ∧ forRange N (fun t mp => if f t > mp then f t else mp) s0 = f t) := by
  rcases le_or_lt N 0 with hn | hn
  · rw [forRange_nonpos _ _ _ hn]
    exact ⟨le_refl _, fun t h0 h1 => absurd h1 (by omega), Or.inl rfl⟩
  · have := forRange_invariant N (fun t mp => if f t > mp then f t else mp)
      (fun k M => k ≤ N → s0 ≤ M ∧ (∀ t, 0 ≤ t → t < k → f t ≤ M) ∧
        (M = s0 ∨ ∃ t, 0 ≤ t ∧ t < k ∧ M = f t)) s0 (le_of_lt hn)
      (by intro _; exact ⟨le_refl _, fun t h0 h1 => absurd h1 (by omega), Or.inl rfl⟩)
      (by
        intro k M hk0 hkn hI _
        obtain ⟨h1, h2, h3⟩ := hI (le_of_lt hkn)
        beta_reduce
        by_cases hgt : f k > M
        · rw [if_pos hgt]
          refine ⟨le_of_lt (lt_of_le_of_lt h1 hgt), ?_, Or.inr ⟨k, hk0, by omega, rfl⟩⟩
          intro t ht0 ht
          rcases lt_or_eq_of_le (show t ≤ k by omega) with h | h
          · exact le_of_lt (lt_of_le_of_lt (h2 t ht0 h) hgt)
          · rw [h]
        · rw [if_neg hgt]
          refine ⟨h1, ?_, ?_⟩
          · intro t ht0 ht
            rcases lt_or_eq_of_le (show t ≤ k by omega) with h | h
            · exact h2 t ht0 h
            · rw [h]; exact le_of_not_lt hgt
          · rcases h3 with h3 | ⟨t, ht0, ht, h3⟩
            · exact Or.inl h3
            · exact Or.inr ⟨t, ht0, by omega, h3⟩)
    exact this (le_refl _)

/-- A running arg-max started at (`s0`, `i0`): its value is the running
maximum, and its index is `i0` when no value exceeds `s0`, else the index of
the first scanned position that holds the maximum. -/
theorem running_argmax_spec (N : Int) (f : Int → α) (idx : Int → Int) (s0 : α) (i0 : Int) :
    (forRange N (fun t st => if f t > st.maxPixel then maxpool_scan_state.mk (f t) (idx t)
        else st) (maxpool_scan_state.mk s0 i0)).maxPixel =
        forRange N (fun t mp => if f t > mp then f t else mp) s0 ∧
      (((forRange N (fun t st => if f t > st.maxPixel then maxpool_scan_state.mk (f t) (idx t)
          else st) (maxpool_scan_state.mk s0 i0)).maxInx = i0 ∧
          ∀ t, 0 ≤ t → t < N → f t ≤ s0) ∨
        ∃ t, 0 ≤ t ∧ t < N ∧
          f t = (forRange N (fun t st => if f t > st.maxPixel then
            maxpool_scan_state.mk (f t) (idx t) else st) (maxpool_scan_state.mk s0 i0)).maxPixel ∧
          idx t = (forRange N (fun t st => if f t > st.maxPixel then
            maxpool_scan_state.mk (f t) (idx t) else st) (maxpool_scan_state.mk s0 i0)).maxInx ∧
          s0 < f t ∧ ∀ u, 0 ≤ u → u < t → f u < f t) := by
  rcases le_or_lt N 0 with hn | hn
  · rw [forRange_nonpos _ _ _ hn, forRange_nonpos _ _ _ hn]
    exact ⟨rfl, Or.inl ⟨rfl, fun t h0 h1 => absurd h1 (by omega)⟩⟩
  · have := forRange_invariant N (fun t st => if f t > st.maxPixel then
        maxpool_scan_state.mk (f t) (idx t) else st)
      (fun k st => k ≤ N →
        st.maxPixel = forRange k (fun t mp => if f t > mp then f t else mp) s0 ∧
        s0 ≤ st.maxPixel ∧ (∀ t, 0 ≤ t → t < k → f t ≤ st.maxPixel) ∧
        ((st.maxInx = i0 ∧ ∀ t, 0 ≤ t → t < k → f t ≤ s0) ∨
          ∃ t, 0 ≤ t ∧ t < k ∧ f t = st.maxPixel ∧ idx t = st.maxInx ∧ s0 < f t ∧
            ∀ u, 0 ≤ u → u < t → f u < f t))
      (maxpool_scan_state.mk s0 i0) (le_of_lt hn)
      (by
        intro _
        refine ⟨by rw [forRange_zero], le_refl _, fun t h0 h1 => absurd h1 (by omega),
          Or.inl ⟨rfl, fun t h0 h1 => absurd h1 (by omega)⟩⟩)
      (by
        intro k st hk0 hkn hI _
        obtain ⟨h1, h2, h3, h4⟩ := hI (le_of_lt hkn)
        rw [forRange_succ k _ s0 hk0, ← h1]
        beta_reduce
        by_cases hgt : f k > st.maxPixel
        · rw [if_pos hgt, if_pos hgt]
          refine ⟨rfl, le_of_lt (lt_of_le_of_lt h2 hgt), ?_, Or.inr ⟨k, hk0, by omega, rfl, rfl,
            lt_of_le_of_lt h2 hgt, fun u hu0 hu => lt_of_le_of_lt (h3 u hu0 hu) hgt⟩⟩
          intro t ht0 ht
          rcases lt_or_eq_of_le (show t ≤ k by omega) with h | h
          · exact le_of_lt (lt_of_le_of_lt (h3 t ht0 h) hgt)
          · rw [h]
        · rw [if_neg hgt, if_neg hgt]
          have hle : f k ≤ st.maxPixel := le_of_not_lt hgt
          refine ⟨rfl, h2, ?_, ?_⟩
          · intro t ht0 ht
            rcases lt_or_eq_of_le (show t ≤ k by omega) with h | h
            · exact h3 t ht0 h
            · rw [h]; exact hle
          · rcases h4 with ⟨h4, h5⟩ | ⟨t, ht0, ht, h5, h6, h7, h8⟩
            · rcases lt_or_eq_of_le h2 with hlt | heq
              · -- the maximum exceeds `s0` although no value scanned does: impossible
                exfalso
                have hmax := running_max_spec k f s0
                rw [← h1] at hmax
                rcases hmax.2.2 with hm | ⟨t, ht0, ht, hm⟩
                · rw [hm] at hlt; exact lt_irrefl _ hlt
                · have := h5 t ht0 ht
                  rw [← hm] at this
                  exact lt_irrefl _ (lt_of_lt_of_le hlt this)
              · refine Or.inl ⟨h4, ?_⟩
                intro t ht0 ht
                rcases lt_or_eq_of_le (show t ≤ k by omega) with h | h
                · exact h5 t ht0 h
                · rw [h, heq]; exact hle
            · exact Or.inr ⟨t, ht0, by omega, h5, h6, h7, h8⟩)
    obtain ⟨h1, _, _, h4⟩ := this (le_refl _)
    exact ⟨h1, h4⟩

end ScanLemmas

section WriterLoops

variable {α : Type}

theorem store_congr (d : Int → α) (p q : Int) (v : α) (h : p = q) :
    store d p v = store d q v := by
  rw [h]

/-- A loop that writes `v j` at offset `B + index` and advances `index`. -/
theorem writer_loop (n B : Int) (v : Int → α) (st0 : maxpool_forward_state α) (hn : 0 ≤ n) :
    forRange n (fun j st => maxpool_forward_state.mk (store st.out (B + st.index) (v j))
        (st.index + 1)) st0 =
      maxpool_forward_state.mk
        (forRange n (fun j d => store d (B + (st0.index + j)) (v j)) st0.out) (st0.index + n) := by
  obtain ⟨k, rfl⟩ := Int.eq_ofNat_of_zero_le hn
  induction k with
  | zero =>
    cases st0
    simp [forRange_zero]
  | succ k ih =>
    have e2 : ((k + 1 : Nat) : Int) = (k : Int) + 1 := by push_cast; ring
    rw [e2, forRange_succ _ _ _ (by omega), forRange_succ _ _ _ (by omega), ih (by omega)]
    simp only [maxpool_forward_state.mk.injEq, true_and]
    ring

/-- Two nested writer loops. -/
theorem writer_loop2 (m n B : Int) (v : Int → Int → α) (st0 : maxpool_forward_state α)
    (hm : 0 ≤ m) (hn : 0 ≤ n) :
    forRange m (fun i st => forRange n (fun j st =>
        maxpool_forward_state.mk (store st.out (B + st.index) (v i j)) (st.index + 1)) st) st0 =
      maxpool_forward_state.mk
        (forRange m (fun i d => forRange n (fun j d =>
          store d (B + (st0.index + (i * n + j))) (v i j)) d) st0.out)
        (st0.index + m * n) := by
  obtain ⟨k, rfl⟩ := Int.eq_ofNat_of_zero_le hm
  induction k with
  | zero =>
    cases st0
    simp [forRange_zero]
  | succ k ih =>
    have e2 : ((k + 1 : Nat) : Int) = (k : Int) + 1 := by push_cast; ring
    rw [e2, forRange_succ _ _ _ (by omega), forRange_succ _ _ _ (by omega), ih (by omega),
      writer_loop n B _ _ hn]
    simp only [maxpool_forward_state.mk.injEq]
    constructor
    · apply forRange_congr
      intro j d _ _
      apply store_congr
      ring
    · ring

/-- Three nested writer loops. -/
theorem writer_loop3 (l m n B : Int) (v : Int → Int → Int → α)
    (st0 : maxpool_forward_state α) (hl : 0 ≤ l) (hm : 0 ≤ m) (hn : 0 ≤ n) :
    forRange l (fun c st => forRange m (fun i st => forRange n (fun j st =>
        maxpool_forward_state.mk (store st.out (B + st.index) (v c i j)) (st.index + 1)) st) st)
        st0 =
      maxpool_forward_state.mk
        (forRange l (fun c d => forRange m (fun i d => forRange n (fun j d =>
          store d (B + (st0.index + ((c * m + i) * n + j))) (v c i j)) d) d) st0.out)
        (st0.index + l * m * n) := by
  obtain ⟨k, rfl⟩ := Int.eq_ofNat_of_zero_le hl
  induction k with
  | zero =>
    cases st0
    simp [forRange_zero]
  | succ k ih =>
    have e2 : ((k + 1 : Nat) : Int) = (k : Int) + 1 := by push_cast; ring
    rw [e2, forRange_succ _ _ _ (by omega), forRange_succ _ _ _ (by omega), ih (by omega),
      writer_loop2 m n B _ _ hm hn]
    simp only [maxpool_forward_state.mk.injEq]
    constructor
    · apply forRange_congr
      intro i d _ _
      apply forRange_congr
      intro j d' _ _
      apply store_congr
      ring
    · ring

end WriterLoops

section Witnesses2

/-- C18 at the `2 × 2` image `(1, 2, 3, 4)` with a `3 × 3` kernel of stride `1`
and the patch matrix `patch9x4`. -/
theorem im2col_col2im_adjoint_odd_kernel_witness :
    (3 : Int) % 2 = 1 ∧ patch9x4.rows = (im2col image2x2 3 1).rows ∧
      sumTo ((im2col image2x2 3 1).rows * (im2col image2x2 3 1).cols)
          (fun t => (im2col image2x2 3 1).data t * patch9x4.data t) =
        sumTo (image2x2.w * image2x2.h * image2x2.c)
          (fun q => image2x2.data q *
            (col2im image2x2.w image2x2.h image2x2.c patch9x4 3 1).data q) :=
  ⟨by decide, by decide,
    (im2col_col2im_adjoint_odd_kernel image2x2 patch9x4 3 1 (by decide) (by decide) (by decide)
      (by decide) (by decide) (by decide) (by decide) (by decide)).2.2⟩

/-- C20 over the reals, with `sqrtf` the real square root and `powf` the real
power: group `0` of `dx` sums to `0`. -/
theorem backward_batchnorm_layer_group_sum_zero_witness :
    (1 : Int) ≤ (bnLayer ℝ).x.rows ∧ (bnBatch ℝ).cols = (bnLayer ℝ).x.cols ∧
      ∃ l1 dx, backward_batchnorm_layer Real.sqrt (fun a b => a ^ b) (bnLayer ℝ) (bnBatch ℝ) =
          some (l1, dx) ∧
        sumTo (bnLayer ℝ).x.rows (fun i => sumTo 2 (fun q =>
          dx.data (i * (bnLayer ℝ).x.cols + (0 * 2 + q)))) = 0 :=
  have h := backward_batchnorm_layer_group_sum_zero Real.sqrt (fun a b => a ^ b) (bnLayer ℝ)
    (bnBatch ℝ) 2 (by decide) (by decide) (by decide) (by decide) (by decide) (by decide)
  ⟨by decide, by decide, h.elim fun l1 h1 => h1.elim fun dx hd =>
    ⟨l1, dx, hd.1, hd.2 0 (by decide) (by decide)⟩⟩

end Witnesses2

section PoolLemmas

variable {α : Type} [LinearOrderedCommRing α]

/-- The padding the code computes is the padding of the specification. -/
theorem pool_pad_eq (size : Int) (hsize : 1 ≤ size) :
    (if size.tmod 2 = 0 then 0 else size.tdiv 2) = window_pad size := by
  have e5 : size.tmod 2 = size % 2 := Int.tmod_eq_emod (by omega) (by omega)
  have e6 : size.tdiv 2 = size / 2 := Int.tdiv_eq_ediv (by omega) (by omega)
  unfold window_pad
  rw [e5, e6]
  by_cases h : size % 2 = 0
  · have : ¬ size % 2 = 1 := by omega
    simp [h]
  · have : size % 2 = 1 := by omega
    simp [this]

theorem window_pad_range (size : Int) (hsize : 1 ≤ size) :
    0 ≤ window_pad size ∧ window_pad size < size := by
  unfold window_pad
  by_cases h : size % 2 = 1
  · rw [if_pos h]; omega
  · rw [if_neg h]; omega

/-- The kernel scan of forward at the anchor of output position (`i`, `j`)
is the row-major running maximum `pool_max` over the sample's buffer. -/
theorem forward_maxpool_scan_eq_pool_max (l : layer α) (inp : matrix α) (r channel i j : Int)
    (hsize : 1 ≤ l.size) :
    forward_maxpool_scan l inp r channel (i * l.stride) (j * l.stride) =
      pool_max l (fun t => inp.data (t + r * inp.cols)) channel i j := by
  unfold forward_maxpool_scan forFromTo pool_max pool_pixel
  dsimp only
  have e : l.size - 1 - (if l.size.tmod 2 = 0 then 0 else l.size.tdiv 2) -
      -(if l.size.tmod 2 = 0 then 0 else l.size.tdiv 2) + 1 = l.size := by ring
  rw [e, forRange_flatten l.size l.size _ _ (by omega) (by omega)]
  apply forRange_congr
  intro k mp _ _
  have e1 : i * l.stride + (-(if l.size.tmod 2 = 0 then 0 else l.size.tdiv 2) + k / l.size) =
      i * l.stride + k / l.size - (if l.size.tmod 2 = 0 then 0 else l.size.tdiv 2) := by ring
  have e2 : j * l.stride + (-(if l.size.tmod 2 = 0 then 0 else l.size.tdiv 2) + k % l.size) =
      j * l.stride + k % l.size - (if l.size.tmod 2 = 0 then 0 else l.size.tdiv 2) := by ring
  rw [e1, e2]

/-- The kernel scan of backward is a row-major running arg-max. -/
theorem maxpool_scan_eq (l : layer α) (channel i j : Int) (hsize : 1 ≤ l.size) :
    maxpool_scan l channel i j =
      forRange (l.size * l.size) (fun k st =>
        if pool_pixel l l.x.data channel
            (i * l.stride + k / l.size - (if l.size.tmod 2 = 0 then 0 else l.size.tdiv 2))
            (j * l.stride + k % l.size - (if l.size.tmod 2 = 0 then 0 else l.size.tdiv 2))
            > st.maxPixel
        then maxpool_scan_state.mk
          (pool_pixel l l.x.data channel
            (i * l.stride + k / l.size - (if l.size.tmod 2 = 0 then 0 else l.size.tdiv 2))
            (j * l.stride + k % l.size - (if l.size.tmod 2 = 0 then 0 else l.size.tdiv 2)))
          (l.width * (i * l.stride + k / l.size -
              (if l.size.tmod 2 = 0 then 0 else l.size.tdiv 2)) +
            l.width * l.height * channel +
            (j * l.stride + k % l.size - (if l.size.tmod 2 = 0 then 0 else l.size.tdiv 2)))
        else st) (maxpool_scan_state.mk (-1000000000) 0) := by
  unfold maxpool_scan pool_pixel
  dsimp only
  rw [forRange_flatten l.size l.size _ _ (by omega) (by omega)]

/-- The pixel index of the specification is the index the code computes. -/
theorem pixel_index_eq (l : layer α) (channel row col : Int) :
    l.width * row + l.width * l.height * channel + col = pixel_index l channel row col := by
  unfold pixel_index; ring

/-- A kernel position `k` of the scan and the window position it visits. -/
theorem window_position_of_kernel (l : layer α) (i j k : Int) (hsize : 1 ≤ l.size)
    (hk0 : 0 ≤ k) (hk : k < l.size * l.size)
    (hin : i * l.stride + k / l.size - window_pad l.size ≥ 0 ∧
      i * l.stride + k / l.size - window_pad l.size < l.height ∧
      j * l.stride + k % l.size - window_pad l.size ≥ 0 ∧
      j * l.stride + k % l.size - window_pad l.size < l.width) :
    window_position l i j (i * l.stride + k / l.size - window_pad l.size)
      (j * l.stride + k % l.size - window_pad l.size) := by
  have h1 : 0 ≤ k / l.size := Int.ediv_nonneg hk0 (by omega)
  have h2 : k / l.size < l.size := Int.ediv_lt_of_lt_mul (by omega) hk
  have h3 : 0 ≤ k % l.size := Int.emod_nonneg k (by omega)
  have h4 : k % l.size < l.size := Int.emod_lt_of_pos k (by omega)
  unfold window_position
  omega

/-- Every window position is visited by a kernel position of the scan. -/
theorem kernel_of_window_position (l : layer α) (i j row col : Int) (hsize : 1 ≤ l.size)
    (h : window_position l i j row col) :
    ∃ k, 0 ≤ k ∧ k < l.size * l.size ∧
      i * l.stride + k / l.size - window_pad l.size = row ∧
      j * l.stride + k % l.size - window_pad l.size = col := by
  unfold window_position at h
  obtain ⟨h1, h2, h3, h4, _, _, _, _⟩ := h
  have ha0 : 0 ≤ row - (i * l.stride - window_pad l.size) := by omega
  have ha1 : row - (i * l.stride - window_pad l.size) < l.size := by omega
  have hb0 : 0 ≤ col - (j * l.stride - window_pad l.size) := by omega
  have hb1 : col - (j * l.stride - window_pad l.size) < l.size := by omega
  refine ⟨(row - (i * l.stride - window_pad l.size)) * l.size +
    (col - (j * l.stride - window_pad l.size)), mul_add_nonneg _ _ _ ha0 hb0 (by omega),
    mul_add_lt _ _ _ _ ha1 hb1 (by omega), ?_, ?_⟩
  · have : ((row - (i * l.stride - window_pad l.size)) * l.size +
        (col - (j * l.stride - window_pad l.size))) / l.size =
        row - (i * l.stride - window_pad l.size) := by
      rw [add_comm, Int.add_mul_ediv_right _ _ (by omega), Int.ediv_eq_zero_of_lt hb0 hb1,
        zero_add]
    rw [this]; ring
  · have : ((row - (i * l.stride - window_pad l.size)) * l.size +
        (col - (j * l.stride - window_pad l.size))) % l.size =
        col - (j * l.stride - window_pad l.size) := by
      rw [add_comm, Int.add_mul_emod_self, Int.emod_eq_of_lt hb0 hb1]
    rw [this]; ring

/-- The running maximum of a kernel scan is the maximum of `-1000000000` and
the input values at the in-bounds positions of the window. -/
theorem pool_max_isGreatest (l : layer α) (data : Int → α) (channel i j : Int)
    (hsize : 1 ≤ l.size) :
    IsGreatest (insert (-1000000000) (window_values l data channel i j))
      (pool_max l data channel i j) := by
  have hpad := pool_pad_eq l.size hsize
  have hspec := running_max_spec (l.size * l.size) (fun k =>
    pool_pixel l data channel (i * l.stride + k / l.size - window_pad l.size)
      (j * l.stride + k % l.size - window_pad l.size)) (-1000000000)
  have hdef : pool_max l data channel i j =
      forRange (l.size * l.size) (fun k mp =>
        if (fun k => pool_pixel l data channel (i * l.stride + k / l.size - window_pad l.size)
          (j * l.stride + k % l.size - window_pad l.size)) k > mp
        then (fun k => pool_pixel l data channel (i * l.stride + k / l.size - window_pad l.size)
          (j * l.stride + k % l.size - window_pad l.size)) k else mp) (-1000000000) := by
    unfold pool_max
    rw [hpad]
  rw [hdef]
  obtain ⟨h1, h2, h3⟩ := hspec
  constructor
  · rcases h3 with h3 | ⟨k, hk0, hk, h3⟩
    · rw [h3]; exact Set.mem_insert _ _
    · rw [h3]
      unfold pool_pixel
      by_cases hin : i * l.stride + k / l.size - window_pad l.size ≥ 0 ∧
          i * l.stride + k / l.size - window_pad l.size < l.height ∧
          j * l.stride + k % l.size - window_pad l.size ≥ 0 ∧
          j * l.stride + k % l.size - window_pad l.size < l.width
      · rw [if_pos hin]
        apply Set.mem_insert_of_mem
        exact ⟨_, _, window_position_of_kernel l i j k hsize hk0 hk hin,
          by rw [pixel_index_eq]⟩
      · rw [if_neg hin]; exact Set.mem_insert _ _
  · intro v hv
    rcases hv with hv | ⟨row, col, hpos, hv⟩
    · rw [hv]; exact h1
    · obtain ⟨k, hk0, hk, hr, hc⟩ := kernel_of_window_position l i j row col hsize hpos
      have := h2 k hk0 hk
      beta_reduce at this
      rw [hr, hc] at this
      have hin : row ≥ 0 ∧ row < l.height ∧ col ≥ 0 ∧ col < l.width := by
        unfold window_position at hpos; omega
      unfold pool_pixel at this
      rw [if_pos hin, pixel_index_eq] at this
      rw [hv]; exact this

end PoolLemmas

section PoolForward

variable {α : Type} [LinearOrderedCommRing α]

/-- An output position has its flat index inside the sample's output row. -/
theorem output_position_range (c outh outw ch i j : Int) (hch0 : 0 ≤ ch) (hch : ch < c)
    (hi0 : 0 ≤ i) (hi : i < outh) (hj0 : 0 ≤ j) (hj : j < outw) :
    0 ≤ (ch * outh + i) * outw + j ∧ (ch * outh + i) * outw + j < outw * outh * c := by
  have e : outw * outh * c = c * outh * outw := by ring
  rw [e]
  have h1 : 0 ≤ ch * outh + i := mul_add_nonneg _ _ _ hch0 hi0 (by omega)
  have h2 : ch * outh + i < c * outh := mul_add_lt _ _ _ _ hch hi (by omega)
  exact ⟨mul_add_nonneg _ _ _ h1 hj0 (by omega), mul_add_lt _ _ _ _ h2 hj (by omega)⟩

/-- One sample of forward as three nested loops of writes at explicit
offsets. -/
theorem forward_maxpool_sample_eq (l : layer α) (inp : matrix α) (r : Int) (d : Int → α)
    (hw : 1 ≤ l.width) (hh : 1 ≤ l.height) (hc : 0 ≤ l.channels) (hstride : 1 ≤ l.stride) :
    forward_maxpool_sample l inp r d =
      forRange l.channels (fun ch d => forRange ((l.height - 1).tdiv l.stride + 1) (fun i d =>
        forRange ((l.width - 1).tdiv l.stride + 1) (fun j d =>
          store d (r * (((l.width - 1).tdiv l.stride + 1) * ((l.height - 1).tdiv l.stride + 1) *
              l.channels) +
            (0 + ((ch * ((l.height - 1).tdiv l.stride + 1) + i) *
              ((l.width - 1).tdiv l.stride + 1) + j)))
            (forward_maxpool_scan l inp r ch (i * l.stride) (j * l.stride))) d) d) d := by
  unfold forward_maxpool_sample
  dsimp only
  simp only [forStep_eq_forRange _ _ _ _ hstride hh, forStep_eq_forRange _ _ _ _ hstride hw]
  rw [writer_loop3 l.channels ((l.height - 1).tdiv l.stride + 1)
    ((l.width - 1).tdiv l.stride + 1) _ _ _ hc (le_of_lt (out_dim_pos _ _ hh hstride))
    (le_of_lt (out_dim_pos _ _ hw hstride))]

/-- What forward leaves in the output cell of sample `r` and output position
(`ch`, `i`, `j`): the result of the kernel scan anchored at
(`i*stride`, `j*stride`). -/
theorem forward_maxpool_entry (l : layer α) (inp : matrix α) (r ch i j : Int)
    (hw : 1 ≤ l.width) (hh : 1 ≤ l.height) (hc : 0 ≤ l.channels) (hstride : 1 ≤ l.stride)
    (hr0 : 0 ≤ r) (hr : r < inp.rows) (hch0 : 0 ≤ ch) (hch : ch < l.channels)
    (hi0 : 0 ≤ i) (hi : i < (l.height - 1).tdiv l.stride + 1)
    (hj0 : 0 ≤ j) (hj : j < (l.width - 1).tdiv l.stride + 1) :
    (forward_maxpool_layer l inp).2.data
        (r * (((l.width - 1).tdiv l.stride + 1) * ((l.height - 1).tdiv l.stride + 1) *
            l.channels) +
          ((ch * ((l.height - 1).tdiv l.stride + 1) + i) * ((l.width - 1).tdiv l.stride + 1)
            + j)) =
      forward_maxpool_scan l inp r ch (i * l.stride) (j * l.stride) := by
  have key := (forRange_disjoint inp.rows (forward_maxpool_sample l inp)
    (fun r p => ∃ ch i j, 0 ≤ ch ∧ ch < l.channels ∧
      0 ≤ i ∧ i < (l.height - 1).tdiv l.stride + 1 ∧
      0 ≤ j ∧ j < (l.width - 1).tdiv l.stride + 1 ∧
      p = r * (((l.width - 1).tdiv l.stride + 1) * ((l.height - 1).tdiv l.stride + 1) *
            l.channels) +
          (0 + ((ch * ((l.height - 1).tdiv l.stride + 1) + i) *
            ((l.width - 1).tdiv l.stride + 1) + j)))
    (fun r p _ new => ∀ ch i j, 0 ≤ ch → ch < l.channels →
      0 ≤ i → i < (l.height - 1).tdiv l.stride + 1 →
      0 ≤ j → j < (l.width - 1).tdiv l.stride + 1 →
      p = r * (((l.width - 1).tdiv l.stride + 1) * ((l.height - 1).tdiv l.stride + 1) *
            l.channels) +
          (0 + ((ch * ((l.height - 1).tdiv l.stride + 1) + i) *
            ((l.width - 1).tdiv l.stride + 1) + j)) →
      new = forward_maxpool_scan l inp r ch (i * l.stride) (j * l.stride))
    (by
      intro r d p _ _ _ ch i j h0 h1 h2 h3 h4 h5 e
      rw [forward_maxpool_sample_eq l inp r d hw hh hc hstride, e]
      exact (forRange3_store l.channels _ _
        (fun ch i j => r * (((l.width - 1).tdiv l.stride + 1) *
            ((l.height - 1).tdiv l.stride + 1) * l.channels) +
          (0 + ((ch * ((l.height - 1).tdiv l.stride + 1) + i) *
            ((l.width - 1).tdiv l.stride + 1) + j)))
        (fun ch i j => forward_maxpool_scan l inp r ch (i * l.stride) (j * l.stride))
        (by
          intro k i j k' i' j' _ _ a0 a1 b0 b1 _ _ a0' a1' b0' b1' e
          exact col_index_unique _ _ k i j k' i' j' a0 a1 b0 b1 a0' a1' b0' b1'
            (by beta_reduce at e; omega))
        d).1 ch i j h0 h1 h2 h3 h4 h5)
    (by
      intro r d p _ _ hR
      rw [forward_maxpool_sample_eq l inp r d hw hh hc hstride]
      exact (forRange3_store l.channels _ _
        (fun ch i j => r * (((l.width - 1).tdiv l.stride + 1) *
            ((l.height - 1).tdiv l.stride + 1) * l.channels) +
          (0 + ((ch * ((l.height - 1).tdiv l.stride + 1) + i) *
            ((l.width - 1).tdiv l.stride + 1) + j)))
        (fun ch i j => forward_maxpool_scan l inp r ch (i * l.stride) (j * l.stride))
        (by
          intro k i j k' i' j' _ _ a0 a1 b0 b1 _ _ a0' a1' b0' b1' e
          exact col_index_unique _ _ k i j k' i' j' a0 a1 b0 b1 a0' a1' b0' b1'
            (by beta_reduce at e; omega))
        d).2 p (fun ch i j h0 h1 h2 h3 h4 h5 e => hR ⟨ch, i, j, h0, h1, h2, h3, h4, h5, e⟩))
    (by
      rintro r r' p _ _ _ _ ⟨ch, i, j, h0, h1, h2, h3, h4, h5, e⟩
        ⟨ch', i', j', h0', h1', h2', h3', h4', h5', e'⟩
      obtain ⟨a0, a1⟩ := output_position_range l.channels _ _ ch i j h0 h1 h2 h3 h4 h5
      obtain ⟨b0, b1⟩ := output_position_range l.channels _ _ ch' i' j' h0' h1' h2' h3' h4' h5'
      exact (mul_add_unique _ r _ r' _ a0 a1 b0 b1 (by omega)).1)
    (make_matrix inp.rows (((l.width - 1).tdiv l.stride + 1) *
      ((l.height - 1).tdiv l.stride + 1) * l.channels) : matrix α).data
    (r * (((l.width - 1).tdiv l.stride + 1) * ((l.height - 1).tdiv l.stride + 1) *
        l.channels) +
      (0 + ((ch * ((l.height - 1).tdiv l.stride + 1) + i) * ((l.width - 1).tdiv l.stride + 1)
        + j)))).1 r hr0 hr ⟨ch, i, j, hch0, hch, hi0, hi, hj0, hj, rfl⟩ ch i j hch0 hch hi0 hi
      hj0 hj rfl
  rw [zero_add] at key
  exact key

end PoolForward

section C11

variable {α : Type} [LinearOrderedCommRing α]

theorem window_values_congr (l : layer α) (data data' : Int → α) (channel i j : Int)
    (h : ∀ row col, window_position l i j row col →
      data (pixel_index l channel row col) = data' (pixel_index l channel row col)) :
    window_values l data channel i j = window_values l data' channel i j := by
  ext v
  constructor
  · rintro ⟨row, col, hp, hv⟩
    exact ⟨row, col, hp, by rw [hv, h row col hp]⟩
  · rintro ⟨row, col, hp, hv⟩
    exact ⟨row, col, hp, by rw [hv, h row col hp]⟩

/-- The output index of the specification, in C division. -/
theorem output_index_eq (l : layer α) (channel i j : Int) (hw : 1 ≤ l.width)
    (hh : 1 ≤ l.height) (hstride : 1 ≤ l.stride) :
    (channel * ((l.height - 1).tdiv l.stride + 1) + i) * ((l.width - 1).tdiv l.stride + 1) + j =
      output_index l channel i j := by
  unfold output_index
  rw [Int.tdiv_eq_ediv (show 0 ≤ l.width - 1 by omega) (by omega),
    Int.tdiv_eq_ediv (show 0 ≤ l.height - 1 by omega) (by omega)]

/-- C11 (amended): for a max-pool layer with `w, h, c, size, stride ≥ 1` and
an input batch with `w*h*c` columns, forward returns a matrix with the same
number of rows and `outW*outH*c` columns, and for every sample, channel and
output position (`i`, `j`) the output at column `(channel*outH + i)*outW + j`
is the maximum of `-10^9` and the input values at the in-bounds positions of
the `size × size` window anchored at (`i*stride - pad`, `j*stride - pad`); it
is the maximum of those input values alone as soon as one of them is at least
`-10^9`. -/
theorem forward_maxpool_layer_entries (l : layer α) (inp : matrix α)
    (hw : 1 ≤ l.width) (hh : 1 ≤ l.height) (hc : 1 ≤ l.channels) (hsize : 1 ≤ l.size)
    (hstride : 1 ≤ l.stride) (_hcols : inp.cols = l.width * l.height * l.channels) :
    (forward_maxpool_layer l inp).2.rows = inp.rows ∧
    (forward_maxpool_layer l inp).2.cols =
      ((l.width - 1) / l.stride + 1) * ((l.height - 1) / l.stride + 1) * l.channels ∧
    ∀ r channel i j : Int, 0 ≤ r → r < inp.rows → 0 ≤ channel → channel < l.channels →
      0 ≤ i → i < (l.height - 1) / l.stride + 1 → 0 ≤ j → j < (l.width - 1) / l.stride + 1 →
      IsGreatest
          (insert (-1000000000)
            (window_values l (fun t => inp.data (r * inp.cols + t)) channel i j))
          ((forward_maxpool_layer l inp).2.data
            (r * (((l.width - 1) / l.stride + 1) * ((l.height - 1) / l.stride + 1) *
              l.channels) + output_index l channel i j)) ∧
        ((∃ v, v ∈ window_values l (fun t => inp.data (r * inp.cols + t)) channel i j ∧
            -1000000000 ≤ v) →
          IsGreatest (window_values l (fun t => inp.data (r * inp.cols + t)) channel i j)
            ((forward_maxpool_layer l inp).2.data
              (r * (((l.width - 1) / l.stride + 1) * ((l.height - 1) / l.stride + 1) *
                l.channels) + output_index l channel i j))) := by
  have ew : (l.width - 1).tdiv l.stride = (l.width - 1) / l.stride :=
    Int.tdiv_eq_ediv (by omega) (by omega)
  have eh : (l.height - 1).tdiv l.stride = (l.height - 1) / l.stride :=
    Int.tdiv_eq_ediv (by omega) (by omega)
  refine ⟨rfl, ?_, ?_⟩
  · show ((l.width - 1).tdiv l.stride + 1) * ((l.height - 1).tdiv l.stride + 1) * l.channels = _
    rw [ew, eh]
  · intro r channel i j hr0 hr hch0 hch hi0 hi hj0 hj
    have hent := forward_maxpool_entry l inp r channel i j hw hh (by omega) hstride hr0 hr hch0
      hch hi0 (by rw [eh]; exact hi) hj0 (by rw [ew]; exact hj)
    rw [forward_maxpool_scan_eq_pool_max l inp r channel i j hsize,
      output_index_eq l channel i j hw hh hstride, ew, eh] at hent
    have hdata : (fun t => inp.data (t + r * inp.cols)) = (fun t => inp.data (r * inp.cols + t)) := by
      funext t; rw [add_comm]
    rw [hdata] at hent
    rw [hent]
    have hG := pool_max_isGreatest l (fun t => inp.data (r * inp.cols + t)) channel i j hsize
    refine ⟨hG, ?_⟩
    rintro ⟨v, hv, hle⟩
    constructor
    · rcases hG.1 with h | h
      · have h1 : v ≤ pool_max l (fun t => inp.data (r * inp.cols + t)) channel i j :=
          hG.2 (Set.mem_insert_of_mem _ hv)
        have h2 : v = pool_max l (fun t => inp.data (r * inp.cols + t)) channel i j :=
          le_antisymm h1 (by rw [h]; exact hle)
        rw [← h2]; exact hv
      · exact h
    · intro u hu
      exact hG.2 (Set.mem_insert_of_mem _ hu)

end C11

section C11Examples

/-- C11 as stated fails below the sentinel: on the `1 × 1` layer `poolLayer1`
and the one-value input `-2000000000`, the only window holds the only pixel,
yet the forward output is not the maximum of the window's values (it is
`-1000000000`). -/
theorem forward_maxpool_not_window_max :
    rowBelowSentinel.cols = poolLayer1.width * poolLayer1.height * poolLayer1.channels ∧
    ¬ IsGreatest
      (window_values poolLayer1 (fun t => rowBelowSentinel.data (0 * rowBelowSentinel.cols + t))
        0 0 0)
      ((forward_maxpool_layer poolLayer1 rowBelowSentinel).2.data
        (0 * (((poolLayer1.width - 1) / poolLayer1.stride + 1) *
          ((poolLayer1.height - 1) / poolLayer1.stride + 1) * poolLayer1.channels) +
          output_index poolLayer1 0 0 0)) := by
  refine ⟨by decide, ?_⟩
  intro h
  obtain ⟨row, col, _, hv⟩ := h.1
  have h1 : (forward_maxpool_layer poolLayer1 rowBelowSentinel).2.data
      (0 * (((poolLayer1.width - 1) / poolLayer1.stride + 1) *
        ((poolLayer1.height - 1) / poolLayer1.stride + 1) * poolLayer1.channels) +
        output_index poolLayer1 0 0 0) = -1000000000 := by decide
  have h2 : (forward_maxpool_layer poolLayer1 rowBelowSentinel).2.data
      (0 * (((poolLayer1.width - 1) / poolLayer1.stride + 1) *
        ((poolLayer1.height - 1) / poolLayer1.stride + 1) * poolLayer1.channels) +
        output_index poolLayer1 0 0 0) = -2000000000 := hv
  rw [h1] at h2
  exact absurd h2 (by decide)

/-- C11 (amended) at `poolLayer3` and a batch of two samples: forward returns
a `2 × 8` matrix. -/
theorem forward_maxpool_layer_entries_witness :
    poolBatch.cols = poolLayer3.width * poolLayer3.height * poolLayer3.channels ∧
      (forward_maxpool_layer poolLayer3 poolBatch).2.rows = 2 ∧
      (forward_maxpool_layer poolLayer3 poolBatch).2.cols = 8 :=
  have h := forward_maxpool_layer_entries poolLayer3 poolBatch (by decide) (by decide)
    (by decide) (by decide) (by decide) (by decide)
  ⟨by decide, h.1, h.2.1⟩

end C11Examples

section PoolBackward

variable {α : Type} [LinearOrderedCommRing α]

/-- A property of the loop state that every iteration preserves holds when
the loop exits. -/
theorem forRange_preserves {σ : Type} (n : Int) (body : Int → σ → σ) (P : σ → Prop) (s : σ)
    (h0 : P s) (hstep : ∀ i t, 0 ≤ i → i < n → P t → P (body i t)) :
    P (forRange n body s) := by
  rcases le_or_lt n 0 with hn | hn
  · rw [forRange_nonpos n body s hn]; exact h0
  · exact forRange_invariant n body (fun _ t => P t) s (le_of_lt hn) h0 hstep

/-- An `int` of magnitude below `2^24` is stored in a `float` exactly. -/
theorem float_of_int_exact (k : Int) (h : k.natAbs < 16777216) : float_of_int k = k := by
  have he : float_lost_bits 8 k.natAbs = 0 := by
    show (if k.natAbs < 2 ^ 24 then 0 else float_lost_bits 7 (k.natAbs / 2) + 1) = 0
    rw [if_pos (by norm_num; exact h)]
  unfold float_of_int
  simp only [he]
  rfl

/-- The index `backward_maxpool_layer` records for the output position
(`channel`, `i`, `j`): the arg-max of the kernel scan, as a `float`. -/
theorem backward_maxpool_indices_entry (l : layer α) (channel i j : Int)
    (hch0 : 0 ≤ channel) (hch : channel < l.channels)
    (hi0 : 0 ≤ i) (hi : i < (l.height - 1).tdiv l.stride + 1)
    (hj0 : 0 ≤ j) (hj : j < (l.width - 1).tdiv l.stride + 1) :
    backward_maxpool_indices l
        ((channel * ((l.height - 1).tdiv l.stride + 1) + i) *
          ((l.width - 1).tdiv l.stride + 1) + j) =
      float_of_int (maxpool_scan l channel i j).maxInx := by
  unfold backward_maxpool_indices
  dsimp only
  exact (forRange3_store l.channels ((l.height - 1).tdiv l.stride + 1)
    ((l.width - 1).tdiv l.stride + 1)
    (fun k i j => (k * ((l.height - 1).tdiv l.stride + 1) + i) *
      ((l.width - 1).tdiv l.stride + 1) + j)
    (fun k i j => float_of_int (maxpool_scan l k i j).maxInx)
    (fun k i j k' i' j' _ _ hi0 hi hj0 hj _ _ hi0' hi' hj0' hj' e =>
      col_index_unique _ _ k i j k' i' j' hi0 hi hj0 hj hi0' hi' hj0' hj' e)
    (fun _ => 0)).1 channel i j hch0 hch hi0 hi hj0 hj

/-- The gradient `backward_maxpool_layer` returns: cell `t` of `dx` is the sum
of the output gradients of the output positions whose recorded index is `t`. -/
theorem backward_maxpool_layer_data (l : layer α) (dy : matrix α) (t : Int) :
    (backward_maxpool_layer l dy).2.data t =
      sumTo (((l.height - 1).tdiv l.stride + 1) * ((l.width - 1).tdiv l.stride + 1) *
          l.channels)
        (fun p => if backward_maxpool_indices l p = t then dy.data p else 0) := by
  unfold backward_maxpool_layer
  dsimp only
  rw [forRange_add _ _ (fun p t => if backward_maxpool_indices l p = t then dy.data p else 0)]
  · simp [make_matrix]
  · intro p s q _ _
    unfold store
    by_cases h : q = backward_maxpool_indices l p
    · rw [if_pos h, if_pos h.symm, h]
    · rw [if_neg h, if_neg (fun e => h e.symm), add_zero]

/-- The kernel scan of backward: its maximum is the running maximum of the
window; its index is either the initial `0`, when no in-bounds value of the
window exceeds `-1000000000`, or the first in-bounds position of the row-major
scan that holds the window's maximum. -/
theorem maxpool_scan_spec (l : layer α) (channel i j : Int) (hsize : 1 ≤ l.size) :
    (maxpool_scan l channel i j).maxPixel = pool_max l l.x.data channel i j ∧
    (((maxpool_scan l channel i j).maxInx = 0 ∧
        ∀ row col, window_position l i j row col →
          l.x.data (pixel_index l channel row col) ≤ -1000000000) ∨
      ∃ row col, window_position l i j row col ∧
        (maxpool_scan l channel i j).maxInx = pixel_index l channel row col ∧
        l.x.data (pixel_index l channel row col) = pool_max l l.x.data channel i j ∧
        ∀ row1 col1, window_position l i j row1 col1 →
          l.x.data (pixel_index l channel row col) ≤ l.x.data (pixel_index l channel row1 col1) →
          row < row1 ∨ (row = row1 ∧ col ≤ col1)) := by
  have hpad := pool_pad_eq l.size hsize
  have hspec := running_argmax_spec (l.size * l.size)
    (fun k => pool_pixel l l.x.data channel (i * l.stride + k / l.size - window_pad l.size)
      (j * l.stride + k % l.size - window_pad l.size))
    (fun k => l.width * (i * l.stride + k / l.size - window_pad l.size) +
      l.width * l.height * channel + (j * l.stride + k % l.size - window_pad l.size))
    (-1000000000) 0
  have hscan := maxpool_scan_eq l channel i j hsize
  rw [hpad] at hscan
  have hmax : pool_max l l.x.data channel i j =
      forRange (l.size * l.size) (fun k mp =>
        if pool_pixel l l.x.data channel (i * l.stride + k / l.size - window_pad l.size)
          (j * l.stride + k % l.size - window_pad l.size) > mp
        then pool_pixel l l.x.data channel (i * l.stride + k / l.size - window_pad l.size)
          (j * l.stride + k % l.size - window_pad l.size) else mp) (-1000000000) := by
    unfold pool_max
    rw [hpad]
  beta_reduce at hspec
  rw [← hscan, ← hmax] at hspec
  obtain ⟨h1, h2⟩ := hspec
  refine ⟨h1, ?_⟩
  have hval : ∀ k row col, i * l.stride + k / l.size - window_pad l.size = row →
      j * l.stride + k % l.size - window_pad l.size = col → window_position l i j row col →
      pool_pixel l l.x.data channel (i * l.stride + k / l.size - window_pad l.size)
        (j * l.stride + k % l.size - window_pad l.size) =
        l.x.data (pixel_index l channel row col) := by
    intro k row col hr hc hpos
    have hin : row ≥ 0 ∧ row < l.height ∧ col ≥ 0 ∧ col < l.width := by
      unfold window_position at hpos; omega
    rw [hr, hc]
    unfold pool_pixel
    rw [if_pos hin, pixel_index_eq]
  rcases h2 with ⟨h0, hall⟩ | ⟨k, hk0, hk, hf, hidx, hlt, hfirst⟩
  · left
    refine ⟨h0, ?_⟩
    intro row col hpos
    obtain ⟨k, hk0, hk, hr, hc⟩ := kernel_of_window_position l i j row col hsize hpos
    rw [← hval k row col hr hc hpos]
    exact hall k hk0 hk
  · right
    have hin : i * l.stride + k / l.size - window_pad l.size ≥ 0 ∧
        i * l.stride + k / l.size - window_pad l.size < l.height ∧
        j * l.stride + k % l.size - window_pad l.size ≥ 0 ∧
        j * l.stride + k % l.size - window_pad l.size < l.width := by
      by_contra hout
      unfold pool_pixel at hlt
      rw [if_neg hout] at hlt
      exact lt_irrefl _ hlt
    have hpos := window_position_of_kernel l i j k hsize hk0 hk hin
    have hvk := hval k _ _ rfl rfl hpos
    refine ⟨_, _, hpos, ?_, ?_, ?_⟩
    · rw [← hidx, pixel_index_eq]
    · rw [← hvk, hf, h1]
    · intro row1 col1 hpos1 hle
      obtain ⟨k1, hk10, hk1, hr1, hc1⟩ := kernel_of_window_position l i j row1 col1 hsize hpos1
      have hv1 := hval k1 row1 col1 hr1 hc1 hpos1
      have hkk : k ≤ k1 := by
        by_contra hcon
        have := hfirst k1 hk10 (by omega)
        rw [hv1, hvk] at this
        exact lt_irrefl _ (lt_of_lt_of_le this hle)
      have hq := Int.ediv_le_ediv (show 0 < l.size by omega) hkk
      have e1 := Int.ediv_add_emod k l.size
      have e2 := Int.ediv_add_emod k1 l.size
      rcases lt_or_eq_of_le hq with hlt1 | heq
      · left; omega
      · right
        rw [heq] at e1
        constructor
        · omega
        · omega

/-- Inside one channel the flat index grows along the row-major order of the
pixels. -/
theorem pixel_index_mono (l : layer α) (channel row col row1 col1 : Int)
    (hc0 : 0 ≤ col) (hc : col < l.width) (hc1 : 0 ≤ col1)
    (h : row < row1 ∨ (row = row1 ∧ col ≤ col1)) :
    pixel_index l channel row col ≤ pixel_index l channel row1 col1 := by
  unfold pixel_index
  rcases h with h | ⟨h, h1⟩
  · have h2 : (row + 1) * l.width ≤ row1 * l.width :=
      mul_le_mul_of_nonneg_right (by omega) (by omega)
    have h3 : (row + 1) * l.width = row * l.width + l.width := by ring
    omega
  · rw [h]; omega

/-- The flat index of an in-bounds pixel lies inside the sample. -/
theorem pixel_index_bounds (l : layer α) (channel row col : Int)
    (hr0 : 0 ≤ row) (hr : row < l.height) (hc0 : 0 ≤ col) (hcw : col < l.width)
    (hch0 : 0 ≤ channel) (hch : channel < l.channels) :
    0 ≤ pixel_index l channel row col ∧
      pixel_index l channel row col < l.width * l.height * l.channels := by
  have h := pixel_index_range l.width l.height l.channels row col channel hr0 hr hc0 hcw hch0 hch
  have e : pixel_index l channel row col = col + l.width * (row + l.height * channel) := by
    unfold pixel_index; ring
  rw [e]; exact h

/-- The index found by the kernel scan of backward lies inside the sample. -/
theorem maxpool_scan_index_range (l : layer α) (channel i j : Int)
    (hw : 1 ≤ l.width) (hh : 1 ≤ l.height) (hsize : 1 ≤ l.size)
    (hch0 : 0 ≤ channel) (hch : channel < l.channels) :
    0 ≤ (maxpool_scan l channel i j).maxInx ∧
      (maxpool_scan l channel i j).maxInx < l.width * l.height * l.channels := by
  rcases (maxpool_scan_spec l channel i j hsize).2 with ⟨h0, _⟩ | ⟨row, col, hpos, hidx, _, _⟩
  · rw [h0]
    exact ⟨le_refl _, mul_pos (mul_pos (by omega) (by omega)) (by omega)⟩
  · rw [hidx]
    unfold window_position at hpos
    exact pixel_index_bounds l channel row col (by omega) (by omega) (by omega) (by omega)
      hch0 hch

/-- Every cell of the index buffer of backward holds an index inside the
sample, when the sample has at most `2^24` values. -/
theorem backward_maxpool_indices_range (l : layer α) (hw : 1 ≤ l.width) (hh : 1 ≤ l.height)
    (hc : 1 ≤ l.channels) (hsize : 1 ≤ l.size)
    (hbound : l.width * l.height * l.channels ≤ 16777216) (p : Int) :
    0 ≤ backward_maxpool_indices l p ∧
      backward_maxpool_indices l p < l.width * l.height * l.channels := by
  have hpos : 0 < l.width * l.height * l.channels :=
    mul_pos (mul_pos (by omega) (by omega)) (by omega)
  unfold backward_maxpool_indices
  dsimp only
  refine forRange_preserves _ _
    (fun (o : Int → Int) => ∀ p, 0 ≤ o p ∧ o p < l.width * l.height * l.channels) _
    (fun _ => ⟨le_refl _, hpos⟩) ?_ p
  intro channel o hch0 hch ho
  refine forRange_preserves _ _
    (fun (o : Int → Int) => ∀ p, 0 ≤ o p ∧ o p < l.width * l.height * l.channels) _ ho ?_
  intro row o _ _ ho
  refine forRange_preserves _ _
    (fun (o : Int → Int) => ∀ p, 0 ≤ o p ∧ o p < l.width * l.height * l.channels) _ ho ?_
  intro col o _ _ ho q
  have hr := maxpool_scan_index_range l channel row col hw hh hsize hch0 hch
  have hex : float_of_int (maxpool_scan l channel row col).maxInx =
      (maxpool_scan l channel row col).maxInx := by
    apply float_of_int_exact
    omega
  unfold store
  by_cases hq : q = (channel * ((l.height - 1).tdiv l.stride + 1) + row) *
      ((l.width - 1).tdiv l.stride + 1) + col
  · rw [if_pos hq, hex]; exact hr
  · rw [if_neg hq]; exact ho q

end PoolBackward

section PoolGradient

variable {α : Type} [LinearOrderedCommRing α]

theorem sumTo_single_const {β : Type} [AddCommMonoid β] (n a : Int) (c : β) (ha0 : 0 ≤ a)
    (ha : a < n) : sumTo n (fun t => if a = t then c else 0) = c := by
  have h := sumTo_single n a (fun _ => c) ha0 ha
  beta_reduce at h
  refine Eq.trans ?_ h
  apply sumTo_congr
  intro t _ _
  by_cases e : a = t
  · rw [if_pos e, if_pos e.symm]
  · rw [if_neg e, if_neg (fun e' => e e'.symm)]

/-- The sum over the sample of the gradient backward returns is the sum of the
output gradient, when every recorded index lies inside the sample. -/
theorem backward_maxpool_sum (l : layer α) (dy : matrix α) (N : Int)
    (hN : N = ((l.height - 1).tdiv l.stride + 1) * ((l.width - 1).tdiv l.stride + 1) *
      l.channels)
    (hidx : ∀ p, 0 ≤ backward_maxpool_indices l p ∧
      backward_maxpool_indices l p < l.width * l.height * l.channels) :
    sumTo (l.width * l.height * l.channels) (backward_maxpool_layer l dy).2.data =
      sumTo N dy.data := by
  have h1 : sumTo (l.width * l.height * l.channels) (backward_maxpool_layer l dy).2.data =
      sumTo (l.width * l.height * l.channels) (fun t => sumTo N
        (fun p => if backward_maxpool_indices l p = t then dy.data p else 0)) := by
    apply sumTo_congr
    intro t _ _
    rw [backward_maxpool_layer_data, hN]
  rw [h1, sumTo_comm]
  apply sumTo_congr
  intro p _ _
  exact sumTo_single_const _ _ _ (hidx p).1 (hidx p).2

/-- C21: max-pool backward conserves gradient mass on a single sample. For a
max-pool layer with `w, h, c, size, stride ≥ 1` and `w*h*c ≤ 2^24`, a one-row
cached input with `w*h*c` columns (any values) and a one-row `dy` with
`outW*outH*c` columns, every index backward writes to lies in `[0, w*h*c)`,
`dx` is `1 × w*h*c`, and the sum of all entries of `dx` is the sum of all
entries of `dy`. -/
theorem backward_maxpool_layer_conserves_sum (l : layer α) (dy : matrix α)
    (hw : 1 ≤ l.width) (hh : 1 ≤ l.height) (hc : 1 ≤ l.channels) (hsize : 1 ≤ l.size)
    (hstride : 1 ≤ l.stride) (hbound : l.width * l.height * l.channels ≤ 2 ^ 24)
    (_hxrows : l.x.rows = 1) (_hxcols : l.x.cols = l.width * l.height * l.channels)
    (hrows : dy.rows = 1)
    (hcols : dy.cols =
      ((l.width - 1) / l.stride + 1) * ((l.height - 1) / l.stride + 1) * l.channels) :
    (∀ p, 0 ≤ p →
        p < ((l.width - 1) / l.stride + 1) * ((l.height - 1) / l.stride + 1) * l.channels →
        0 ≤ backward_maxpool_indices l p ∧
          backward_maxpool_indices l p < l.width * l.height * l.channels) ∧
      (backward_maxpool_layer l dy).2.rows = 1 ∧
      (backward_maxpool_layer l dy).2.cols = l.width * l.height * l.channels ∧
      sumTo ((backward_maxpool_layer l dy).2.rows * (backward_maxpool_layer l dy).2.cols)
          (backward_maxpool_layer l dy).2.data =
        sumTo (dy.rows * dy.cols) dy.data := by
  have ew : (l.width - 1).tdiv l.stride = (l.width - 1) / l.stride :=
    Int.tdiv_eq_ediv (by omega) (by omega)
  have eh : (l.height - 1).tdiv l.stride = (l.height - 1) / l.stride :=
    Int.tdiv_eq_ediv (by omega) (by omega)
  have hb : l.width * l.height * l.channels ≤ 16777216 := by
    have e : (2 : Int) ^ 24 = 16777216 := by norm_num
    rw [e] at hbound; exact hbound
  have hidx := backward_maxpool_indices_range l hw hh hc hsize hb
  have hr : (backward_maxpool_layer l dy).2.rows = 1 := hrows
  have hcl : (backward_maxpool_layer l dy).2.cols = l.width * l.height * l.channels := rfl
  refine ⟨fun p _ _ => hidx p, hr, hcl, ?_⟩
  rw [hr, hcl, one_mul, hrows, one_mul, hcols]
  apply backward_maxpool_sum l dy _ _ hidx
  rw [ew, eh]; ring

/-- The anchor pixel of an output position is an in-bounds position of its
window. -/
theorem window_position_anchor (l : layer α) (i j : Int) (hsize : 1 ≤ l.size) (hstride : 1 ≤ l.stride)
    (hi0 : 0 ≤ i) (hi : i < (l.height - 1) / l.stride + 1)
    (hj0 : 0 ≤ j) (hj : j < (l.width - 1) / l.stride + 1) :
    window_position l i j (i * l.stride) (j * l.stride) := by
  have hp := window_pad_range l.size hsize
  have h1 : i * l.stride ≤ (l.height - 1) / l.stride * l.stride :=
    mul_le_mul_of_nonneg_right (by omega) (by omega)
  have h2 := Int.ediv_mul_le (l.height - 1) (show l.stride ≠ 0 by omega)
  have h3 : j * l.stride ≤ (l.width - 1) / l.stride * l.stride :=
    mul_le_mul_of_nonneg_right (by omega) (by omega)
  have h4 := Int.ediv_mul_le (l.width - 1) (show l.stride ≠ 0 by omega)
  have h5 : 0 ≤ i * l.stride := mul_nonneg hi0 (by omega)
  have h6 : 0 ≤ j * l.stride := mul_nonneg hj0 (by omega)
  unfold window_position
  omega

/-- The index backward records for an output position, when the cached
sample has at most `2^24` values, all above `-1000000000`: the first position
of the row-major kernel scan, and the smallest flat index, among the in-bounds
window positions that hold the window's maximum. -/
theorem recorded_index_spec (l : layer α) (channel i j : Int)
    (hw : 1 ≤ l.width) (hh : 1 ≤ l.height) (hsize : 1 ≤ l.size) (hstride : 1 ≤ l.stride)
    (hbound : l.width * l.height * l.channels ≤ 16777216)
    (hval : ∀ t, 0 ≤ t → t < l.width * l.height * l.channels → -1000000000 < l.x.data t)
    (hch0 : 0 ≤ channel) (hch : channel < l.channels)
    (hi0 : 0 ≤ i) (hi : i < (l.height - 1) / l.stride + 1)
    (hj0 : 0 ≤ j) (hj : j < (l.width - 1) / l.stride + 1) :
    ∃ row col, window_position l i j row col ∧
      backward_maxpool_indices l (output_index l channel i j) = pixel_index l channel row col ∧
      l.x.data (pixel_index l channel row col) = pool_max l l.x.data channel i j ∧
      (∀ row1 col1, window_position l i j row1 col1 →
        l.x.data (pixel_index l channel row1 col1) ≤ l.x.data (pixel_index l channel row col)) ∧
      (∀ row1 col1, window_position l i j row1 col1 →
        l.x.data (pixel_index l channel row1 col1) = l.x.data (pixel_index l channel row col) →
        (row < row1 ∨ (row = row1 ∧ col ≤ col1)) ∧
          pixel_index l channel row col ≤ pixel_index l channel row1 col1) := by
  have ew : (l.width - 1).tdiv l.stride = (l.width - 1) / l.stride :=
    Int.tdiv_eq_ediv (by omega) (by omega)
  have eh : (l.height - 1).tdiv l.stride = (l.height - 1) / l.stride :=
    Int.tdiv_eq_ediv (by omega) (by omega)
  have hanchor := window_position_anchor l i j hsize hstride hi0 hi hj0 hj
  have hin : ∀ row col, window_position l i j row col →
      0 ≤ pixel_index l channel row col ∧
        pixel_index l channel row col < l.width * l.height * l.channels := by
    intro row col hpos
    unfold window_position at hpos
    exact pixel_index_bounds l channel row col (by omega) (by omega) (by omega) (by omega)
      hch0 hch
  rcases (maxpool_scan_spec l channel i j hsize).2 with
    ⟨_, hall⟩ | ⟨row, col, hpos, hidx, hv, hfirst⟩
  · exfalso
    have h1 := hall _ _ hanchor
    have h2 := hval _ (hin _ _ hanchor).1 (hin _ _ hanchor).2
    exact lt_irrefl _ (lt_of_lt_of_le h2 h1)
  · refine ⟨row, col, hpos, ?_, hv, ?_, ?_⟩
    · rw [← output_index_eq l channel i j hw hh hstride,
        backward_maxpool_indices_entry l channel i j hch0 hch hi0 (by rw [eh]; exact hi) hj0
          (by rw [ew]; exact hj), hidx]
      apply float_of_int_exact
      have := hin row col hpos
      omega
    · intro row1 col1 hpos1
      rw [hv]
      exact (pool_max_isGreatest l l.x.data channel i j hsize).2
        (Set.mem_insert_of_mem _ ⟨row1, col1, hpos1, rfl⟩)
    · intro row1 col1 hpos1 heq
      have hlex := hfirst row1 col1 hpos1 (le_of_eq heq.symm)
      refine ⟨hlex, ?_⟩
      unfold window_position at hpos hpos1
      exact pixel_index_mono l channel row col row1 col1 (by omega) (by omega) (by omega) hlex

/-- The index backward records after `forward(x)` for a one-row input `x` of
at most `2^24` values, all above `-1000000000`: an in-bounds position of the
window whose input value is the forward output, the first maximal position of
the window in the row-major kernel scan. -/
theorem forward_recorded_index_spec (l : layer α) (x : matrix α) (channel i j : Int)
    (hw : 1 ≤ l.width) (hh : 1 ≤ l.height) (hc : 1 ≤ l.channels) (hsize : 1 ≤ l.size)
    (hstride : 1 ≤ l.stride)
    (hbound : l.width * l.height * l.channels ≤ 16777216)
    (hrows : x.rows = 1) (hcols : x.cols = l.width * l.height * l.channels)
    (hval : ∀ t, 0 ≤ t → t < l.width * l.height * l.channels → -1000000000 < x.data t)
    (hch0 : 0 ≤ channel) (hch : channel < l.channels)
    (hi0 : 0 ≤ i) (hi : i < (l.height - 1) / l.stride + 1)
    (hj0 : 0 ≤ j) (hj : j < (l.width - 1) / l.stride + 1) :
    ∃ row col, window_position l i j row col ∧
      backward_maxpool_indices (forward_maxpool_layer l x).1 (output_index l channel i j) =
        pixel_index l channel row col ∧
      x.data (pixel_index l channel row col) =
        (forward_maxpool_layer l x).2.data (output_index l channel i j) ∧
      (∀ row1 col1, window_position l i j row1 col1 →
        x.data (pixel_index l channel row1 col1) ≤ x.data (pixel_index l channel row col)) ∧
      (∀ row1 col1, window_position l i j row1 col1 →
        x.data (pixel_index l channel row1 col1) = x.data (pixel_index l channel row col) →
        (row < row1 ∨ (row = row1 ∧ col ≤ col1)) ∧
          pixel_index l channel row col ≤ pixel_index l channel row1 col1) := by
  have ew : (l.width - 1).tdiv l.stride = (l.width - 1) / l.stride :=
    Int.tdiv_eq_ediv (by omega) (by omega)
  have eh : (l.height - 1).tdiv l.stride = (l.height - 1) / l.stride :=
    Int.tdiv_eq_ediv (by omega) (by omega)
  have hcopy : ∀ t, 0 ≤ t → t < l.width * l.height * l.channels →
      (copy_matrix x).data t = x.data t := by
    intro t h0 h1
    have h2 : 0 ≤ t ∧ t < x.rows * x.cols := by rw [hrows, hcols, one_mul]; exact ⟨h0, h1⟩
    simp only [copy_matrix, h2, and_self, if_true]
  have hin : ∀ row col, window_position l i j row col →
      0 ≤ pixel_index l channel row col ∧
        pixel_index l channel row col < l.width * l.height * l.channels := by
    intro row col hpos
    unfold window_position at hpos
    exact pixel_index_bounds l channel row col (by omega) (by omega) (by omega) (by omega)
      hch0 hch
  have hcopyw : ∀ row col, window_position l i j row col →
      (copy_matrix x).data (pixel_index l channel row col) =
        x.data (pixel_index l channel row col) :=
    fun row col hpos => hcopy _ (hin row col hpos).1 (hin row col hpos).2
  have hspec : ∃ row col, window_position l i j row col ∧
      backward_maxpool_indices (forward_maxpool_layer l x).1 (output_index l channel i j) =
        pixel_index l channel row col ∧
      (copy_matrix x).data (pixel_index l channel row col) =
        pool_max l (copy_matrix x).data channel i j ∧
      (∀ row1 col1, window_position l i j row1 col1 →
        (copy_matrix x).data (pixel_index l channel row1 col1) ≤
          (copy_matrix x).data (pixel_index l channel row col)) ∧
      (∀ row1 col1, window_position l i j row1 col1 →
        (copy_matrix x).data (pixel_index l channel row1 col1) =
          (copy_matrix x).data (pixel_index l channel row col) →
        (row < row1 ∨ (row = row1 ∧ col ≤ col1)) ∧
          pixel_index l channel row col ≤ pixel_index l channel row1 col1) :=
    recorded_index_spec (forward_maxpool_layer l x).1 channel i j hw hh hsize hstride hbound
      (fun t h0 h1 => by
        show -1000000000 < (copy_matrix x).data t
        rw [hcopy t h0 h1]; exact hval t h0 h1)
      hch0 hch hi0 hi hj0 hj
  obtain ⟨row, col, hpos, hidx, hv, hmax, hfirst⟩ := hspec
  have hent := forward_maxpool_entry l x 0 channel i j hw hh (by omega) hstride (le_refl _)
    (by rw [hrows]; decide) hch0 hch hi0 (by rw [eh]; exact hi) hj0 (by rw [ew]; exact hj)
  rw [zero_mul, zero_add, output_index_eq l channel i j hw hh hstride,
    forward_maxpool_scan_eq_pool_max l x 0 channel i j hsize] at hent
  have hwv : window_values l (copy_matrix x).data channel i j =
      window_values l (fun t => x.data (t + 0 * x.cols)) channel i j :=
    window_values_congr l _ _ channel i j (fun row col hp => by
      rw [hcopyw row col hp]
      show x.data _ = x.data (_ + 0 * x.cols)
      rw [zero_mul, add_zero])
  have hG1 := pool_max_isGreatest l (copy_matrix x).data channel i j hsize
  have hG2 := pool_max_isGreatest l (fun t => x.data (t + 0 * x.cols)) channel i j hsize
  rw [hwv] at hG1
  have hpm := hG1.unique hG2
  refine ⟨row, col, hpos, hidx, ?_, ?_, ?_⟩
  · rw [hent, ← hpm, ← hv, hcopyw row col hpos]
  · intro row1 col1 hpos1
    have := hmax row1 col1 hpos1
    rw [hcopyw row1 col1 hpos1, hcopyw row col hpos] at this
    exact this
  · intro row1 col1 hpos1 heq
    apply hfirst row1 col1 hpos1
    rw [hcopyw row1 col1 hpos1, hcopyw row col hpos]
    exact heq

/-- C13 (amended): max-pool tie-break. For a max-pool layer with
`w, h, c, size, stride ≥ 1` and `w*h*c ≤ 2^24`, and a single-row cached input
with all values greater than `-10^9`, the index backward records for an output
position is an in-bounds window position holding the window maximum, the one
met first in the row-major kernel scan and the smallest flat input index among
the maximal in-bounds positions; and every cell of `dx` is the sum of the
gradients of the output positions whose recorded index it is. -/
theorem backward_maxpool_first_max (l : layer α) (dy : matrix α)
    (hw : 1 ≤ l.width) (hh : 1 ≤ l.height) (_hc : 1 ≤ l.channels) (hsize : 1 ≤ l.size)
    (hstride : 1 ≤ l.stride) (hbound : l.width * l.height * l.channels ≤ 2 ^ 24)
    (_hrows : l.x.rows = 1) (_hcols : l.x.cols = l.width * l.height * l.channels)
    (hval : ∀ t, 0 ≤ t → t < l.width * l.height * l.channels → l.x.data t > -1000000000) :
    (∀ channel i j : Int, 0 ≤ channel → channel < l.channels →
      0 ≤ i → i < (l.height - 1) / l.stride + 1 → 0 ≤ j → j < (l.width - 1) / l.stride + 1 →
      records_first_max l channel i j) ∧
    ∀ t, (backward_maxpool_layer l dy).2.data t =
      sumTo (((l.height - 1) / l.stride + 1) * ((l.width - 1) / l.stride + 1) * l.channels)
        (fun p => if backward_maxpool_indices l p = t then dy.data p else 0) := by
  have ew : (l.width - 1).tdiv l.stride = (l.width - 1) / l.stride :=
    Int.tdiv_eq_ediv (by omega) (by omega)
  have eh : (l.height - 1).tdiv l.stride = (l.height - 1) / l.stride :=
    Int.tdiv_eq_ediv (by omega) (by omega)
  have hb : l.width * l.height * l.channels ≤ 16777216 := by
    have e : (2 : Int) ^ 24 = 16777216 := by norm_num
    rw [e] at hbound; exact hbound
  constructor
  · intro channel i j hch0 hch hi0 hi hj0 hj
    obtain ⟨row, col, hpos, hidx, _, hmax, hfirst⟩ :=
      recorded_index_spec l channel i j hw hh hsize hstride hb hval hch0 hch hi0 hi hj0 hj
    exact ⟨row, col, hpos, hidx, hmax, hfirst⟩
  · intro t
    rw [backward_maxpool_layer_data, ew, eh]

/-- C19 (amended): max-pool backward recomputes the maximum that forward
found. For a max-pool layer with `w, h, c, size, stride ≥ 1` and
`w*h*c ≤ 2^24`, a one-row input `x` with `w*h*c` columns and all values
greater than `-10^9`, and every output position, the flat input index that
backward records after `forward(x)` is an in-bounds position of the position's
window and the input value at that index is the forward output. -/
theorem backward_maxpool_records_forward_max (l : layer α) (x : matrix α)
    (hw : 1 ≤ l.width) (hh : 1 ≤ l.height) (hc : 1 ≤ l.channels) (hsize : 1 ≤ l.size)
    (hstride : 1 ≤ l.stride) (hbound : l.width * l.height * l.channels ≤ 2 ^ 24)
    (hrows : x.rows = 1) (hcols : x.cols = l.width * l.height * l.channels)
    (hval : ∀ t, 0 ≤ t → t < l.width * l.height * l.channels → x.data t > -1000000000)
    (channel i j : Int) (hch0 : 0 ≤ channel) (hch : channel < l.channels)
    (hi0 : 0 ≤ i) (hi : i < (l.height - 1) / l.stride + 1)
    (hj0 : 0 ≤ j) (hj : j < (l.width - 1) / l.stride + 1) :
    records_forward_max l x channel i j := by
  have hb : l.width * l.height * l.channels ≤ 16777216 := by
    have e : (2 : Int) ^ 24 = 16777216 := by norm_num
    rw [e] at hbound; exact hbound
  obtain ⟨row, col, hpos, hidx, hv, _, _⟩ :=
    forward_recorded_index_spec l x channel i j hw hh hc hsize hstride hb hrows hcols hval
      hch0 hch hi0 hi hj0 hj
  exact ⟨row, col, hpos, hidx, hv⟩

end PoolGradient

section PoolGradientExamples

/-- C21 at `poolLayer3` and the gradient `(1, ..., 8)`: the entries of `dx`
sum to the sum of the entries of `dy`. -/
theorem backward_maxpool_layer_conserves_sum_witness :
    poolLayer3.width * poolLayer3.height * poolLayer3.channels ≤ 2 ^ 24 ∧
      sumTo ((backward_maxpool_layer poolLayer3 gradRow8).2.rows *
          (backward_maxpool_layer poolLayer3 gradRow8).2.cols)
          (backward_maxpool_layer poolLayer3 gradRow8).2.data =
        sumTo (gradRow8.rows * gradRow8.cols) gradRow8.data :=
  ⟨by decide, (backward_maxpool_layer_conserves_sum poolLayer3 gradRow8 (by decide) (by decide)
    (by decide) (by decide) (by decide) (by decide) (by decide) (by decide) (by decide)
    (by decide)).2.2.2⟩

/-- C13 as stated fails for wide inputs: on `wideLayer3` (width `2^24 + 4`,
`3 × 3` kernel, all-zero cached input) the scan of the output position
`j = 2^24 + 2` first meets the maximum at flat index `2^24 + 1`, which the
`float` matrix of indices holds as `2^24`: the recorded index is not a
position of the window. -/
theorem backward_maxpool_first_max_fails_wide :
    wideLayer3.x.rows = 1 ∧
      wideLayer3.x.cols = wideLayer3.width * wideLayer3.height * wideLayer3.channels ∧
      (∀ t, wideLayer3.x.data t > -1000000000) ∧
      ¬ records_first_max wideLayer3 0 0 16777218 := by
  refine ⟨rfl, by decide, fun _ => (by decide : (0 : Int) > -1000000000), ?_⟩
  rintro ⟨row, col, hpos, hidx, _, _⟩
  have hout : output_index wideLayer3 0 0 16777218 =
      (0 * ((wideLayer3.height - 1).tdiv wideLayer3.stride + 1) + 0) *
        ((wideLayer3.width - 1).tdiv wideLayer3.stride + 1) + 16777218 := by decide
  have hscan : float_of_int (maxpool_scan wideLayer3 0 0 16777218).maxInx = 16777216 := by
    decide
  rw [hout, backward_maxpool_indices_entry wideLayer3 0 0 16777218 (by decide) (by decide)
    (by decide) (by decide) (by decide) (by decide), hscan] at hidx
  have hp : window_pad wideLayer3.size = 1 := by decide
  unfold window_position at hpos
  rw [hp] at hpos
  have e1 : wideLayer3.height = 1 := rfl
  have e2 : wideLayer3.width = 16777220 := rfl
  have e3 : wideLayer3.stride = 1 := rfl
  unfold pixel_index at hidx
  rw [e1, e2] at hidx
  rw [e1, e3] at hpos
  omega

/-- C13 (amended) at `poolLayer3`: the index recorded for the output position
`(1, 1, 1)` is the first maximal position of its window. -/
theorem backward_maxpool_first_max_witness :
    poolLayer3.width * poolLayer3.height * poolLayer3.channels ≤ 2 ^ 24 ∧
      records_first_max poolLayer3 1 1 1 :=
  ⟨by decide, (backward_maxpool_first_max poolLayer3 gradRow8 (by decide) (by decide)
    (by decide) (by decide) (by decide) (by decide) (by decide) (by decide)
    (fun t _ _ => by show (-1000000000 : Int) < t * 5 % 7; omega)).1 1 1 1
    (by decide) (by decide) (by decide) (by decide) (by decide) (by decide)⟩

/-- C19 as stated fails for wide inputs: on `wideLayer` (width `2^24 + 2`,
`1 × 1` kernel) and the input `wideRow`, the window of the output position
`j = 2^24 + 1` is the single pixel `2^24 + 1`, but the `float` matrix of
indices holds `2^24` for it. -/
theorem backward_maxpool_records_forward_max_fails_wide :
    wideRow.rows = 1 ∧
      wideRow.cols = wideLayer.width * wideLayer.height * wideLayer.channels ∧
      (∀ t, wideRow.data t > -1000000000) ∧
      ¬ records_forward_max wideLayer wideRow 0 0 16777217 := by
  refine ⟨rfl, by decide, fun t => ?_, ?_⟩
  · show (if t = 16777217 then (1 : Int) else 0) > -1000000000
    split <;> decide
  rintro ⟨row, col, hpos, hidx, _⟩
  have hout : output_index wideLayer 0 0 16777217 =
      (0 * (((forward_maxpool_layer wideLayer wideRow).1.height - 1).tdiv
          (forward_maxpool_layer wideLayer wideRow).1.stride + 1) + 0) *
        (((forward_maxpool_layer wideLayer wideRow).1.width - 1).tdiv
          (forward_maxpool_layer wideLayer wideRow).1.stride + 1) + 16777217 := by decide
  have hscan : float_of_int
      (maxpool_scan (forward_maxpool_layer wideLayer wideRow).1 0 0 16777217).maxInx =
      16777216 := by decide
  rw [hout, backward_maxpool_indices_entry (forward_maxpool_layer wideLayer wideRow).1 0 0
    16777217 (by decide) (by decide) (by decide) (by decide) (by decide) (by decide),
    hscan] at hidx
  have hp : window_pad wideLayer.size = 0 := by decide
  unfold window_position at hpos
  rw [hp] at hpos
  have e1 : wideLayer.height = 1 := rfl
  have e2 : wideLayer.width = 16777218 := rfl
  have e3 : wideLayer.stride = 1 := rfl
  unfold pixel_index at hidx
  rw [e1, e2] at hidx
  rw [e1, e3] at hpos
  omega

/-- C19 (amended) at `poolLayer3` and its cached row as input: the index
recorded for the output position `(1, 1, 1)` is a window position holding the
forward output. -/
theorem backward_maxpool_records_forward_max_witness :
    poolLayer3.width * poolLayer3.height * poolLayer3.channels ≤ 2 ^ 24 ∧
      records_forward_max poolLayer3 poolLayer3.x 1 1 1 :=
  ⟨by decide, backward_maxpool_records_forward_max poolLayer3 poolLayer3.x (by decide)
    (by decide) (by decide) (by decide) (by decide) (by decide) (by decide) (by decide)
    (fun t _ _ => by show (-1000000000 : Int) < t * 5 % 7; omega) 1 1 1
    (by decide) (by decide) (by decide) (by decide) (by decide) (by decide)⟩

end PoolGradientExamples

section PoolExample

variable {α : Type} [LinearOrderedCommRing α]

theorem sumTo_four {β : Type} [AddCommMonoid β] (f : Int → β) :
    sumTo 4 f = f 0 + f 1 + f 2 + f 3 := by
  show ∑ i in Finset.range 4, f (i : Int) = _
  simp [Finset.sum_range_succ]

/-- Four unit gradients routed to four distinct cells. -/
theorem four_hot (q0 q1 q2 q3 t : Int) (h01 : q0 ≠ q1) (h02 : q0 ≠ q2) (h03 : q0 ≠ q3)
    (h12 : q1 ≠ q2) (h13 : q1 ≠ q3) (h23 : q2 ≠ q3) :
    ((if q0 = t then (1 : α) else 0) + (if q1 = t then 1 else 0) + (if q2 = t then 1 else 0) +
      (if q3 = t then 1 else 0)) = if t = q0 ∨ t = q1 ∨ t = q2 ∨ t = q3 then 1 else 0 := by
  by_cases h0 : q0 = t
  · subst h0
    simp [h01.symm, h02.symm, h03.symm]
  · by_cases h1 : q1 = t
    · subst h1
      simp [h01, h12.symm, h13.symm]
    · by_cases h2 : q2 = t
      · subst h2
        simp [h02, h12, h23.symm]
      · by_cases h3 : q3 = t
        · subst h3
          simp [h03, h13, h23]
        · have e0 : ¬ t = q0 := fun e => h0 e.symm
          have e1 : ¬ t = q1 := fun e => h1 e.symm
          have e2 : ¬ t = q2 := fun e => h2 e.symm
          have e3 : ¬ t = q3 := fun e => h3 e.symm
          simp [h0, h1, h2, h3, e0, e1, e2, e3]

/-- One quadrant of the `4 × 4` example: the index backward records for the
output position `p = 2*i + j` lies in the quadrant with top-left cell
`b = 8*i + 2*j`, holds the forward output, and the forward output bounds the
four values of the quadrant. -/
theorem quadrant_spec (x : matrix α) (hrows : x.rows = 1) (hcols : x.cols = 16)
    (hval : ∀ t, 0 ≤ t → t < 16 → x.data t > -1000000000)
    (i j p b : Int) (hi0 : 0 ≤ i) (hi : i < 2) (hj0 : 0 ≤ j) (hj : j < 2)
    (hp : p = i * 2 + j) (hb : b = i * 8 + j * 2) :
    ∃ q, (q = b ∨ q = b + 1 ∨ q = b + 4 ∨ q = b + 5) ∧
      backward_maxpool_indices (forward_maxpool_layer (pool_layer_4x4 x) x).1 p = q ∧
      x.data q = (forward_maxpool_layer (pool_layer_4x4 x) x).2.data p ∧
      x.data b ≤ x.data q ∧ x.data (b + 1) ≤ x.data q ∧ x.data (b + 4) ≤ x.data q ∧
      x.data (b + 5) ≤ x.data q := by
  have hout : output_index (pool_layer_4x4 x) 0 i j = p := by
    show (0 * ((4 - 1) / 2 + 1) + i) * ((4 - 1) / 2 + 1) + j = p
    omega
  have hpix : ∀ row col, pixel_index (pool_layer_4x4 x) 0 row col = row * 4 + col := by
    intro row col
    show 0 * (4 * 4) + row * 4 + col = _
    omega
  have hwin : ∀ row col, window_position (pool_layer_4x4 x) i j row col ↔
      i * 2 ≤ row ∧ row < i * 2 + 2 ∧ j * 2 ≤ col ∧ col < j * 2 + 2 := by
    intro row col
    have hp0 : window_pad (pool_layer_4x4 x).size = 0 := by
      show window_pad 2 = 0
      decide
    unfold window_position
    rw [hp0]
    show (i * 2 - 0 ≤ row ∧ row < i * 2 - 0 + 2 ∧ j * 2 - 0 ≤ col ∧ col < j * 2 - 0 + 2 ∧
      0 ≤ row ∧ row < 4 ∧ 0 ≤ col ∧ col < 4) ↔ _
    omega
  obtain ⟨row, col, hpos, hidx, hv, hmax, _⟩ :=
    forward_recorded_index_spec (pool_layer_4x4 x) x 0 i j
      (by show (1 : Int) ≤ 4; decide) (by show (1 : Int) ≤ 4; decide)
      (by show (1 : Int) ≤ 1; decide) (by show (1 : Int) ≤ 2; decide)
      (by show (1 : Int) ≤ 2; decide) (by show (4 : Int) * 4 * 1 ≤ 16777216; decide)
      hrows (by rw [hcols]; rfl) (fun t h0 h1 => hval t h0 (by
        have h2 : t < (4 : Int) * 4 * 1 := h1
        omega))
      (le_refl _) (by show (0 : Int) < 1; decide) hi0
      (by show i < (4 - 1) / 2 + 1; omega) hj0 (by show j < (4 - 1) / 2 + 1; omega)
  rw [hout, hpix] at hidx
  rw [hout, hpix] at hv
  have hr := (hwin row col).1 hpos
  refine ⟨row * 4 + col, by omega, hidx, hv, ?_, ?_, ?_, ?_⟩
  · have h := hmax (i * 2) (j * 2) ((hwin _ _).2 (by omega))
    rw [hpix, hpix] at h
    rw [show b = i * 2 * 4 + j * 2 by omega]; exact h
  · have h := hmax (i * 2) (j * 2 + 1) ((hwin _ _).2 (by omega))
    rw [hpix, hpix] at h
    rw [show b + 1 = i * 2 * 4 + (j * 2 + 1) by omega]; exact h
  · have h := hmax (i * 2 + 1) (j * 2) ((hwin _ _).2 (by omega))
    rw [hpix, hpix] at h
    rw [show b + 4 = (i * 2 + 1) * 4 + j * 2 by omega]; exact h
  · have h := hmax (i * 2 + 1) (j * 2 + 1) ((hwin _ _).2 (by omega))
    rw [hpix, hpix] at h
    rw [show b + 5 = (i * 2 + 1) * 4 + (j * 2 + 1) by omega]; exact h

/-- The forward output of a quadrant is the greatest of its four values. -/
theorem quadrant_isGreatest (d : Int → α) (a b c e q : Int) (y : α)
    (hq : q = a ∨ q = b ∨ q = c ∨ q = e) (hy : d q = y)
    (ha : d a ≤ d q) (hb : d b ≤ d q) (hc : d c ≤ d q) (he : d e ≤ d q) :
    IsGreatest {d a, d b, d c, d e} y := by
  constructor
  · rw [← hy]
    rcases hq with h | h | h | h <;> rw [h] <;> simp
  · intro v hv
    rw [← hy]
    simp only [Set.mem_insert_iff, Set.mem_singleton_iff] at hv
    rcases hv with h | h | h | h <;> rw [h] <;> assumption

/-- C14 (amended): the end-to-end max-pool example. For every one-row input
holding a `4 × 4` single-channel grid with all values greater than `-10^9`, a
max-pool layer with width 4, height 4, 1 channel, kernel size 2 and stride 2
returns on forward a `1 × 4` output whose entries are the maxima of the
top-left, top-right, bottom-left and bottom-right `2 × 2` quadrants, and
backward with an all-ones output gradient returns a `1 × 16` input gradient
with exactly one entry equal to 1 in each quadrant, at a position holding that
quadrant's maximum, and 0 everywhere else. -/
theorem maxpool_example_4x4 (x : matrix α) (hrows : x.rows = 1) (hcols : x.cols = 16)
    (hval : ∀ t, 0 ≤ t → t < 16 → x.data t > -1000000000) :
    pool_example_holds x := by
  obtain ⟨q0, hq0, hi0, hv0, ha0, hb0, hc0, he0⟩ :=
    quadrant_spec x hrows hcols hval 0 0 0 0 (by decide) (by decide) (by decide) (by decide)
      (by decide) (by decide)
  obtain ⟨q1, hq1, hi1, hv1, ha1, hb1, hc1, he1⟩ :=
    quadrant_spec x hrows hcols hval 0 1 1 2 (by decide) (by decide) (by decide) (by decide)
      (by decide) (by decide)
  obtain ⟨q2, hq2, hi2, hv2, ha2, hb2, hc2, he2⟩ :=
    quadrant_spec x hrows hcols hval 1 0 2 8 (by decide) (by decide) (by decide) (by decide)
      (by decide) (by decide)
  obtain ⟨q3, hq3, hi3, hv3, ha3, hb3, hc3, he3⟩ :=
    quadrant_spec x hrows hcols hval 1 1 3 10 (by decide) (by decide) (by decide) (by decide)
      (by decide) (by decide)
  norm_num at hq0 hq1 hq2 hq3 hb0 hc0 he0 hb1 hc1 he1 hb2 hc2 he2 hb3 hc3 he3
  refine ⟨hrows, rfl, quadrant_isGreatest x.data 0 1 4 5 q0 _ hq0 hv0 ha0 hb0 hc0 he0,
    quadrant_isGreatest x.data 2 3 6 7 q1 _ hq1 hv1 ha1 hb1 hc1 he1,
    quadrant_isGreatest x.data 8 9 12 13 q2 _ hq2 hv2 ha2 hb2 hc2 he2,
    quadrant_isGreatest x.data 10 11 14 15 q3 _ hq3 hv3 ha3 hb3 hc3 he3, rfl, rfl,
    q0, q1, q2, q3, hq0, hq1, hq2, hq3, hv0, hv1, hv2, hv3, ?_⟩
  intro t _ _
  rw [backward_maxpool_layer_data]
  have hN : (((forward_maxpool_layer (pool_layer_4x4 x) x).1.height - 1).tdiv
      (forward_maxpool_layer (pool_layer_4x4 x) x).1.stride + 1) *
      (((forward_maxpool_layer (pool_layer_4x4 x) x).1.width - 1).tdiv
        (forward_maxpool_layer (pool_layer_4x4 x) x).1.stride + 1) *
      (forward_maxpool_layer (pool_layer_4x4 x) x).1.channels = 4 := rfl
  rw [hN, sumTo_four, hi0, hi1, hi2, hi3]
  exact four_hot q0 q1 q2 q3 t (by omega) (by omega) (by omega) (by omega) (by omega) (by omega)

end PoolExample

section PoolExampleInputs

/-- C14 as stated fails below the sentinel: for the `4 × 4` grid of the value
`-2000000000` the forward output of the top-left quadrant is `-1000000000`,
which is none of the quadrant's values. -/
theorem maxpool_example_fails_below_sentinel :
    gridBelowSentinel.rows = 1 ∧ gridBelowSentinel.cols = 16 ∧
      ¬ pool_example_holds gridBelowSentinel := by
  refine ⟨rfl, rfl, ?_⟩
  intro h
  have hm := h.2.2.1.1
  have e : (forward_maxpool_layer (pool_layer_4x4 gridBelowSentinel) gridBelowSentinel).2.data 0 =
      -1000000000 := by decide
  rw [e] at hm
  have hm2 : (-1000000000 : Int) ∈
      ({-2000000000, -2000000000, -2000000000, -2000000000} : Set Int) := hm
  simp at hm2

/-- C14 (amended) at the grid `gridSample`. -/
theorem maxpool_example_4x4_witness :
    gridSample.rows = 1 ∧ gridSample.cols = 16 ∧ pool_example_holds gridSample :=
  ⟨rfl, rfl, maxpool_example_4x4 gridSample rfl rfl
    (fun t _ _ => by show (-1000000000 : Int) < t * 7 % 11; omega)⟩

end PoolExampleInputs

section RoundTrip

variable {α : Type} [CommRing α]

theorem tdiv_one_eq (a : Int) (h : 0 ≤ a) : a.tdiv 1 = a := by
  rw [Int.tdiv_eq_ediv h (by decide), Int.ediv_one]

theorem tmod_one_eq (a : Int) (h : 0 ≤ a) : a.tmod 1 = 0 := by
  rw [Int.tmod_eq_emod h (by decide), Int.emod_one]

/-- Every flat index below `c * h * w` is the index of one cell
(`k`, `i`, `j`) of a `c × h × w` block. -/
theorem flat_index_decompose (c h w t : Int) (hh : 0 < h) (hw : 0 < w) (ht0 : 0 ≤ t)
    (ht : t < c * h * w) :
    ∃ k i j, 0 ≤ k ∧ k < c ∧ 0 ≤ i ∧ i < h ∧ 0 ≤ j ∧ j < w ∧ t = (k * h + i) * w + j := by
  refine ⟨t / w / h, t / w % h, t % w, ?_, ?_, Int.emod_nonneg _ (by omega),
    Int.emod_lt_of_pos _ hh, Int.emod_nonneg _ (by omega), Int.emod_lt_of_pos _ hw, ?_⟩
  · exact Int.ediv_nonneg (Int.ediv_nonneg ht0 (by omega)) (by omega)
  · have h1 : t / w < c * h := Int.ediv_lt_of_lt_mul hw ht
    exact Int.ediv_lt_of_lt_mul hh h1
  · have e1 := Int.ediv_add_emod (t / w) h
    have e2 := Int.ediv_add_emod t w
    rw [mul_comm (t / w / h) h, e1, mul_comm (t / w) w, e2]

/-- The image `col2im` returns has the dimensions it is called with. -/
theorem col2im_dims (width height channels : Int) (col : matrix α) (size stride : Int) :
    (col2im width height channels col size stride).w = width ∧
      (col2im width height channels col size stride).h = height ∧
      (col2im width height channels col size stride).c = channels := by
  unfold col2im
  dsimp only
  refine forRange_preserves _ _
    (fun (im : image α) => im.w = width ∧ im.h = height ∧ im.c = channels) _
    ⟨rfl, rfl, rfl⟩ ?_
  intro k im _ _ h
  refine forRange_preserves _ _
    (fun (im : image α) => im.w = width ∧ im.h = height ∧ im.c = channels) _ h ?_
  intro i im _ _ h
  refine forRange_preserves _ _
    (fun (im : image α) => im.w = width ∧ im.h = height ∧ im.c = channels) _ h ?_
  intro j im _ _ h
  have hset : ∀ (row col channel pad : Int) (val : α),
      (set_pixel_value im row col channel pad val).w = width ∧
        (set_pixel_value im row col channel pad val).h = height ∧
        (set_pixel_value im row col channel pad val).c = channels := by
    intro row col channel pad val
    have := set_pixel_value_data im width height row col channel pad val h.1 h.2.1
    exact ⟨this.1, this.2.1, this.2.2.1.trans h.2.2⟩
  exact hset _ _ _ _ _

/-- With a `1 × 1` kernel of stride `1`, `im2col` copies the image buffer. -/
theorem im2col_1x1_data (im : image α) (hw : 1 ≤ im.w) (hh : 1 ≤ im.h) (t : Int)
    (ht0 : 0 ≤ t) (ht : t < im.c * im.h * im.w) :
    (im2col im 1 1).data t = im.data t := by
  obtain ⟨k, i, j, hk0, hk, hi0, hi, hj0, hj, rfl⟩ :=
    flat_index_decompose im.c im.h im.w t (by omega) (by omega) ht0 ht
  have eh : (im.h - 1).tdiv 1 + 1 = im.h := by rw [tdiv_one_eq _ (by omega)]; ring
  have ew : (im.w - 1).tdiv 1 + 1 = im.w := by rw [tdiv_one_eq _ (by omega)]; ring
  have pad1 : (if (1 : Int).tmod 2 = 0 then 0 else (1 : Int).tdiv 2) = 0 := by decide
  have h := im2col_entry im 1 1 k i j hk0 (by rw [mul_one, mul_one]; exact hk) hi0
    (by rw [eh]; exact hi) hj0 (by rw [ew]; exact hj)
  rw [eh, ew, pad1] at h
  simp only [tdiv_one_eq k hk0, tmod_one_eq k hk0] at h
  rw [h]
  unfold get_pixel_value
  dsimp only
  simp only [zero_add, mul_one, sub_zero]
  rw [if_neg (by omega)]
  congr 1
  ring

/-- With a `1 × 1` kernel of stride `1`, `col2im` copies the patch matrix into
the image buffer. -/
theorem col2im_1x1_data (width height channels : Int) (col : matrix α) (hw : 1 ≤ width)
    (hh : 1 ≤ height) (hc : 1 ≤ channels) (q : Int) (hq0 : 0 ≤ q)
    (hq : q < channels * height * width) :
    (col2im width height channels col 1 1).data q = col.data q := by
  have pad1 : (0 : Int) = if (1 : Int).tmod 2 = 0 then 0 else (1 : Int).tdiv 2 := by decide
  have hoh : height = (height + 2 * 0 - 1).tdiv 1 + 1 := by
    rw [tdiv_one_eq _ (by omega)]; ring
  have how : width = (width + 2 * 0 - 1).tdiv 1 + 1 := by
    rw [tdiv_one_eq _ (by omega)]; ring
  rw [col2im_data width height channels col 1 1 0 height width pad1 hoh how q, mul_one, mul_one]
  refine Eq.trans ?_ (sumTo_single (channels * height * width) q col.data hq0 hq)
  rw [sumTo_mul (channels * height) width _ (mul_nonneg (by omega) (by omega)) (by omega),
    sumTo_mul channels height _ (by omega) (by omega)]
  apply sumTo_congr
  intro k hk0 hk
  apply sumTo_congr
  intro i hi0 hi
  apply sumTo_congr
  intro j hj0 hj
  beta_reduce
  simp only [tdiv_one_eq k hk0, tmod_one_eq k hk0, zero_add, mul_one, sub_zero]
  have eidx : j + width * (i + height * k) = (k * height + i) * width + j := by ring
  have hcond : i ≥ 0 ∧ j ≥ 0 ∧ i < height ∧ j < width := ⟨hi0, hj0, hi, hj⟩
  rw [eidx]
  by_cases e : (k * height + i) * width + j = q
  · rw [if_pos ⟨hcond, e⟩, if_pos e]
  · rw [if_neg (fun h => e h.2), if_neg e]

/-- C22: the patch-transform round trip for a `1 × 1` kernel. For every image
`I` with `w, h, c ≥ 1`, `im2col(I, 1, 1)` is the `c × (w*h)` matrix whose row
`k` holds channel plane `k` of `I` unchanged, and
`col2im(w, h, c, im2col(I, 1, 1), 1, 1)` has the dimensions and the pixels of
`I`. -/
theorem im2col_col2im_round_trip_1x1 (im : image α) (hw : 1 ≤ im.w) (hh : 1 ≤ im.h)
    (hc : 1 ≤ im.c) :
    (im2col im 1 1).rows = im.c ∧ (im2col im 1 1).cols = im.w * im.h ∧
      (∀ k p, 0 ≤ k → k < im.c → 0 ≤ p → p < im.w * im.h →
        (im2col im 1 1).data (k * (im2col im 1 1).cols + p) = im.data (k * (im.w * im.h) + p)) ∧
      (col2im im.w im.h im.c (im2col im 1 1) 1 1).w = im.w ∧
      (col2im im.w im.h im.c (im2col im 1 1) 1 1).h = im.h ∧
      (col2im im.w im.h im.c (im2col im 1 1) 1 1).c = im.c ∧
      ∀ q, 0 ≤ q → q < im.w * im.h * im.c →
        (col2im im.w im.h im.c (im2col im 1 1) 1 1).data q = im.data q := by
  have eh : (im.h - 1).tdiv 1 + 1 = im.h := by rw [tdiv_one_eq _ (by omega)]; ring
  have ew : (im.w - 1).tdiv 1 + 1 = im.w := by rw [tdiv_one_eq _ (by omega)]; ring
  have hcols : (im2col im 1 1).cols = im.w * im.h := by rw [im2col_cols, eh, ew]
  have hdims := col2im_dims im.w im.h im.c (im2col im 1 1) 1 1
  refine ⟨by rw [im2col_rows, mul_one, mul_one], hcols, ?_, hdims.1, hdims.2.1, hdims.2.2, ?_⟩
  · intro k p hk0 hk hp0 hp
    rw [hcols]
    apply im2col_1x1_data im hw hh
    · exact mul_add_nonneg _ _ _ hk0 hp0 (mul_nonneg (by omega) (by omega))
    · have := mul_add_lt im.c (im.w * im.h) k p hk hp (mul_nonneg (by omega) (by omega))
      have e : im.c * im.h * im.w = im.c * (im.w * im.h) := by ring
      rw [e]; exact this
  · intro q hq0 hq
    have e : im.w * im.h * im.c = im.c * im.h * im.w := by ring
    rw [e] at hq
    rw [col2im_1x1_data im.w im.h im.c _ hw hh hc q hq0 hq]
    exact im2col_1x1_data im hw hh q hq0 hq

end RoundTrip

section RoundTripExamples

/-- C22 at the `2 × 2` one-channel image `image2x2`: `im2col` with a `1 × 1`
kernel gives a `1 × 4` matrix, and `col2im` of it has the pixels of the
image. -/
theorem im2col_col2im_round_trip_1x1_witness :
    1 ≤ image2x2.w ∧ 1 ≤ image2x2.h ∧ 1 ≤ image2x2.c ∧
      (im2col image2x2 1 1).rows = 1 ∧ (im2col image2x2 1 1).cols = 4 ∧
      ∀ q, 0 ≤ q → q < image2x2.w * image2x2.h * image2x2.c →
        (col2im image2x2.w image2x2.h image2x2.c (im2col image2x2 1 1) 1 1).data q =
          image2x2.data q :=
  have h := im2col_col2im_round_trip_1x1 image2x2 (by decide) (by decide) (by decide)
  ⟨by decide, by decide, by decide, h.1, h.2.1, h.2.2.2.2.2.2⟩

end RoundTripExamples

end Uwnet
